import Mathlib

/-!
AhoyScripts / CMDtools : a verification development

Shallow embedding of `src/CMDtools/stringMath.cpp` (namespace `StringMath`),
`src/CMDtools/replace.cpp` (namespace `Replace`) and `src/CMDtools/swap.cpp`
(namespace `Swap`).

* `std::string` is a `List Char`, one list element per `char`.
* `double` is `Double` below: an exact model of IEEE-754 binary64 with
  round-to-nearest-even, written with `Nat`/`Int` arithmetic only.
* `std::strtod` and `operator<<` with `std::fixed`/`setprecision(6)` are the
  C library's; they are modelled after ISO C and glibc (`strtod`,
  `strtod_hex`, `strtod_decimal`, `render_fixed6`).
* `std::string::find`, `replace`, `substr`, `erase` are modelled on lists
  (`Replace.find`, `take`, `drop`).
* A read outside a string or a loop that does not finish within its bound
  is a `Fault`.
-/

namespace StringMath

/-! ## IEEE-754 binary64 -/

/-- A binary64 value. `finite neg m e` stands for `(-1)^neg * m * 2^e`. -/
inductive Double where
  | finite (neg : Bool) (m : Nat) (e : Int)
  | inf (neg : Bool)
  | nan (neg : Bool)
  deriving DecidableEq

/-- Number of binary digits of `n`, with `fuel` an upper bound on it. -/
def bitsAux : Nat → Nat → Nat
  | 0, _ => 0
  | fuel + 1, n => if n = 0 then 0 else bitsAux fuel (n / 2) + 1

/-- Number of binary digits of `n`: `2^(bits n - 1) ≤ n < 2^(bits n)` for `n > 0`. -/
def bits (n : Nat) : Nat := bitsAux n n

/-- Nearest natural number to `a / b`, ties to even. -/
def rne (a b : Nat) : Nat :=
  let q := a / b
  let r := a % b
  if 2 * r < b then q
  else if b < 2 * r then q + 1
  else if q % 2 = 0 then q else q + 1

/-- Binary exponent `e` with `2^52 ≤ (p/q) / 2^e < 2^53`, for `p, q > 0`. -/
def normExp (p q : Nat) : Int :=
  if q * 2 ^ bits p ≤ p * 2 ^ bits q then (bits p : Int) - (bits q : Int) - 52
  else (bits p : Int) - (bits q : Int) - 53

/-- Nearest binary64 value to `(-1)^neg * p / q` (round to nearest, ties to
even; gradual underflow; overflow to infinity). -/
def round_rat (neg : Bool) (p q : Nat) : Double :=
  if p = 0 then .finite neg 0 0
  else
    let e : Int := max (normExp p q) (-1074)
    let m := rne (p * 2 ^ (-e).toNat) (q * 2 ^ e.toNat)
    let m1 := if m = 2 ^ 53 then 2 ^ 52 else m
    let e1 := if m = 2 ^ 53 then e + 1 else e
    if 971 < e1 then .inf neg else .finite neg m1 e1

/-- Nearest binary64 value to `(-1)^neg * (p / q) * b^k`. -/
def round_scaled (neg : Bool) (p q : Nat) (b : Nat) (k : Int) : Double :=
  round_rat neg (p * b ^ k.toNat) (q * b ^ (-k).toNat)

/-- Whether `v` is exactly `p / q` in magnitude. -/
def Double.exactly (v : Double) (p q : Nat) : Bool :=
  match v with
  | .finite _ m e => m * 2 ^ e.toNat * q == p * 2 ^ (-e).toNat
  | _ => false

/-- Tininess as `strtod` judges it (after rounding): `p / q`, rounded to 53
significant bits with an unbounded exponent, is below the smallest normal
number `2^-1022` in magnitude. -/
def tiny_after_rounding (p q : Nat) : Bool :=
  if p = 0 then false
  else
    decide (normExp p q < -1075) ||
      (decide (normExp p q = -1075) &&
        decide (rne (p * 2 ^ (-(normExp p q)).toNat) (q * 2 ^ (normExp p q).toNat) < 2 ^ 53))

/-- Whether rounding `p / q` to `v` is a range error for `strtod`: overflow, or
a result that underflows (tiny and inexact). -/
def range_error (v : Double) (p q : Nat) : Bool :=
  match v with
  | .inf _ => true
  | _ => tiny_after_rounding p q && !(v.exactly p q)

/-- The NaN an invalid operation produces (x86-64: sign bit set). -/
def Double.defaultNaN : Double := .nan true

/-- Zero test, `v == 0.0` in C++: true for `+0.0` and `-0.0` only. -/
def Double.isZero : Double → Bool
  | .finite _ m _ => m == 0
  | _ => false

/-- IEEE-754 multiplication, `x * y`. -/
def Double.mul : Double → Double → Double
  | .nan s, _ => .nan s
  | _, .nan t => .nan t
  | .inf s, .inf t => .inf (xor s t)
  | .inf s, .finite t n _ => if n = 0 then Double.defaultNaN else .inf (xor s t)
  | .finite s m _, .inf t => if m = 0 then Double.defaultNaN else .inf (xor s t)
  | .finite s m e, .finite t n f => round_scaled (xor s t) (m * n) 1 2 (e + f)

/-- IEEE-754 division, `x / y`. -/
def Double.div : Double → Double → Double
  | .nan s, _ => .nan s
  | _, .nan t => .nan t
  | .inf _, .inf _ => Double.defaultNaN
  | .inf s, .finite t _ _ => .inf (xor s t)
  | .finite s _ _, .inf t => .finite (xor s t) 0 0
  | .finite s m e, .finite t n f =>
    if n = 0 then (if m = 0 then Double.defaultNaN else .inf (xor s t))
    else round_scaled (xor s t) m n 2 (e - f)

/-- The double nearest to the natural number `n`. -/
def Double.ofNat (n : Nat) : Double := round_rat false n 1

/-! ## Characters and decimal text -/

/-- Faults of the embedding: an access outside a string, or a loop that
exceeded its iteration bound. -/
inductive Fault where
  | bounds
  | fuel
  deriving DecidableEq

deriving instance DecidableEq for Except

/-- The character for the decimal digit `d < 10`. -/
def digitChar (d : Nat) : Char := Char.ofNat (48 + d)

/-- Value of a decimal or hexadecimal digit character. -/
def digitVal (c : Char) : Nat :=
  if c.isDigit then c.toNat - 48
  else if 97 ≤ c.toNat ∧ c.toNat ≤ 102 then c.toNat - 87
  else c.toNat - 55

/-- Hexadecimal digit test, `isxdigit` in the C locale. -/
def isXDigit (c : Char) : Bool :=
  c.isDigit || (97 ≤ c.toNat && c.toNat ≤ 102) || (65 ≤ c.toNat && c.toNat ≤ 70)

/-- White-space test, `isspace` in the C locale. -/
def isspace (c : Char) : Bool :=
  c.toNat == 32 || (9 ≤ c.toNat && c.toNat ≤ 13)

/-- Value of a digit string in base `b`, most significant digit first. -/
def digitsVal (b : Nat) (ds : List Char) : Nat :=
  ds.foldl (fun acc c => b * acc + digitVal c) 0

/-- Decimal digits of `n` put in front of `acc`, most significant first. -/
def natToDecAux : Nat → Nat → List Char → List Char
  | 0, _, acc => acc
  | fuel + 1, n, acc =>
    if n / 10 = 0 then digitChar (n % 10) :: acc
    else natToDecAux fuel (n / 10) (digitChar (n % 10) :: acc)

/-- Decimal numeral of `n`, without leading zeros (`0` gives one digit). -/
def natToDec (n : Nat) : List Char := natToDecAux (n + 1) n []

/-- The `w` lowest decimal digits of `n`, zero padded. -/
def fixedDigits : Nat → Nat → List Char
  | 0, _ => []
  | w + 1, n => fixedDigits w (n / 10) ++ [digitChar (n % 10)]

/-! ## Output formatting -/

/-- Sign text of a rendered number. -/
def signText (neg : Bool) : List Char := if neg then [ '-' ] else []

/-- The magnitude `m * 2^e` in units of `10^-6`, rounded to nearest, ties to even. -/
def micro (m : Nat) (e : Int) : Nat :=
  rne (m * 10 ^ 6 * 2 ^ e.toNat) (2 ^ (-e).toNat)

/-- `oss.setf(std::ios::fixed); oss << std::setprecision(6) << v; oss.str()`:
the correctly rounded `%.6f` rendering. -/
def render_fixed6 : Double → List Char
  | .nan s => signText s ++ "nan".toList
  | .inf s => signText s ++ "inf".toList
  | .finite s m e =>
    signText s ++ natToDec (micro m e / 10 ^ 6) ++ [ '.' ] ++ fixedDigits 6 (micro m e % 10 ^ 6)

/-- `while (!out.empty() && out.back() == '0') out.pop_back();` -/
def strip_trailing_zeros (out : List Char) : List Char :=
  (out.reverse.dropWhile (fun c => c == '0')).reverse

/-- Lines 72-80 of `format_float`, on the intermediate string `out`. -/
def trim_fixed (out : List Char) : List Char :=
  if out.contains '.' then
    let out1 := strip_trailing_zeros out
    if out1.getLast? = some '.' then out1 ++ [ '0' ] else out1
  else out ++ ".0".toList

/-- `format_float`. -/
def format_float (v : Double) : List Char := trim_fixed (render_fixed6 v)

/-! ## `strtod` -/

/-- What `strtod` hands back: `consumed = end - start` (zero when no
conversion is performed), the value, and whether `errno` is `ERANGE`. -/
structure StrtodResult where
  consumed : Nat
  val : Double
  erange : Bool
  deriving DecidableEq

/-- The digits of an exponent, `u` being what follows the marker and sign
(`k` characters): the number of characters of the whole exponent part and
its value, `(0, 0)` when no digit follows. -/
def exponent_digits (k : Nat) (negative : Bool) (u : List Char) : Nat × Int :=
  if (u.takeWhile Char.isDigit).isEmpty then (0, 0)
  else (k + (u.takeWhile Char.isDigit).length,
    if negative then -(digitsVal 10 (u.takeWhile Char.isDigit) : Int)
    else (digitsVal 10 (u.takeWhile Char.isDigit) : Int))

/-- Exponent part `marker [sign] digits` at the head of `s`: the number of
characters it takes and its value, `(0, 0)` when there is none. -/
def read_exponent (lower upper : Char) (s : List Char) : Nat × Int :=
  match s with
  | [] => (0, 0)
  | c :: t =>
    if c = lower ∨ c = upper then
      match t with
      | '-' :: u => exponent_digits 2 true u
      | '+' :: u => exponent_digits 2 false u
      | _ => exponent_digits 1 false t
    else (0, 0)

/-- Fractional part `. digits` at the head of `s`: its digits and whether the
point is there. -/
def read_fraction (isDig : Char → Bool) (s : List Char) : List Char × Bool :=
  match s with
  | '.' :: t => (t.takeWhile isDig, true)
  | _ => ([], false)

/-- Rest of `s` after the fractional part. -/
def after_fraction (isDig : Char → Bool) (s : List Char) : List Char :=
  match s with
  | '.' :: t => t.dropWhile isDig
  | _ => s

/-- Decimal floating-point numeral at the head of `s`:
`digits [. digits] [(e|E) [sign] digits]` with at least one digit. -/
def strtod_decimal (neg : Bool) (s : List Char) : Option StrtodResult :=
  let ip := s.takeWhile Char.isDigit
  let r1 := s.dropWhile Char.isDigit
  let fp := (read_fraction Char.isDigit r1).1
  let dot := (read_fraction Char.isDigit r1).2
  let ex := read_exponent 'e' 'E' (after_fraction Char.isDigit r1)
  if ip.isEmpty && fp.isEmpty then none
  else
    let mant := digitsVal 10 (ip ++ fp)
    let k : Int := ex.2 - (fp.length : Int)
    let v := round_scaled neg mant 1 10 k
    some ⟨ip.length + (if dot then 1 + fp.length else 0) + ex.1, v,
      range_error v (mant * 10 ^ k.toNat) (10 ^ (-k).toNat)⟩

/-- Hexadecimal floating-point numeral, `s` being what follows `0x`:
`hexdigits [. hexdigits] [(p|P) [sign] digits]` with at least one hex digit.
The count includes the two characters of `0x`. -/
def strtod_hex (neg : Bool) (s : List Char) : Option StrtodResult :=
  let ip := s.takeWhile isXDigit
  let r1 := s.dropWhile isXDigit
  let fp := (read_fraction isXDigit r1).1
  let dot := (read_fraction isXDigit r1).2
  let ex := read_exponent 'p' 'P' (after_fraction isXDigit r1)
  if ip.isEmpty && fp.isEmpty then none
  else
    let mant := digitsVal 16 (ip ++ fp)
    let k : Int := ex.2 - 4 * (fp.length : Int)
    let v := round_scaled neg mant 1 2 k
    some ⟨2 + ip.length + (if dot then 1 + fp.length else 0) + ex.1, v,
      range_error v (mant * 2 ^ k.toNat) (2 ^ (-k).toNat)⟩

/-- Whether `s` starts with the lower-case word `w`, ignoring case. -/
def starts_with_ci (w s : List Char) : Bool :=
  (s.take w.length).map Char.toLower == w

/-- Length of `( n-char-sequence )` at the head of `s`, zero if there is none. -/
def nan_payload (s : List Char) : Nat :=
  match s with
  | '(' :: t =>
    let body := t.takeWhile (fun c => c.isAlphanum || c == '_')
    match t.dropWhile (fun c => c.isAlphanum || c == '_') with
    | ')' :: _ => body.length + 2
    | _ => 0
  | _ => 0

/-- What follows the prefix `0x` or `0X` of `s`, if `s` starts with it. -/
def after_hex_mark (s : List Char) : Option (List Char) :=
  match s with
  | c :: x :: t => if c = '0' ∧ (x = 'x' ∨ x = 'X') then some t else none
  | _ => none

/-- The subject sequence after white space and sign. -/
def strtod_body (neg : Bool) (s : List Char) : Option StrtodResult :=
  if starts_with_ci "infinity".toList s then some ⟨8, .inf neg, false⟩
  else if starts_with_ci "inf".toList s then some ⟨3, .inf neg, false⟩
  else if starts_with_ci "nan".toList s then some ⟨3 + nan_payload (s.drop 3), .nan neg, false⟩
  else
    match (after_hex_mark s).bind (strtod_hex neg) with
    | some r => some r
    | none => strtod_decimal neg s

/-- The same result with `n` more characters consumed in front. -/
def StrtodResult.shift (n : Nat) (r : StrtodResult) : StrtodResult :=
  ⟨n + r.consumed, r.val, r.erange⟩

/-- Whether `s` starts with a sign character. -/
def has_sign (s : List Char) : Bool :=
  s.head? == some '-' || s.head? == some '+'

/-- `std::strtod(start, &end)` on the characters of `start` up to its
terminator: skips white space, reads an optional sign, then the longest
numeral (decimal, hexadecimal, infinity or NaN). -/
def strtod (s : List Char) : StrtodResult :=
  let ws := (s.takeWhile isspace).length
  let body := s.dropWhile isspace
  let r :=
    if has_sign body then
      (strtod_body (body.head? == some '-') body.tail).map (StrtodResult.shift 1)
    else strtod_body false body
  match r with
  | some r => r.shift ws
  | none => ⟨0, .finite false 0 0, false⟩

/-- `s.c_str() + i`: the characters from offset `i` up to the terminating NUL. -/
def c_str_from (s : List Char) (i : Nat) : List Char :=
  (s.drop i).takeWhile (fun c => c != Char.ofNat 0)

/-! ## `stringMath.cpp` -/

/-- `s[i]` with the index checked. -/
def char_at (s : List Char) (i : Nat) : Except Fault Char :=
  match s[i]? with
  | some c => .ok c
  | none => .error .bounds

/-- `parse_double`: the value, or `none` where the source returns `false`. -/
def parse_double (s : List Char) : Option Double :=
  let r := strtod (c_str_from s 0)
  if r.consumed = 0 then none
  else if r.erange then none
  else if ((c_str_from s 0).drop r.consumed).all isspace then some r.val
  else none

/-- `is_number_start`. -/
def is_number_start (s : List Char) (i : Nat) : Except Fault Bool :=
  match char_at s i with
  | .error f => .error f
  | .ok c =>
    if c.isDigit || c == '.' then .ok true
    else if (c == '+' || c == '-') && decide (i + 1 < s.length) then
      match char_at s (i + 1) with
      | .error f => .error f
      | .ok n => .ok (n.isDigit || n == '.')
    else .ok false

/-- `read_number_token`: `(len, val)`, or `none` where the source returns `false`. -/
def read_number_token (s : List Char) (i : Nat) : Option (Nat × Double) :=
  let r := strtod (c_str_from s i)
  if r.consumed = 0 then none
  else if r.erange then none
  else if 0 < r.consumed then some (r.consumed, r.val) else none

/-- `doMult ? (val * factor) : (val / factor)`. -/
def apply_transform (doMult : Bool) (factor val : Double) : Double :=
  if doMult then val.mul factor else val.div factor

/-- The `for` loop of `process_line` from offset `i` with `out` built so far;
`fuel` bounds the number of iterations. -/
def process_loop (line : List Char) (doMult : Bool) (factor : Double) :
    Nat → Nat → List Char → Except Fault (List Char)
  | fuel, i, out =>
    if i < line.length then
      match fuel with
      | 0 => .error .fuel
      | fuel + 1 =>
        match is_number_start line i with
        | .error f => .error f
        | .ok true =>
          match read_number_token line i with
          | some (len, val) =>
            process_loop line doMult factor fuel (i + len)
              (out ++ format_float (apply_transform doMult factor val))
          | none =>
            match char_at line i with
            | .error f => .error f
            | .ok c => process_loop line doMult factor fuel (i + 1) (out ++ [c])
        | .ok false =>
          match char_at line i with
          | .error f => .error f
          | .ok c => process_loop line doMult factor fuel (i + 1) (out ++ [c])
    else .ok out

/-- `process_line`: at most `line.size()` iterations are allowed. -/
def process_line (line : List Char) (doMult : Bool) (factor : Double) :
    Except Fault (List Char) :=
  process_loop line doMult factor line.length 0 []

/-! ## `main` of `stringMath.cpp` -/

/-- What a run of the program leaves behind: its exit code and standard output. -/
structure Run where
  exit : Nat
  stdout : List Char
  deriving DecidableEq

/-- The locals of `main` that the argument loop sets. -/
structure ArgState where
  inText : List Char
  haveInText : Bool
  haveMult : Bool
  haveDiv : Bool
  multVal : Double
  divVal : Double
  deriving DecidableEq

/-- The locals of `main` before the argument loop. -/
def ArgState.init : ArgState :=
  ⟨[], false, false, false, .finite false 0 0, .finite false 0 0⟩

/-- Text written by `usage()`. -/
def usage_text : List Char :=
  ("stringMath - apply multiply/divide to all numbers in a string\n" ++
   "Usage:\n" ++
   "  stringMath [-in \"TEXT\"] (-mult X | -div X)\n" ++
   "If -in is omitted, reads from stdin (all lines).\n").toList

/-- The argument loop of `main` over `argv[1..]`: the locals at its end, or
the run that an early `return` gives. -/
def arg_loop : List (List Char) → ArgState → Except Run ArgState
  | [], st => .ok st
  | [a], _ =>
    if a = "-h".toList ∨ a = "--help".toList then .error ⟨0, usage_text⟩
    else .error ⟨2, usage_text⟩
  | a :: v :: rest, st =>
    if a = "-in".toList ∨ a = "--in".toList then
      arg_loop rest ⟨v, true, st.haveMult, st.haveDiv, st.multVal, st.divVal⟩
    else if a = "-mult".toList then
      match parse_double v with
      | none => .error ⟨2, []⟩
      | some x => arg_loop rest ⟨st.inText, st.haveInText, true, st.haveDiv, x, st.divVal⟩
    else if a = "-div".toList then
      match parse_double v with
      | none => .error ⟨2, []⟩
      | some x => arg_loop rest ⟨st.inText, st.haveInText, st.haveMult, true, st.multVal, x⟩
    else if a = "-h".toList ∨ a = "--help".toList then .error ⟨0, usage_text⟩
    else .error ⟨2, usage_text⟩

/-- `if (!line.empty() && line.back() == '\r') line.pop_back();` -/
def strip_cr (line : List Char) : List Char :=
  if line.getLast? = some (Char.ofNat 13) then line.dropLast else line

/-- Filter mode: every line of standard input rewritten and written with a newline. -/
def filter_lines (doMult : Bool) (factor : Double) :
    List (List Char) → Except Fault (List Char)
  | [] => .ok []
  | line :: rest =>
    match process_line (strip_cr line) doMult factor with
    | .error f => .error f
    | .ok r =>
      match filter_lines doMult factor rest with
      | .error f => .error f
      | .ok out => .ok (r ++ [Char.ofNat 10] ++ out)

/-- `main`, given `argv[1..]` and the lines `std::getline` reads from standard input. -/
def main (argv : List (List Char)) (stdin : List (List Char)) : Except Fault Run :=
  match arg_loop argv ArgState.init with
  | .error r => .ok r
  | .ok st =>
    if st.haveMult == st.haveDiv then .ok ⟨2, []⟩
    else
      let doMult := st.haveMult
      let factor := if doMult then st.multVal else st.divVal
      if factor.isZero then .ok ⟨2, []⟩
      else if st.haveInText then
        match process_line st.inText doMult factor with
        | .error f => .error f
        | .ok r => .ok ⟨0, r ++ [Char.ofNat 10]⟩
      else
        match filter_lines doMult factor stdin with
        | .error f => .error f
        | .ok out => .ok ⟨0, out⟩

/-! ## Partition of a line into literal characters and tokens -/

/-- A piece of a line as `process_line` walks through it: one character copied
as it is, or a span read as a number with value `val`. -/
inductive Segment where
  | lit (c : Char)
  | tok (span : List Char) (val : Double)
  deriving DecidableEq

/-- The characters of the line that the segment covers. -/
def Segment.src : Segment → List Char
  | .lit c => [c]
  | .tok span _ => span

/-- The characters written for the segment. -/
def Segment.out (doMult : Bool) (factor : Double) : Segment → List Char
  | .lit c => [c]
  | .tok _ val => format_float (apply_transform doMult factor val)

/-- The segments `segs` lie one after the other in `line`, from offset `i` to
the end of the line, and every token segment is a non-empty span that
`read_number_token` accepts at an offset where `is_number_start` holds. -/
def Partition (line : List Char) : Nat → List Segment → Prop
  | i, [] => i = line.length
  | i, .lit c :: rest => char_at line i = .ok c ∧ Partition line (i + 1) rest
  | i, .tok span val :: rest =>
    span ≠ [] ∧ span = (line.drop i).take span.length ∧ i + span.length ≤ line.length ∧
    is_number_start line i = .ok true ∧
    read_number_token line i = some (span.length, val) ∧
    Partition line (i + span.length) rest

/-- The character after offset `i` of `s` exists and is a digit or a point. -/
def next_is_numeric (s : List Char) (i : Nat) : Bool :=
  match s[i + 1]? with
  | some n => n.isDigit || n == '.'
  | none => false

/-- The value `v` with its sign bit set to `s`. -/
def Double.withSign (s : Bool) : Double → Double
  | .finite _ m e => .finite s m e
  | .inf _ => .inf s
  | .nan _ => .nan s

/-- The result `r` with the sign bit of its value set to `s`. -/
def StrtodResult.withSign (s : Bool) (r : StrtodResult) : StrtodResult :=
  ⟨r.consumed, r.val.withSign s, r.erange⟩

/-- Characters that can occur in the output of `format_float`. -/
def is_format_char (c : Char) : Bool :=
  c.isDigit || c == '-' || c == '.' || c == 'n' || c == 'a' || c == 'i' || c == 'f'

/-- The rational number `m * 2^e`. -/
def fval (m : Nat) (e : Int) : ℚ := (m : ℚ) * 2 ^ e

/-- A value that a binary64 can hold: at most 53 significant bits and an
exponent in the range of the format. -/
def Double.valid : Double → Bool
  | .finite _ m e => decide (m < 2 ^ 53) && decide (-1074 ≤ e) && decide (e ≤ 971)
  | _ => true

/-- The rational number a finite double stands for (zero for the others). -/
def Double.toRat : Double → ℚ
  | .finite s m e => (if s then -1 else 1) * fval m e
  | _ => 0

/-! ## The pieces of a line, one pass after the other -/

/-- The value that `strtod` reads from the text that `format_float` writes
for `x`. -/
def reread (x : Double) : Double := (strtod (format_float x)).val

/-- The pieces of the text `u` in the order in which the loop of
`process_line` meets them, each decided as the loop decides it from the text
that starts at the piece: a token where `is_number_start` holds and
`read_number_token` accepts, a literal character otherwise. `fuel` bounds the
number of pieces. -/
def scan : Nat → List Char → List Segment
  | 0, _ => []
  | _ + 1, [] => []
  | fuel + 1, c :: rest =>
    match is_number_start (c :: rest) 0 with
    | .ok true =>
      match read_number_token (c :: rest) 0 with
      | some (len, val) => .tok ((c :: rest).take len) val :: scan fuel ((c :: rest).drop len)
      | none => .lit c :: scan fuel rest
    | _ => .lit c :: scan fuel rest

/-- The pieces of a line as `process_line` walks through it. -/
def segments (line : List Char) : List Segment := scan line.length line

/-- The text that a list of pieces covers. -/
def text_of (segs : List Segment) : List Char := (segs.map Segment.src).flatten

/-- A piece after one pass: a literal character stays, a token becomes the
text that `format_float` writes for its transformed value, with the value
that `strtod` reads from that text. -/
def Segment.pass (doMult : Bool) (factor : Double) : Segment → Segment
  | .lit c => .lit c
  | .tok _ val =>
    .tok (format_float (apply_transform doMult factor val))
      (reread (apply_transform doMult factor val))

/-- A token whose value is finite and is written by `format_float` as a
number below `10^9`; every literal character. -/
def Segment.in_range : Segment → Bool
  | .lit _ => true
  | .tok _ (.finite _ m e) => decide (micro m e < 10 ^ 15)
  | .tok _ _ => false

/-- The text starts with a digit. -/
def starts_with_digit (u : List Char) : Bool :=
  match u with
  | [] => false
  | c :: _ => c.isDigit

/-- The piece stays what it is when the text `rest` follows it: a literal is
no digit, a literal point is not followed by a digit, a literal sign is not
followed by a digit or by a point and a digit; a token is not followed by a
digit or by an exponent part. -/
def stands_apart (seg : Segment) (rest : List Char) : Bool :=
  match seg with
  | .lit c =>
    !c.isDigit && !(c == '.' && starts_with_digit rest) &&
      !((c == '+' || c == '-') &&
        (starts_with_digit rest || (rest.head? == some '.' && starts_with_digit rest.tail)))
  | .tok _ _ => !starts_with_digit rest && (read_exponent 'e' 'E' rest == (0, 0))

/-- Every piece of the list stays what it is before the text of the pieces
that follow it. -/
def apart : List Segment → Bool
  | [] => true
  | seg :: rest => stands_apart seg (text_of rest) && apart rest

/-! ## Command lines of `stringMath` -/

/-- An option of the command line of `stringMath` with its value: the input
text (`-in` or, with `long`, `--in`), `-mult` or `-div`. -/
inductive Opt where
  | text (long : Bool) (v : List Char)
  | mult (v : List Char)
  | div (v : List Char)
  deriving DecidableEq

/-- The two arguments that stand for the option. -/
def Opt.args : Opt → List (List Char)
  | .text long v => [if long then "--in".toList else "-in".toList, v]
  | .mult v => ["-mult".toList, v]
  | .div v => ["-div".toList, v]

/-- The argument list `argv[1..]` that stands for the options. -/
def argv_of (opts : List Opt) : List (List Char) := (opts.map Opt.args).flatten

/-- The value of the option if it is `-in` or `--in`. -/
def Opt.textArg : Opt → Option (List Char)
  | .text _ v => some v
  | _ => none

/-- The value of the option if it is `-mult`. -/
def Opt.multArg : Opt → Option (List Char)
  | .mult v => some v
  | _ => none

/-- The value of the option if it is `-div`. -/
def Opt.divArg : Opt → Option (List Char)
  | .div v => some v
  | _ => none

/-- The value of the last option of the kind that `f` selects, with `acc`
for what stands before `opts`. -/
def last_arg (f : Opt → Option (List Char)) (acc : Option (List Char)) (opts : List Opt) :
    Option (List Char) :=
  opts.foldl (fun acc o => match f o with | some v => some v | none => acc) acc

/-- Every value given to `-mult` or `-div` is one that `parse_double` accepts. -/
def factors_valid (opts : List Opt) : Bool :=
  opts.all (fun o =>
    match o with
    | .text _ _ => true
    | .mult v => (parse_double v).isSome
    | .div v => (parse_double v).isSome)

/-- What the rewriting run writes: the input text rewritten when one is
given, the lines of standard input rewritten otherwise. -/
def rewrite_output (text : Option (List Char)) (doMult : Bool) (factor : Double)
    (stdin : List (List Char)) : Except Fault (List Char) :=
  match text with
  | some t =>
    match process_line t doMult factor with
    | .error f => .error f
    | .ok r => .ok (r ++ [Char.ofNat 10])
  | none => filter_lines doMult factor stdin

/-! ## Rewriting from an offset, and the decimal grammar -/

/-- What `process_line` writes from the scan offset `i` on. -/
def rewrite_from (line : List Char) (doMult : Bool) (factor : Double) (i : Nat) :
    Except Fault (List Char) :=
  process_loop line doMult factor (line.length - i) i []

/-- The grammar `(e|E) [sign] digits` of an exponent part, for the whole of `t`. -/
def exponent_literal (t : List Char) : Bool :=
  match t with
  | [] => false
  | c :: u =>
    (c == 'e' || c == 'E') &&
      (match u with
       | [] => false
       | s :: v =>
         if s == '+' || s == '-' then !v.isEmpty && v.all Char.isDigit
         else u.all Char.isDigit)

/-- The grammar `digits [. digits] [exponent]` with at least one digit
before or after the point, for the whole of `t`. -/
def unsigned_literal (t : List Char) : Bool :=
  match t.dropWhile Char.isDigit with
  | '.' :: u =>
    !((t.takeWhile Char.isDigit).isEmpty && (u.takeWhile Char.isDigit).isEmpty) &&
      ((u.dropWhile Char.isDigit).isEmpty || exponent_literal (u.dropWhile Char.isDigit))
  | r1 => !(t.takeWhile Char.isDigit).isEmpty && (r1.isEmpty || exponent_literal r1)

/-- The decimal floating-point grammar, for the whole of `t`: optional sign,
digits, optional decimal point with digits, optional exponent marker `e`/`E`
with optional sign and digits. -/
def decimal_literal (t : List Char) : Bool :=
  match t with
  | [] => false
  | c :: u => if c == '+' || c == '-' then unsigned_literal u else unsigned_literal t

/-- What follows `0x` starts a hexadecimal numeral: a hexadecimal digit, or a
point and a hexadecimal digit. -/
def hex_digits_start (u : List Char) : Bool :=
  match u with
  | [] => false
  | d :: rest => isXDigit d || (d == '.' && (rest.head?.map isXDigit == some true))

/-- The text starts, after an optional sign, with `0x` or `0X` and the start
of a hexadecimal numeral: `strtod` reads it as a hexadecimal numeral. -/
def hex_numeral_start (t : List Char) : Bool :=
  match t with
  | [] => false
  | c :: u =>
    if c == '+' || c == '-' then ((after_hex_mark u).map hex_digits_start == some true)
    else ((after_hex_mark t).map hex_digits_start == some true)

/-- An option `-mult` is among the options. -/
def mult_supplied (opts : List Opt) : Bool := (last_arg Opt.multArg none opts).isSome

/-- An option `-div` is among the options. -/
def div_supplied (opts : List Opt) : Bool := (last_arg Opt.divArg none opts).isSome

/-- The text of the factor in force: the value of the last `-mult` when
there is one, of the last `-div` otherwise. -/
def factor_arg (opts : List Opt) : Option (List Char) :=
  if mult_supplied opts then last_arg Opt.multArg none opts else last_arg Opt.divArg none opts

/-- The argument is the name of an option that takes a value. -/
def is_option (a : List Char) : Bool :=
  a == "-in".toList || a == "--in".toList || a == "-mult".toList || a == "-div".toList

/-- The argument is a help flag. -/
def is_help (a : List Char) : Bool :=
  a == "-h".toList || a == "--help".toList

end StringMath

namespace Replace
open StringMath

/-! ## `replace.cpp` -/

/-- `std::string::find` on the characters `s` of the subject that start at
offset `p`: the lowest offset from `p` on at which `needle` stands. -/
def find_at (needle : List Char) : List Char → Nat → Option Nat
  | [], p => if needle.isEmpty then some p else none
  | c :: t, p => if needle.isPrefixOf (c :: t) then some p else find_at needle t (p + 1)

/-- `hay.find(needle, pos)`; `none` stands for `std::string::npos`. -/
def find (hay needle : List Char) (pos : Nat) : Option Nat :=
  if pos ≤ hay.length then find_at needle (hay.drop pos) pos else none

/-- The `switch` of `unescape`: the character written for the escape `\n`. -/
def escape_char (n : Char) : Char :=
  if n = 'n' then Char.ofNat 10
  else if n = 'r' then Char.ofNat 13
  else if n = 't' then Char.ofNat 9
  else if n = Char.ofNat 92 then Char.ofNat 92
  else if n = Char.ofNat 34 then Char.ofNat 34
  else if n = Char.ofNat 39 then Char.ofNat 39
  else if n = '0' then Char.ofNat 0
  else n

/-- The `for` loop of `unescape` from index `i` with `out` built so far;
`fuel` bounds the number of iterations. -/
def unescape_loop (s : List Char) : Nat → Nat → List Char → Except Fault (List Char)
  | fuel, i, out =>
    if i < s.length then
      match fuel with
      | 0 => .error .fuel
      | fuel + 1 =>
        match char_at s i with
        | .error f => .error f
        | .ok c =>
          if c = Char.ofNat 92 ∧ i + 1 < s.length then
            match char_at s (i + 1) with
            | .error f => .error f
            | .ok n => unescape_loop s fuel (i + 1 + 1) (out ++ [escape_char n])
          else unescape_loop s fuel (i + 1) (out ++ [c])
    else .ok out

/-- `unescape`: at most `s.size()` iterations are allowed. -/
def unescape (s : List Char) : Except Fault (List Char) :=
  unescape_loop s s.length 0 []

/-- The `while` loop of `replace_all` on the current `line` and `pos`;
`fuel` bounds the number of iterations. -/
def replace_loop (inp out : List Char) : Nat → List Char → Nat → Except Fault (List Char)
  | fuel, line, pos =>
    match find line inp pos with
    | none => .ok line
    | some p =>
      match fuel with
      | 0 => .error .fuel
      | fuel + 1 =>
        replace_loop inp out fuel (line.take p ++ out ++ line.drop (p + inp.length))
          (p + out.length)

/-- `replace_all`: the line it leaves; at most `line.size()` replacements
are allowed. -/
def replace_all (line inp out : List Char) : Except Fault (List Char) :=
  if inp.isEmpty then .ok line else replace_loop inp out line.length line 0

/-- The locals of `main` that the argument loop sets. -/
structure ArgState where
  inp : List Char
  out : List Char
  haveIn : Bool
  haveOut : Bool
  deriving DecidableEq

/-- The locals of `main` before the argument loop. -/
def ArgState.init : ArgState := ⟨[], [], false, false⟩

/-- Text written for `-h` or `--help`. -/
def help_text : List Char :=
  ("replace - replace all occurrences of IN with OUT\n" ++
   "Usage: replace -n IN -o OUT\n" ++
   "  -i,  --in    Input substring to replace\n" ++
   "  -o,  --out   Output substring\n" ++
   "\n" ++
   "Escapes in arguments are supported: \\\\ \\\" \\n \\r \\t\n" ++
   "Example (slash to backslash): replace --in \"/\" --out \"\\\\\\\\\"\n").toList

/-- The argument loop of `main` over `argv[1..]`: the locals at its end, or
the run that an early `return` gives. An argument that no branch takes is
skipped. -/
def arg_loop : List (List Char) → ArgState → Except Run ArgState
  | [], st => .ok st
  | [a], st =>
    if a = "-h".toList ∨ a = "--help".toList then .error ⟨0, help_text⟩ else .ok st
  | a :: v :: rest, st =>
    if a = "-i".toList ∨ a = "--in".toList then
      arg_loop rest ⟨v, st.out, true, st.haveOut⟩
    else if a = "-o".toList ∨ a = "--out".toList then
      arg_loop rest ⟨st.inp, v, st.haveIn, true⟩
    else if a = "-h".toList ∨ a = "--help".toList then .error ⟨0, help_text⟩
    else arg_loop (v :: rest) st

/-- The `getline` loop of `main`: every line without its carriage return,
rewritten and written with a newline. -/
def filter_lines (inp out : List Char) : List (List Char) → Except Fault (List Char)
  | [] => .ok []
  | line :: rest =>
    match replace_all (strip_cr line) inp out with
    | .error f => .error f
    | .ok r =>
      match filter_lines inp out rest with
      | .error f => .error f
      | .ok text => .ok (r ++ [Char.ofNat 10] ++ text)

/-- `main`, given `argv[1..]` and the lines `std::getline` reads from standard input. -/
def main (argv : List (List Char)) (stdin : List (List Char)) : Except Fault Run :=
  match arg_loop argv ArgState.init with
  | .error r => .ok r
  | .ok st =>
    if !st.haveIn || !st.haveOut then .ok ⟨2, []⟩
    else
      match unescape st.inp with
      | .error f => .error f
      | .ok inp =>
        match unescape st.out with
        | .error f => .error f
        | .ok out =>
          match filter_lines inp out stdin with
          | .error f => .error f
          | .ok text => .ok ⟨0, text⟩

/-- Pieces of a line between the leftmost non-overlapping occurrences of
`inp`, reading left to right: `skip` characters of an occurrence are still
to be passed over and `cur` is the piece collected so far. -/
def pieces (inp : List Char) : List Char → Nat → List Char → List (List Char)
  | [], _, cur => [cur]
  | _ :: t, skip + 1, cur => pieces inp t skip cur
  | c :: t, 0, cur =>
    if inp.isPrefixOf (c :: t) then cur :: pieces inp t (inp.length - 1) []
    else pieces inp t 0 (cur ++ [c])

/-- Reference for `replace_all`: the line split at the leftmost
non-overlapping occurrences of `inp` and joined with `out`. -/
def split_join (line inp out : List Char) : List Char :=
  out.intercalate (pieces inp line 0 [])

/-- Reference for `unescape`: pairs of a backslash and a following character
are decoded from left to right, everything else is copied. -/
def decode : List Char → List Char
  | [] => []
  | [c] => [c]
  | c :: n :: t =>
    if c = Char.ofNat 92 then escape_char n :: decode t else c :: decode (n :: t)

/-- Number of pairs that `decode` decodes. -/
def decoded_pairs : List Char → Nat
  | [] => 0
  | [_] => 0
  | c :: n :: t =>
    if c = Char.ofNat 92 then decoded_pairs t + 1 else decoded_pairs (n :: t)

end Replace

namespace Swap
open StringMath

/-! ## `swap.cpp` -/

/-- The `while` loop of `ltrim_inplace`: the index `i` it stops at, counted
from the head of `s`. -/
def ltrim_scan : List Char → Nat
  | [] => 0
  | c :: t => if isspace c then ltrim_scan t + 1 else 0

/-- `ltrim_inplace`: `s.erase(0, i)`. -/
def ltrim_inplace (s : List Char) : List Char := s.drop (ltrim_scan s)

/-- The `while` loop of `rtrim_inplace` from index `i` downwards: the index
it stops at. -/
def rtrim_scan (s : List Char) : Nat → Nat
  | 0 => 0
  | i + 1 => if (s[i]?.map isspace) = some true then rtrim_scan s i else i + 1

/-- `rtrim_inplace`: `s.erase(i)`. -/
def rtrim_inplace (s : List Char) : List Char :=
  if s.isEmpty then s else s.take (rtrim_scan s s.length)

/-- `trim_inplace`. -/
def trim_inplace (s : List Char) : List Char := rtrim_inplace (ltrim_inplace s)

/-- The locals of `main` that the argument loop sets. -/
structure Opts where
  delim : List Char
  trimEdges : Bool
  deriving DecidableEq

/-- The locals of `main` before the argument loop. -/
def Opts.init : Opts := ⟨" : ".toList, false⟩

/-- Text written for `-h` or `--help`. -/
def help_text : List Char :=
  ("swap - swap left/right halves of each line around a delimiter\n" ++
   "Usage: swap [-d DELIM] [-e]\n" ++
   "  -d, --delim  Delimiter string (default: \" : \")\n" ++
   "  -e, --edges  Trim whitespace around both halves\n").toList

/-- The argument loop of `main` over `argv[1..]`. -/
def arg_loop : List (List Char) → Opts → Except Run Opts
  | [], st => .ok st
  | [a], st =>
    if a = "-e".toList ∨ a = "--edges".toList then .ok ⟨st.delim, true⟩
    else if a = "-h".toList ∨ a = "--help".toList then .error ⟨0, help_text⟩
    else .ok st
  | a :: v :: rest, st =>
    if a = "-d".toList ∨ a = "--delim".toList then arg_loop rest ⟨v, st.trimEdges⟩
    else if a = "-e".toList ∨ a = "--edges".toList then arg_loop (v :: rest) ⟨st.delim, true⟩
    else if a = "-h".toList ∨ a = "--help".toList then .error ⟨0, help_text⟩
    else arg_loop (v :: rest) st

/-- The body of the `getline` loop of `main` for the line `raw` as read:
what is written before the newline. -/
def swap_line (delim : List Char) (trimEdges : Bool) (raw : List Char) : List Char :=
  let line := strip_cr raw
  if delim.isEmpty then line
  else
    match Replace.find line delim 0 with
    | none => line
    | some pos =>
      let left := line.take pos
      let right := line.drop (pos + delim.length)
      if trimEdges then trim_inplace right ++ delim ++ trim_inplace left
      else right ++ delim ++ left

/-- The `getline` loop of `main`. -/
def filter_lines (delim : List Char) (trimEdges : Bool) : List (List Char) → List Char
  | [] => []
  | raw :: rest =>
    swap_line delim trimEdges raw ++ [Char.ofNat 10] ++ filter_lines delim trimEdges rest

/-- `main`, given `argv[1..]` and the lines `std::getline` reads from standard input. -/
def main (argv : List (List Char)) (stdin : List (List Char)) : Run :=
  match arg_loop argv Opts.init with
  | .error r => r
  | .ok st => ⟨0, filter_lines st.delim st.trimEdges stdin⟩

/-- Reference for trimming: `s` without its leading and trailing white space. -/
def strip_spaces (s : List Char) : List Char :=
  ((s.dropWhile isspace).reverse.dropWhile isspace).reverse

end Swap

namespace StringMath
/-! ## Facts about `format_float` -/

theorem mem_dropWhile_of_mem {p : Char → Bool} {c : Char} (hc : p c = false) :
    ∀ l : List Char, c ∈ l → c ∈ l.dropWhile p
  | [], h => by simp at h
  | a :: l, h => by
    by_cases hpa : p a = true
    · have hne : c ≠ a := fun hca => by rw [hca, hpa] at hc; exact Bool.noConfusion hc
      have hmem : c ∈ l := by
        rcases List.mem_cons.1 h with h1 | h1
        · exact absurd h1 hne
        · exact h1
      rw [List.dropWhile_cons_of_pos hpa]
      exact mem_dropWhile_of_mem hc l hmem
    · rw [List.dropWhile_cons_of_neg hpa]
      exact h

theorem dot_mem_strip (out : List Char) (h : '.' ∈ out) : '.' ∈ strip_trailing_zeros out := by
  unfold strip_trailing_zeros
  rw [List.mem_reverse]
  exact mem_dropWhile_of_mem (by decide) _ (List.mem_reverse.2 h)

theorem trim_fixed_has_dot (out : List Char) : '.' ∈ trim_fixed out := by
  unfold trim_fixed
  by_cases h : out.contains '.' = true
  · have hm : '.' ∈ out := by simpa using h
    have hs := dot_mem_strip out hm
    simp only [h, if_true]
    split
    · exact List.mem_append_left _ hs
    · exact hs
  · simp only [h]
    simp

theorem trim_fixed_last (out : List Char) : (trim_fixed out).getLast? ≠ some '.' := by
  unfold trim_fixed
  by_cases h : out.contains '.' = true
  · simp only [h, if_true]
    split
    · simp
    · assumption
  · simp only [h]
    simp

/-- C4. `format_float` always yields a string that contains a decimal point and
does not end with one, whatever the double; for infinities and NaN, whose
rendering has no point, `.0` is appended. -/
theorem C4_format_float_has_decimal_point (v : Double) :
    '.' ∈ format_float v ∧ (format_float v).getLast? ≠ some '.' ∧
    (∀ s, format_float (.inf s) = signText s ++ "inf.0".toList) ∧
    (∀ s, format_float (.nan s) = signText s ++ "nan.0".toList) :=
  ⟨trim_fixed_has_dot _, trim_fixed_last _, fun s => by cases s <;> rfl,
    fun s => by cases s <;> rfl⟩

theorem strip_append_zeros (l : List Char) (n : Nat) :
    strip_trailing_zeros (l ++ List.replicate n '0') = strip_trailing_zeros l := by
  unfold strip_trailing_zeros
  rw [List.reverse_append, List.reverse_replicate]
  induction n with
  | zero => simp
  | succ n ih =>
    rw [List.replicate_succ, List.cons_append, List.dropWhile_cons_of_pos (by decide)]
    exact ih

theorem strip_of_last_ne (l : List Char) (h : l.getLast? ≠ some '0') :
    strip_trailing_zeros l = l := by
  unfold strip_trailing_zeros
  rw [List.getLast?_eq_head?_reverse] at h
  cases hr : l.reverse with
  | nil =>
    have : l = [] := by simpa using hr
    simp [this]
  | cons a t =>
    rw [hr] at h
    have ha : a ≠ '0' := by simpa using h
    rw [List.dropWhile_cons_of_neg (by simpa using ha), ← hr, List.reverse_reverse]

theorem strip_decomp (l : List Char) :
    ∃ n, l = strip_trailing_zeros l ++ List.replicate n '0' ∧
      (strip_trailing_zeros l).getLast? ≠ some '0' := by
  induction l using List.reverseRecOn with
  | nil => exact ⟨0, by simp [strip_trailing_zeros], by simp [strip_trailing_zeros]⟩
  | append_singleton init a ih =>
    by_cases ha : a = '0'
    · obtain ⟨n, h1, h2⟩ := ih
      have hs : strip_trailing_zeros (init ++ [a]) = strip_trailing_zeros init := by
        rw [ha]; exact strip_append_zeros init 1
      refine ⟨n + 1, ?_, by rw [hs]; exact h2⟩
      rw [hs, ha, List.replicate_succ', ← List.append_assoc, ← h1]
    · have hl : (init ++ [a]).getLast? ≠ some '0' := by simpa using ha
      exact ⟨0, by simp [strip_of_last_ne _ hl], by rw [strip_of_last_ne _ hl]; exact hl⟩

theorem trim_fixed_of_kept (ip kept : List Char) (n : Nat)
    (hd : ∀ c ∈ kept, c.isDigit = true) (hk : kept.getLast? ≠ some '0') :
    trim_fixed (ip ++ '.' :: (kept ++ List.replicate n '0')) =
      ip ++ '.' :: (if kept = [] then [ '0' ] else kept) := by
  have hlast : (ip ++ '.' :: kept).getLast? ≠ some '0' := by
    rcases List.eq_nil_or_concat kept with hnil | ⟨i, a, hia⟩
    · subst hnil; simp
    · rw [List.concat_eq_append] at hia
      subst hia
      have ha : a ≠ '0' := by simpa using hk
      have e : ip ++ '.' :: (i ++ [a]) = (ip ++ '.' :: i) ++ [a] := by simp
      rw [e, List.getLast?_concat]
      simpa using ha
  have hstrip : strip_trailing_zeros (ip ++ '.' :: (kept ++ List.replicate n '0')) =
      ip ++ '.' :: kept := by
    rw [show ip ++ '.' :: (kept ++ List.replicate n '0') =
      (ip ++ '.' :: kept) ++ List.replicate n '0' by simp]
    rw [strip_append_zeros, strip_of_last_ne _ hlast]
  unfold trim_fixed
  have hc : (ip ++ '.' :: (kept ++ List.replicate n '0')).contains '.' = true := by simp
  simp only [hc, if_true, hstrip]
  rcases List.eq_nil_or_concat kept with hnil | ⟨i, a, hia⟩
  · subst hnil; simp
  · rw [List.concat_eq_append] at hia
    subst hia
    have ha : a ≠ '.' := by
      intro h
      have := hd a (by simp)
      rw [h] at this
      exact absurd this (by decide)
    have hne : i ++ [a] ≠ [] := by simp
    have e : ip ++ '.' :: (i ++ [a]) = (ip ++ '.' :: i) ++ [a] := by simp
    have hl : (ip ++ '.' :: (i ++ [a])).getLast? ≠ some '.' := by
      rw [e, List.getLast?_concat]
      simpa using ha
    rw [if_neg hl, if_neg hne]

theorem digitChar_isDigit (d : Nat) (h : d < 10) : (digitChar d).isDigit = true := by
  interval_cases d <;> rfl

theorem digitVal_digitChar (d : Nat) (h : d < 10) : digitVal (digitChar d) = d := by
  interval_cases d <;> rfl

theorem fixedDigits_length : ∀ w n, (fixedDigits w n).length = w
  | 0, _ => rfl
  | w + 1, n => by simp [fixedDigits, fixedDigits_length w]

theorem fixedDigits_isDigit : ∀ w n, ∀ c ∈ fixedDigits w n, c.isDigit = true
  | 0, _, c, h => by simp [fixedDigits] at h
  | w + 1, n, c, h => by
    simp only [fixedDigits, List.mem_append, List.mem_singleton] at h
    rcases h with h | h
    · exact fixedDigits_isDigit w _ c h
    · rw [h]; exact digitChar_isDigit _ (Nat.mod_lt _ (by decide))

/-- C5. On an intermediate rendering `<integer part>.<six digits>` the result of
`format_float` keeps the integer part and the point, drops the trailing zeros
of the fraction, keeps one `0` when all six digits are zero, and so has
between one and six fractional digits; every finite double has such a
rendering, and `1.000000`, `0.125000`, `100.000000` give `1.0`, `0.125`, `100.0`. -/
theorem C5_trailing_zero_trimming (ip frac : List Char) (hlen : frac.length = 6)
    (hdig : ∀ c ∈ frac, c.isDigit = true) :
    (∃ kept n, frac = kept ++ List.replicate n '0' ∧ kept.getLast? ≠ some '0' ∧
      trim_fixed (ip ++ '.' :: frac) = ip ++ '.' :: (if kept = [] then [ '0' ] else kept) ∧
      1 ≤ (if kept = [] then [ '0' ] else kept).length ∧
      (if kept = [] then [ '0' ] else kept).length ≤ 6) ∧
    (∀ s m e, ∃ ip1 frac1, render_fixed6 (.finite s m e) = ip1 ++ '.' :: frac1 ∧
      frac1.length = 6 ∧ ∀ c ∈ frac1, c.isDigit = true) ∧
    trim_fixed "1.000000".toList = "1.0".toList ∧
    trim_fixed "0.125000".toList = "0.125".toList ∧
    trim_fixed "100.000000".toList = "100.0".toList := by
  refine ⟨?_, ?_, by decide, by decide, by decide⟩
  · obtain ⟨n, h1, h2⟩ := strip_decomp frac
    refine ⟨strip_trailing_zeros frac, n, h1, h2, ?_, ?_, ?_⟩
    · have hd : ∀ c ∈ strip_trailing_zeros frac, c.isDigit = true := by
        intro c hc
        apply hdig
        rw [h1]
        exact List.mem_append_left _ hc
      have := trim_fixed_of_kept ip (strip_trailing_zeros frac) n hd h2
      rw [← h1] at this
      exact this
    · split
      · simp
      · rename_i hne
        exact List.length_pos.2 hne
    · have hl : (strip_trailing_zeros frac).length ≤ 6 := by
        have := congrArg List.length h1
        rw [List.length_append, hlen] at this
        omega
      split
      · simp
      · exact hl
  · intro s m e
    refine ⟨signText s ++ natToDec (micro m e / 10 ^ 6), fixedDigits 6 (micro m e % 10 ^ 6), ?_,
      fixedDigits_length _ _, fixedDigits_isDigit _ _⟩
    simp [render_fixed6]

theorem C5_trailing_zero_trimming_witness :
    ∃ kept n, "250000".toList = kept ++ List.replicate n '0' ∧ kept.getLast? ≠ some '0' ∧
      trim_fixed ("-3".toList ++ '.' :: "250000".toList) =
        "-3".toList ++ '.' :: (if kept = [] then [ '0' ] else kept) ∧
      1 ≤ (if kept = [] then [ '0' ] else kept).length ∧
      (if kept = [] then [ '0' ] else kept).length ≤ 6 :=
  (C5_trailing_zero_trimming "-3".toList "250000".toList (by decide) (by decide)).1


/-! ## Facts about `strtod` -/

theorem len_takeWhile_add_dropWhile (p : Char → Bool) (s : List Char) :
    (s.takeWhile p).length + (s.dropWhile p).length = s.length := by
  rw [← List.length_append, List.takeWhile_append_dropWhile]

theorem len_takeWhile_le (p : Char → Bool) (s : List Char) :
    (s.takeWhile p).length ≤ s.length := by
  have := len_takeWhile_add_dropWhile p s
  omega

theorem read_fraction_length (p : Char → Bool) (r : List Char) :
    (read_fraction p r).1.length + (if (read_fraction p r).2 then 1 else 0) +
      (after_fraction p r).length = r.length := by
  unfold read_fraction after_fraction
  split
  · simp only [if_true, List.length_cons]
    have := len_takeWhile_add_dropWhile p ‹List Char›
    omega
  · simp

theorem exponent_digits_le (k : Nat) (b : Bool) (u : List Char) :
    (exponent_digits k b u).1 ≤ k + u.length := by
  unfold exponent_digits
  have := len_takeWhile_le Char.isDigit u
  split
  · simp
  · simp only; omega

theorem read_exponent_le (lo up : Char) (s : List Char) :
    (read_exponent lo up s).1 ≤ s.length := by
  unfold read_exponent
  split
  · simp
  · rename_i c t
    split
    · split
      · rename_i u
        have := exponent_digits_le 2 true u
        simp only [List.length_cons]; omega
      · rename_i u
        have := exponent_digits_le 2 false u
        simp only [List.length_cons]; omega
      · have := exponent_digits_le 1 false t
        simp only [List.length_cons]; omega
    · simp

theorem strtod_decimal_le (neg : Bool) (s : List Char) (r : StrtodResult)
    (h : strtod_decimal neg s = some r) : 0 < r.consumed ∧ r.consumed ≤ s.length := by
  unfold strtod_decimal at h
  have h1 := len_takeWhile_add_dropWhile Char.isDigit s
  have h2 := read_fraction_length Char.isDigit (s.dropWhile Char.isDigit)
  have h3 := read_exponent_le 'e' 'E' (after_fraction Char.isDigit (s.dropWhile Char.isDigit))
  simp only at h
  split at h
  · exact absurd h (by simp)
  · rename_i hne
    injection h with h
    subst h
    simp only
    have hpos : 0 < (s.takeWhile Char.isDigit).length +
        (read_fraction Char.isDigit (s.dropWhile Char.isDigit)).1.length := by
      by_contra hc
      apply hne
      have a1 : (s.takeWhile Char.isDigit).length = 0 := by omega
      have a2 : (read_fraction Char.isDigit (s.dropWhile Char.isDigit)).1.length = 0 := by omega
      simp [List.length_eq_zero.1 a1, List.length_eq_zero.1 a2]
    have hdot : (read_fraction Char.isDigit (s.dropWhile Char.isDigit)).2 = false →
        (read_fraction Char.isDigit (s.dropWhile Char.isDigit)).1.length = 0 := by
      intro hf
      unfold read_fraction at hf ⊢
      split at hf
      · simp at hf
      · simp
    cases hd : (read_fraction Char.isDigit (s.dropWhile Char.isDigit)).2
    · have := hdot hd
      simp only [hd] at h2 ⊢
      simp at h2 ⊢
      omega
    · simp only [hd] at h2 ⊢
      simp at h2 ⊢
      omega

theorem read_fraction_nodot (p : Char → Bool) (r : List Char)
    (h : (read_fraction p r).2 = false) : (read_fraction p r).1 = [] := by
  unfold read_fraction at h ⊢
  split at h
  · simp at h
  · simp

theorem strtod_hex_le (neg : Bool) (s : List Char) (r : StrtodResult)
    (h : strtod_hex neg s = some r) : 0 < r.consumed ∧ r.consumed ≤ s.length + 2 := by
  unfold strtod_hex at h
  have h1 := len_takeWhile_add_dropWhile isXDigit s
  have h2 := read_fraction_length isXDigit (s.dropWhile isXDigit)
  have h3 := read_exponent_le 'p' 'P' (after_fraction isXDigit (s.dropWhile isXDigit))
  simp only at h
  split at h
  · exact absurd h (by simp)
  · injection h with h
    subst h
    simp only
    cases hd : (read_fraction isXDigit (s.dropWhile isXDigit)).2
    · have := read_fraction_nodot _ _ hd
      simp only [hd, this] at h2 ⊢
      simp at h2 ⊢
      omega
    · simp only [hd] at h2 ⊢
      simp at h2 ⊢
      omega

theorem starts_with_ci_length (w s : List Char) (h : starts_with_ci w s = true) :
    w.length ≤ s.length := by
  unfold starts_with_ci at h
  have h1 : (s.take w.length).map Char.toLower = w := by simpa using h
  have h2 := congrArg List.length h1
  simp only [List.length_map, List.length_take] at h2
  omega

theorem nan_payload_le (s : List Char) : nan_payload s ≤ s.length := by
  unfold nan_payload
  split
  · rename_i t
    have h1 := len_takeWhile_add_dropWhile (fun c => c.isAlphanum || c == '_') t
    split
    · rename_i u hu
      rw [hu] at h1
      simp only [List.length_cons] at h1 ⊢
      omega
    · simp
  · simp

theorem after_hex_mark_length (s t : List Char) (h : after_hex_mark s = some t) :
    s.length = t.length + 2 := by
  unfold after_hex_mark at h
  split at h
  · split at h
    · injection h with h; subst h; simp
    · exact absurd h (by simp)
  · exact absurd h (by simp)

theorem strtod_body_le (neg : Bool) (s : List Char) (r : StrtodResult)
    (h : strtod_body neg s = some r) : 0 < r.consumed ∧ r.consumed ≤ s.length := by
  unfold strtod_body at h
  split at h
  · rename_i hw
    have := starts_with_ci_length _ _ hw
    injection h with h; subst h
    have h3 : ("infinity".toList).length = 8 := rfl
    simp only
    omega
  · split at h
    · rename_i hw
      have := starts_with_ci_length _ _ hw
      injection h with h; subst h
      have h3 : ("inf".toList).length = 3 := rfl
      simp only
      omega
    · split at h
      · rename_i hw
        have h1 := starts_with_ci_length _ _ hw
        have h2 := nan_payload_le (s.drop 3)
        injection h with h; subst h
        simp only [List.length_drop] at h2
        have h3 : ("nan".toList).length = 3 := rfl
        simp only
        omega
      · split at h
        · rename_i r1 hr
          injection h with h; subst h
          cases hm : after_hex_mark s with
          | none => rw [hm] at hr; simp at hr
          | some t =>
            rw [hm] at hr
            have h1 := strtod_hex_le neg t _ hr
            have h2 := after_hex_mark_length s t hm
            omega
        · exact strtod_decimal_le neg _ r h

theorem strtod_consumed_le (s : List Char) : (strtod s).consumed ≤ s.length := by
  unfold strtod
  have h1 := len_takeWhile_add_dropWhile isspace s
  simp only
  split
  · rename_i r hr
    simp only [StrtodResult.shift]
    split at hr
    · rename_i hsg
      cases hb : strtod_body ((s.dropWhile isspace).head? == some '-')
          (s.dropWhile isspace).tail with
      | none => rw [hb] at hr; simp at hr
      | some r1 =>
        rw [hb] at hr
        simp only [Option.map_some'] at hr
        injection hr with hr; subst hr
        have h2 := strtod_body_le _ _ _ hb
        have h3 : (s.dropWhile isspace).tail.length + 1 ≤ (s.dropWhile isspace).length := by
          cases hd : s.dropWhile isspace with
          | nil => rw [hd] at hsg; simp [has_sign] at hsg
          | cons a t => simp
        simp only [StrtodResult.shift]
        omega
    · have := strtod_body_le _ _ _ hr
      omega
  · simp

theorem c_str_from_length (s : List Char) (i : Nat) :
    (c_str_from s i).length ≤ s.length - i := by
  unfold c_str_from
  have := len_takeWhile_le (fun c => c != Char.ofNat 0) (s.drop i)
  simpa using this

theorem read_number_token_bound (s : List Char) (i len : Nat) (val : Double)
    (h : read_number_token s i = some (len, val)) : 0 < len ∧ len ≤ s.length - i := by
  unfold read_number_token at h
  simp only at h
  split at h
  · exact absurd h (by simp)
  · split at h
    · exact absurd h (by simp)
    · split at h
      · rename_i hpos
        injection h with h
        injection h with h1 h2
        subst h1
        have := strtod_consumed_le (c_str_from s i)
        have := c_str_from_length s i
        exact ⟨hpos, by omega⟩
      · exact absurd h (by simp)

/-! ## The loop of `process_line` -/

theorem char_at_of_lt (s : List Char) (i : Nat) (h : i < s.length) :
    char_at s i = .ok (s.get ⟨i, h⟩) := by
  unfold char_at
  rw [List.getElem?_eq_getElem h]
  rfl

theorem is_number_start_ok (s : List Char) (i : Nat) (h : i < s.length) :
    ∃ b, is_number_start s i = .ok b := by
  unfold is_number_start
  rw [char_at_of_lt s i h]
  simp only
  split
  · exact ⟨true, rfl⟩
  · split
    · rename_i h2
      have h3 : i + 1 < s.length := by
        simp only [Bool.and_eq_true, decide_eq_true_eq] at h2
        exact h2.2
      rw [char_at_of_lt s (i + 1) h3]
      exact ⟨_, rfl⟩
    · exact ⟨false, rfl⟩

theorem process_loop_done (line : List Char) (doMult : Bool) (factor : Double)
    (fuel i : Nat) (out : List Char) (h : ¬ i < line.length) :
    process_loop line doMult factor fuel i out = .ok out := by
  cases fuel <;> simp [process_loop, h]

theorem process_loop_token (line : List Char) (doMult : Bool) (factor : Double)
    (fuel i : Nat) (out : List Char) (len : Nat) (val : Double) (h : i < line.length)
    (hs : is_number_start line i = .ok true) (hr : read_number_token line i = some (len, val)) :
    process_loop line doMult factor (fuel + 1) i out =
      process_loop line doMult factor fuel (i + len)
        (out ++ format_float (apply_transform doMult factor val)) := by
  rw [process_loop]
  simp [h, hs, hr]

theorem process_loop_literal (line : List Char) (doMult : Bool) (factor : Double)
    (fuel i : Nat) (out : List Char) (h : i < line.length)
    (hs : is_number_start line i = .ok false ∨
      (is_number_start line i = .ok true ∧ read_number_token line i = none)) :
    process_loop line doMult factor (fuel + 1) i out =
      process_loop line doMult factor fuel (i + 1) (out ++ [line.get ⟨i, h⟩]) := by
  rw [process_loop]
  rcases hs with hs | ⟨hs, hr⟩
  · simp [h, hs, char_at_of_lt line i h]
  · simp [h, hs, hr, char_at_of_lt line i h]

theorem process_loop_partition (line : List Char) (doMult : Bool) (factor : Double) :
    ∀ (fuel i : Nat) (out : List Char), i ≤ line.length → line.length - i ≤ fuel →
      ∃ segs, Partition line i segs ∧ (segs.map Segment.src).flatten = line.drop i ∧
        process_loop line doMult factor fuel i out =
          .ok (out ++ (segs.map (Segment.out doMult factor)).flatten) := by
  intro fuel
  induction fuel with
  | zero =>
    intro i out hi hf
    have heq : i = line.length := by omega
    refine ⟨[], heq, ?_, ?_⟩
    · simp [heq]
    · rw [process_loop_done _ _ _ _ _ _ (by omega)]; simp
  | succ k ih =>
    intro i out hi hf
    by_cases hlt : i < line.length
    · obtain ⟨b, hb⟩ := is_number_start_ok line i hlt
      have hdrop : line.drop i = line.get ⟨i, hlt⟩ :: line.drop (i + 1) := by
        rw [List.get_eq_getElem]
        exact List.drop_eq_getElem_cons hlt
      have lit_case : (is_number_start line i = .ok false ∨
          (is_number_start line i = .ok true ∧ read_number_token line i = none)) →
          ∃ segs, Partition line i segs ∧ (segs.map Segment.src).flatten = line.drop i ∧
            process_loop line doMult factor (k + 1) i out =
              .ok (out ++ (segs.map (Segment.out doMult factor)).flatten) := by
        intro hs
        obtain ⟨segs, hp, hsrc, hout⟩ := ih (i + 1) (out ++ [line.get ⟨i, hlt⟩]) (by omega) (by omega)
        refine ⟨.lit (line.get ⟨i, hlt⟩) :: segs, ⟨char_at_of_lt line i hlt, hp⟩, ?_, ?_⟩
        · simp only [List.map_cons, List.flatten_cons, Segment.src, hsrc, hdrop]
          rfl
        · rw [process_loop_literal _ _ _ _ _ _ hlt hs, hout]
          simp only [List.map_cons, List.flatten_cons, Segment.out, List.append_assoc]
      cases b with
      | false => exact lit_case (Or.inl hb)
      | true =>
        cases hr : read_number_token line i with
        | none => exact lit_case (Or.inr ⟨hb, hr⟩)
        | some lv =>
          obtain ⟨len, val⟩ := lv
          obtain ⟨hpos, hle⟩ := read_number_token_bound line i len val hr
          obtain ⟨segs, hp, hsrc, hout⟩ :=
            ih (i + len) (out ++ format_float (apply_transform doMult factor val))
              (by omega) (by omega)
          have hlen : ((line.drop i).take len).length = len := by
            rw [List.length_take, List.length_drop]; omega
          refine ⟨.tok ((line.drop i).take len) val :: segs, ⟨?_, ?_, ?_, hb, ?_, ?_⟩, ?_, ?_⟩
          · intro hnil
            rw [hnil] at hlen
            simp at hlen
            omega
          · rw [hlen]
          · rw [hlen]; omega
          · rw [hlen]; exact hr
          · rw [hlen]; exact hp
          · simp only [List.map_cons, List.flatten_cons, Segment.src, hsrc]
            rw [← List.drop_drop, List.take_append_drop]
          · rw [process_loop_token _ _ _ _ _ _ len val hlt hb hr, hout]
            simp only [List.map_cons, List.flatten_cons, Segment.out, List.append_assoc]
    · have heq : i = line.length := by omega
      refine ⟨[], heq, ?_, ?_⟩
      · simp [heq]
      · rw [process_loop_done _ _ _ _ _ _ hlt]; simp

/-- C1. Coverage invariant of `process_line`: the line splits into consecutive
segments that cover it once and in order, each a single character copied as
it is or a span accepted by `read_number_token` where `is_number_start`
holds, and the output is the concatenation of the copied characters and of
`format_float` of the transformed token values. -/
theorem C1_process_line_coverage (line : List Char) (doMult : Bool) (factor : Double) :
    ∃ segs : List Segment, Partition line 0 segs ∧
      (segs.map Segment.src).flatten = line ∧
      process_line line doMult factor = .ok (segs.map (Segment.out doMult factor)).flatten := by
  obtain ⟨segs, hp, hsrc, hout⟩ :=
    process_loop_partition line doMult factor line.length 0 [] (Nat.zero_le _) (by omega)
  exact ⟨segs, hp, by simpa using hsrc, by simpa [process_line] using hout⟩

/-! ## Lines without digits -/

theorem is_number_start_eq (s : List Char) (i : Nat) (h : i < s.length) :
    is_number_start s i = .ok ((s.get ⟨i, h⟩).isDigit || s.get ⟨i, h⟩ == '.' ||
      ((s.get ⟨i, h⟩ == '+' || s.get ⟨i, h⟩ == '-') && next_is_numeric s i)) := by
  unfold is_number_start next_is_numeric
  rw [char_at_of_lt s i h]
  generalize s.get ⟨i, h⟩ = c
  simp only
  cases h1 : (c.isDigit || c == '.')
  · cases h3 : (c == '+' || c == '-')
    · simp
    · by_cases h2 : i + 1 < s.length
      · rw [char_at_of_lt s (i + 1) h2, List.getElem?_eq_getElem h2]
        simp [h2]
      · have hn : s[i + 1]? = none := List.getElem?_eq_none (by omega)
        rw [hn]
        simp [h2]
  · simp

theorem takeWhile_nil_of_all_false {p : Char → Bool} :
    ∀ {t : List Char}, (∀ c ∈ t, p c = false) → t.takeWhile p = []
  | [], _ => rfl
  | a :: t, h => by
    have ha : p a = false := h a (by simp)
    simp [List.takeWhile_cons, ha]

theorem strtod_decimal_dot_none (neg : Bool) (t : List Char)
    (ht : t.takeWhile Char.isDigit = []) : strtod_decimal neg ('.' :: t) = none := by
  have h1 : ('.' :: t).takeWhile Char.isDigit = [] := by
    rw [List.takeWhile_cons_of_neg (by decide)]
  have h2 : ('.' :: t).dropWhile Char.isDigit = '.' :: t := by
    rw [List.dropWhile_cons_of_neg (by decide)]
  unfold strtod_decimal
  simp only [h1, h2, read_fraction, ht]
  simp

theorem strtod_body_dot_none (neg : Bool) (t : List Char)
    (ht : t.takeWhile Char.isDigit = []) : strtod_body neg ('.' :: t) = none := by
  unfold strtod_body
  have e1 : starts_with_ci "infinity".toList ('.' :: t) = false := by
    simp [starts_with_ci]
  have e2 : starts_with_ci "inf".toList ('.' :: t) = false := by
    simp [starts_with_ci]
  have e3 : starts_with_ci "nan".toList ('.' :: t) = false := by
    simp [starts_with_ci]
  have e4 : after_hex_mark ('.' :: t) = none := by
    cases t <;> simp [after_hex_mark]
  simp only [e1, e2, e3, e4, Bool.false_eq_true, if_false, Option.none_bind]
  exact strtod_decimal_dot_none neg t ht

theorem strtod_dot_consumed (t : List Char) (ht : t.takeWhile Char.isDigit = []) :
    (strtod ('.' :: t)).consumed = 0 := by
  unfold strtod
  have h1 : ('.' :: t).takeWhile isspace = [] := by
    rw [List.takeWhile_cons_of_neg (by decide)]
  have h2 : ('.' :: t).dropWhile isspace = '.' :: t := by
    rw [List.dropWhile_cons_of_neg (by decide)]
  have h3 : has_sign ('.' :: t) = false := rfl
  simp only [h1, h2, h3, strtod_body_dot_none false t ht, Bool.false_eq_true, if_false]

theorem strtod_sign_dot_consumed (c : Char) (hc : c = '+' ∨ c = '-') (t : List Char)
    (ht : t.takeWhile Char.isDigit = []) : (strtod (c :: '.' :: t)).consumed = 0 := by
  unfold strtod
  have h1 : (c :: '.' :: t).takeWhile isspace = [] := by
    rw [List.takeWhile_cons_of_neg (by rcases hc with e | e <;> rw [e] <;> decide)]
  have h2 : (c :: '.' :: t).dropWhile isspace = c :: '.' :: t := by
    rw [List.dropWhile_cons_of_neg (by rcases hc with e | e <;> rw [e] <;> decide)]
  have h3 : has_sign (c :: '.' :: t) = true := by
    rcases hc with e | e <;> rw [e] <;> rfl
  simp only [h1, h2, h3, if_true, List.tail_cons, strtod_body_dot_none _ t ht, Option.map_none']

theorem c_str_from_cons (s : List Char) (i : Nat) (h : i < s.length)
    (hc : s.get ⟨i, h⟩ ≠ Char.ofNat 0) :
    c_str_from s i = s.get ⟨i, h⟩ :: c_str_from s (i + 1) := by
  unfold c_str_from
  have hdrop : s.drop i = s.get ⟨i, h⟩ :: s.drop (i + 1) := by
    rw [List.get_eq_getElem]
    exact List.drop_eq_getElem_cons h
  rw [hdrop, List.takeWhile_cons_of_pos (by simpa using hc)]

theorem mem_c_str_from (s : List Char) (i : Nat) (x : Char) (h : x ∈ c_str_from s i) :
    x ∈ s :=
  List.mem_of_mem_drop ((List.takeWhile_sublist _).subset h)

theorem read_number_token_none_of_consumed (s : List Char) (i : Nat)
    (h : (strtod (c_str_from s i)).consumed = 0) : read_number_token s i = none := by
  unfold read_number_token
  simp [h]

theorem no_digit_token_fails (s : List Char) (hs : ∀ c ∈ s, c.isDigit = false)
    (i : Nat) (h : i < s.length) (hst : is_number_start s i = .ok true) :
    read_number_token s i = none := by
  rw [is_number_start_eq s i h] at hst
  have hci : (s.get ⟨i, h⟩).isDigit = false := hs _ (List.get_mem s i h)
  have hnd : ∀ j, (c_str_from s j).takeWhile Char.isDigit = [] := fun j =>
    takeWhile_nil_of_all_false (fun c hc => hs c (mem_c_str_from s j c hc))
  injection hst with hst
  rw [hci, Bool.false_or] at hst
  apply read_number_token_none_of_consumed
  by_cases hdot : s.get ⟨i, h⟩ = '.'
  · rw [c_str_from_cons s i h (by rw [hdot]; decide), hdot]
    exact strtod_dot_consumed _ (hnd (i + 1))
  · have hdot1 : (s.get ⟨i, h⟩ == '.') = false := by simpa using hdot
    rw [hdot1, Bool.false_or, Bool.and_eq_true] at hst
    obtain ⟨hsg, hnext⟩ := hst
    have hsg1 : s.get ⟨i, h⟩ = '+' ∨ s.get ⟨i, h⟩ = '-' := by simpa using hsg
    unfold next_is_numeric at hnext
    have h2 : i + 1 < s.length := by
      by_contra hcon
      rw [List.getElem?_eq_none (by omega)] at hnext
      simp at hnext
    rw [List.getElem?_eq_getElem h2] at hnext
    have hn : s.get ⟨i + 1, h2⟩ = '.' := by
      have hdi : (s.get ⟨i + 1, h2⟩).isDigit = false := hs _ (List.get_mem s (i + 1) h2)
      rw [List.get_eq_getElem] at hdi ⊢
      simpa [hdi] using hnext
    have hne0 : s.get ⟨i, h⟩ ≠ Char.ofNat 0 := by
      rcases hsg1 with e | e <;> rw [e] <;> decide
    rw [c_str_from_cons s i h hne0, c_str_from_cons s (i + 1) h2 (by rw [hn]; decide), hn]
    exact strtod_sign_dot_consumed _ hsg1 _ (hnd (i + 2))

theorem process_loop_no_digit (line : List Char) (hs : ∀ c ∈ line, c.isDigit = false)
    (doMult : Bool) (factor : Double) :
    ∀ (fuel i : Nat) (out : List Char), i ≤ line.length → line.length - i ≤ fuel →
      process_loop line doMult factor fuel i out = .ok (out ++ line.drop i) := by
  intro fuel
  induction fuel with
  | zero =>
    intro i out hi hf
    rw [process_loop_done _ _ _ _ _ _ (by omega), List.drop_eq_nil_of_le (by omega)]
    simp
  | succ k ih =>
    intro i out hi hf
    by_cases hlt : i < line.length
    · have hdrop : line.drop i = line.get ⟨i, hlt⟩ :: line.drop (i + 1) := by
        rw [List.get_eq_getElem]
        exact List.drop_eq_getElem_cons hlt
      have hlit : is_number_start line i = .ok false ∨
          (is_number_start line i = .ok true ∧ read_number_token line i = none) := by
        obtain ⟨b, hb⟩ := is_number_start_ok line i hlt
        cases b with
        | false => exact Or.inl hb
        | true => exact Or.inr ⟨hb, no_digit_token_fails line hs i hlt hb⟩
      rw [process_loop_literal _ _ _ _ _ _ hlt hlit, ih _ _ (by omega) (by omega), hdrop]
      simp
    · rw [process_loop_done _ _ _ _ _ _ hlt, List.drop_eq_nil_of_le (by omega)]
      simp

/-- C2. Literal pass-through: a line without a decimal digit is returned
unchanged under every transform; and in any line a `+` or `-` that is not
followed by a digit or a point is not a number start, so the loop copies it
as a literal character and goes on at the next offset. -/
theorem C2_literal_pass_through (line : List Char) (hs : ∀ c ∈ line, c.isDigit = false)
    (doMult : Bool) (factor : Double) :
    process_line line doMult factor = .ok line ∧
    (∀ (s : List Char) (i : Nat) (h : i < s.length),
      (s.get ⟨i, h⟩ = '+' ∨ s.get ⟨i, h⟩ = '-') → next_is_numeric s i = false →
        is_number_start s i = .ok false ∧
        ∀ (fuel : Nat) (out : List Char),
          process_loop s doMult factor (fuel + 1) i out =
            process_loop s doMult factor fuel (i + 1) (out ++ [s.get ⟨i, h⟩])) ∧
    process_line "a + b".toList doMult factor = .ok "a + b".toList := by
  have main : ∀ l : List Char, (∀ c ∈ l, c.isDigit = false) →
      process_line l doMult factor = .ok l := by
    intro l hl
    have := process_loop_no_digit l hl doMult factor l.length 0 [] (Nat.zero_le _) (by omega)
    simpa [process_line] using this
  refine ⟨main line hs, ?_, main _ (by decide)⟩
  intro s i h hsign hnext
  have hst : is_number_start s i = .ok false := by
    rw [is_number_start_eq s i h, hnext]
    rcases hsign with e | e <;> rw [e] <;> rfl
  exact ⟨hst, fun fuel out => process_loop_literal _ _ _ _ _ _ h (Or.inl hst)⟩

theorem C2_literal_pass_through_witness :
    process_line "+ - . +. -x".toList false (Double.ofNat 3) = .ok "+ - . +. -x".toList :=
  (C2_literal_pass_through "+ - . +. -x".toList (by decide) false (Double.ofNat 3)).1

/-! ## Rejection of the factor in `main` -/

theorem main_zero_factor (argv stdin : List (List Char)) (st : ArgState)
    (h : arg_loop argv ArgState.init = .ok st) (hone : st.haveMult ≠ st.haveDiv)
    (hz : (if st.haveMult then st.multVal else st.divVal).isZero = true) :
    main argv stdin = .ok ⟨2, []⟩ := by
  unfold main
  rw [h]
  have hne : (st.haveMult == st.haveDiv) = false := by simpa using hone
  simp only [hne, hz]
  rfl

/-- C3 (as amended). A factor that is zero (`+0.0` or `-0.0`) is rejected: for
every argument text that `parse_double` turns into a zero, and more generally
whenever the argument loop ends with exactly one of `-mult`/`-div` and a zero
factor, `main` exits with code 2 and writes nothing to standard output,
whatever the input text and the lines on standard input. -/
theorem C3_zero_factor_rejected (v : List Char) (x : Double)
    (hv : parse_double v = some x) (hz : x.isZero = true)
    (text : List Char) (stdin : List (List Char)) :
    main ["-mult".toList, v] stdin = .ok ⟨2, []⟩ ∧
    main ["-div".toList, v] stdin = .ok ⟨2, []⟩ ∧
    main ["-in".toList, text, "-mult".toList, v] stdin = .ok ⟨2, []⟩ ∧
    main ["-in".toList, text, "-div".toList, v] stdin = .ok ⟨2, []⟩ ∧
    (∀ (argv : List (List Char)) (st : ArgState),
      arg_loop argv ArgState.init = .ok st → st.haveMult ≠ st.haveDiv →
      (if st.haveMult then st.multVal else st.divVal).isZero = true →
      main argv stdin = .ok ⟨2, []⟩) := by
  refine ⟨?_, ?_, ?_, ?_, fun argv st h1 h2 h3 => main_zero_factor argv stdin st h1 h2 h3⟩
  · exact main_zero_factor _ stdin ⟨[], false, true, false, x, .finite false 0 0⟩
      (by simp [arg_loop, hv, ArgState.init]) (by simp) (by simpa using hz)
  · exact main_zero_factor _ stdin ⟨[], false, false, true, .finite false 0 0, x⟩
      (by simp [arg_loop, hv, ArgState.init]) (by simp) (by simpa using hz)
  · exact main_zero_factor _ stdin ⟨text, true, true, false, x, .finite false 0 0⟩
      (by simp [arg_loop, hv, ArgState.init]) (by simp) (by simpa using hz)
  · exact main_zero_factor _ stdin ⟨text, true, false, true, .finite false 0 0, x⟩
      (by simp [arg_loop, hv, ArgState.init]) (by simp) (by simpa using hz)

theorem C3_zero_factor_rejected_witness :
    main ["-mult".toList, "-0.0".toList] ["1 2".toList] = .ok ⟨2, []⟩ ∧
    main ["-div".toList, "-0.0".toList] ["1 2".toList] = .ok ⟨2, []⟩ :=
  have h := C3_zero_factor_rejected "-0.0".toList (.finite true 0 0) (by decide!) (by decide)
    "value=0".toList ["1 2".toList]
  ⟨h.1, h.2.1⟩

/-- C3 (counterexample). A factor that is not finite is not rejected: with
`-mult nan` the factor parses to NaN and with `-div inf` to infinity, and in
both runs `main` rewrites the line and exits with code 0. -/
theorem C3_nonfinite_factor_accepted :
    parse_double "nan".toList = some (.nan false) ∧
    main ["-in".toList, "a 1 b".toList, "-mult".toList, "nan".toList] [] =
      .ok ⟨0, "a nan.0 b\n".toList⟩ ∧
    parse_double "inf".toList = some (.inf false) ∧
    main ["-in".toList, "a 1 b".toList, "-div".toList, "inf".toList] [] =
      .ok ⟨0, "a 0.0 b\n".toList⟩ := by
  refine ⟨by decide!, by decide!, by decide!, by decide!⟩

/-! ## `strtod` on text that starts like a decimal number -/

theorem dropWhile_eq_self_of_takeWhile_nil {p : Char → Bool} {l : List Char}
    (h : l.takeWhile p = []) : l.dropWhile p = l := by
  have := List.takeWhile_append_dropWhile p l
  rw [h] at this
  simpa using this

theorem takeWhile_digits_append (ds rest : List Char) (p : Char → Bool)
    (hds : ∀ c ∈ ds, p c = true) (hrest : rest.takeWhile p = []) :
    (ds ++ rest).takeWhile p = ds := by
  rw [List.takeWhile_append_of_pos hds, hrest, List.append_nil]

theorem dropWhile_digits_append (ds rest : List Char) (p : Char → Bool)
    (hds : ∀ c ∈ ds, p c = true) (hrest : rest.takeWhile p = []) :
    (ds ++ rest).dropWhile p = rest := by
  rw [List.dropWhile_append_of_pos hds, dropWhile_eq_self_of_takeWhile_nil hrest]

theorem strtod_decimal_point (neg : Bool) (ip fp rest : List Char)
    (hip : ∀ c ∈ ip, c.isDigit = true) (hfp : ∀ c ∈ fp, c.isDigit = true)
    (hne : ip ≠ [] ∨ fp ≠ []) (hrest : rest.takeWhile Char.isDigit = []) :
    strtod_decimal neg (ip ++ '.' :: (fp ++ rest)) =
      some ⟨ip.length + (1 + fp.length) + (read_exponent 'e' 'E' rest).1,
        round_scaled neg (digitsVal 10 (ip ++ fp)) 1 10
          ((read_exponent 'e' 'E' rest).2 - (fp.length : Int)),
        range_error (round_scaled neg (digitsVal 10 (ip ++ fp)) 1 10
            ((read_exponent 'e' 'E' rest).2 - (fp.length : Int)))
          (digitsVal 10 (ip ++ fp) *
            10 ^ ((read_exponent 'e' 'E' rest).2 - (fp.length : Int)).toNat)
          (10 ^ (-((read_exponent 'e' 'E' rest).2 - (fp.length : Int))).toNat)⟩ := by
  have hdot : ('.' :: (fp ++ rest)).takeWhile Char.isDigit = [] := by
    rw [List.takeWhile_cons_of_neg (by decide)]
  have h1 : (ip ++ '.' :: (fp ++ rest)).takeWhile Char.isDigit = ip :=
    takeWhile_digits_append ip _ _ hip hdot
  have h2 : (ip ++ '.' :: (fp ++ rest)).dropWhile Char.isDigit = '.' :: (fp ++ rest) :=
    dropWhile_digits_append ip _ _ hip hdot
  have h3 : (fp ++ rest).takeWhile Char.isDigit = fp :=
    takeWhile_digits_append fp _ _ hfp hrest
  have h4 : (fp ++ rest).dropWhile Char.isDigit = rest :=
    dropWhile_digits_append fp _ _ hfp hrest
  unfold strtod_decimal
  simp only [h1, h2, read_fraction, after_fraction, h3, h4]
  have hemp : (ip.isEmpty && fp.isEmpty) = false := by
    rcases hne with h | h
    · cases ip with
      | nil => exact absurd rfl h
      | cons a t => rfl
    · cases fp with
      | nil => exact absurd rfl h
      | cons a t => simp
  simp only [hemp, Bool.false_eq_true, if_false, if_true]

theorem isDigit_bounds (c : Char) (h : c.isDigit = true) : 48 ≤ c.toNat ∧ c.toNat ≤ 57 := by
  unfold Char.isDigit at h
  have h1 : c.val ≥ 48 ∧ c.val ≤ 57 := by simpa using h
  exact ⟨h1.1, h1.2⟩

theorem isDigit_cases (c : Char) (h : c.isDigit = true) : ∃ d, d < 10 ∧ c = digitChar d := by
  obtain ⟨h1, h2⟩ := isDigit_bounds c h
  refine ⟨c.toNat - 48, by omega, ?_⟩
  unfold digitChar
  rw [show 48 + (c.toNat - 48) = c.toNat by omega, Char.ofNat_toNat]

theorem numeric_cases (c : Char) (hc : c.isDigit = true ∨ c = '.') :
    c ∈ "0123456789.".toList := by
  rcases hc with h | h
  · obtain ⟨d, hd, rfl⟩ := isDigit_cases c h
    interval_cases d <;> decide
  · rw [h]; decide

theorem numeric_facts : ∀ c ∈ "0123456789.".toList,
    c.toLower ≠ 'i' ∧ c.toLower ≠ 'n' ∧ isspace c = false ∧
      (c == '-' || c == '+') = false ∧ c ≠ Char.ofNat 0 := by
  decide

theorem starts_with_ci_first (w s : List Char) (a c : Char)
    (h : c.toLower ≠ a) : starts_with_ci (a :: w) (c :: s) = false := by
  simp [starts_with_ci, h]

theorem strtod_body_numeric (neg : Bool) (c : Char) (t : List Char)
    (hc : c.isDigit = true ∨ c = '.') (hx : after_hex_mark (c :: t) = none) :
    strtod_body neg (c :: t) = strtod_decimal neg (c :: t) := by
  have hmem := numeric_cases c hc
  have e1 : starts_with_ci "infinity".toList (c :: t) = false :=
    starts_with_ci_first _ _ _ _ (numeric_facts c hmem).1
  have e2 : starts_with_ci "inf".toList (c :: t) = false :=
    starts_with_ci_first _ _ _ _ (numeric_facts c hmem).1
  have e3 : starts_with_ci "nan".toList (c :: t) = false :=
    starts_with_ci_first _ _ _ _ (numeric_facts c hmem).2.1
  unfold strtod_body
  simp only [e1, e2, e3, hx, Bool.false_eq_true, if_false, Option.none_bind]

theorem strtod_of_numeric (c : Char) (t : List Char) (hc : c.isDigit = true ∨ c = '.') :
    strtod (c :: t) =
      match strtod_body false (c :: t) with
      | some r => r.shift 0
      | none => ⟨0, .finite false 0 0, false⟩ := by
  have hmem := numeric_cases c hc
  have hsp : isspace c = false := (numeric_facts c hmem).2.2.1
  have hsg : has_sign (c :: t) = false := by
    have : (c == '-' || c == '+') = false := (numeric_facts c hmem).2.2.2.1
    simpa [has_sign] using this
  unfold strtod
  rw [List.takeWhile_cons_of_neg (by simp [hsp]), List.dropWhile_cons_of_neg (by simp [hsp])]
  simp only [hsg, List.length_nil, Bool.false_eq_true, if_false]

theorem strtod_of_sign (c : Char) (t : List Char) (hc : c = '+' ∨ c = '-') :
    strtod (c :: t) =
      match strtod_body (c == '-') t with
      | some r => r.shift 1
      | none => ⟨0, .finite false 0 0, false⟩ := by
  have hsp : isspace c = false := by rcases hc with e | e <;> rw [e] <;> rfl
  have hsg : has_sign (c :: t) = true := by rcases hc with e | e <;> rw [e] <;> rfl
  unfold strtod
  rw [List.takeWhile_cons_of_neg (by simp [hsp]), List.dropWhile_cons_of_neg (by simp [hsp])]
  simp only [hsg, List.length_nil, if_true, List.tail_cons, List.head?_cons]
  have e : (some c == some '-') = (c == '-') := by
    rcases hc with e | e <;> rw [e] <;> rfl
  rw [e]
  cases strtod_body (c == '-') t with
  | none => rfl
  | some r => simp [StrtodResult.shift]

theorem round_rat_withSign (neg : Bool) (p q : Nat) :
    round_rat neg p q = (round_rat false p q).withSign neg := by
  unfold round_rat
  split
  · rfl
  · simp only
    split <;> split <;> rfl

theorem range_error_withSign (s : Bool) (v : Double) (p q : Nat) :
    range_error (v.withSign s) p q = range_error v p q := by
  cases v <;> rfl

theorem strtod_decimal_withSign (neg : Bool) (s : List Char) :
    strtod_decimal neg s = (strtod_decimal false s).map (StrtodResult.withSign neg) := by
  unfold strtod_decimal
  simp only
  split
  · rfl
  · simp only [Option.map_some', StrtodResult.withSign, round_scaled]
    rw [round_rat_withSign neg, range_error_withSign]

theorem strtod_hex_withSign (neg : Bool) (s : List Char) :
    strtod_hex neg s = (strtod_hex false s).map (StrtodResult.withSign neg) := by
  unfold strtod_hex
  simp only
  split
  · rfl
  · simp only [Option.map_some', StrtodResult.withSign, round_scaled]
    rw [round_rat_withSign neg, range_error_withSign]

theorem strtod_body_withSign (neg : Bool) (s : List Char) :
    strtod_body neg s = (strtod_body false s).map (StrtodResult.withSign neg) := by
  unfold strtod_body
  split
  · rfl
  · split
    · rfl
    · split
      · rfl
      · rw [strtod_decimal_withSign neg s]
        cases after_hex_mark s with
        | none => simp
        | some t =>
          simp only [Option.some_bind]
          rw [strtod_hex_withSign neg t]
          cases strtod_hex false t <;> simp

theorem read_number_token_eq (s : List Char) (i : Nat) :
    read_number_token s i =
      if (strtod (c_str_from s i)).consumed = 0 ∨ (strtod (c_str_from s i)).erange = true
      then none
      else some ((strtod (c_str_from s i)).consumed, (strtod (c_str_from s i)).val) := by
  unfold read_number_token
  simp only
  by_cases h1 : (strtod (c_str_from s i)).consumed = 0
  · simp [h1]
  · by_cases h2 : (strtod (c_str_from s i)).erange = true
    · simp [h1, h2]
    · have : 0 < (strtod (c_str_from s i)).consumed := by omega
      simp [h1, h2, this]

theorem read_number_token_signed (c : Char) (rest : List Char) (hc : c = '+' ∨ c = '-')
    (hrest : ∃ d t, rest = d :: t ∧ (d.isDigit = true ∨ d = '.')) :
    read_number_token (c :: rest) 0 =
      (read_number_token rest 0).map (fun p => (p.1 + 1, p.2.withSign (c == '-'))) := by
  obtain ⟨d, t, rfl, hd⟩ := hrest
  have hd0 : d ≠ Char.ofNat 0 := (numeric_facts d (numeric_cases d hd)).2.2.2.2
  have hc0 : c ≠ Char.ofNat 0 := by rcases hc with e | e <;> rw [e] <;> decide
  have e1 : c_str_from (c :: d :: t) 0 = c :: c_str_from (d :: t) 0 := by
    unfold c_str_from
    simp only [List.drop_zero]
    rw [List.takeWhile_cons_of_pos (by simpa using hc0)]
  have e2 : c_str_from (d :: t) 0 = d :: (t.takeWhile (fun c => c != Char.ofNat 0)) := by
    unfold c_str_from
    simp only [List.drop_zero]
    rw [List.takeWhile_cons_of_pos (by simpa using hd0)]
  rw [read_number_token_eq, read_number_token_eq, e1, e2, strtod_of_sign c _ hc,
    strtod_of_numeric d _ hd, strtod_body_withSign (c == '-')]
  cases hb : strtod_body false (d :: List.takeWhile (fun c => c != Char.ofNat 0) t) with
  | none => simp
  | some r =>
    have hpos := (strtod_body_le _ _ _ hb).1
    simp only [Option.map_some', StrtodResult.shift, StrtodResult.withSign]
    have h1 : ¬ (1 + r.consumed = 0) := by omega
    have h2 : ¬ (0 + r.consumed = 0) := by omega
    by_cases h : r.erange = true
    · simp [h]
    · have h3 : ¬ (r.consumed = 0) := by omega
      simp [h, h1, h2, h3]
      omega

theorem strtod_decimal_integer (neg : Bool) (ip rest : List Char)
    (hip : ∀ c ∈ ip, c.isDigit = true) (hne : ip ≠ [])
    (hrest : rest.takeWhile Char.isDigit = []) (hdot : rest.head? ≠ some '.') :
    strtod_decimal neg (ip ++ rest) =
      some ⟨ip.length + (read_exponent 'e' 'E' rest).1,
        round_scaled neg (digitsVal 10 ip) 1 10 (read_exponent 'e' 'E' rest).2,
        range_error (round_scaled neg (digitsVal 10 ip) 1 10 (read_exponent 'e' 'E' rest).2)
          (digitsVal 10 ip * 10 ^ ((read_exponent 'e' 'E' rest).2).toNat)
          (10 ^ (-(read_exponent 'e' 'E' rest).2).toNat)⟩ := by
  have h1 : (ip ++ rest).takeWhile Char.isDigit = ip :=
    takeWhile_digits_append ip _ _ hip hrest
  have h2 : (ip ++ rest).dropWhile Char.isDigit = rest :=
    dropWhile_digits_append ip _ _ hip hrest
  have h3 : read_fraction Char.isDigit rest = ([], false) := by
    unfold read_fraction
    split
    · exact absurd rfl hdot
    · rfl
  have h4 : after_fraction Char.isDigit rest = rest := by
    unfold after_fraction
    split
    · exact absurd rfl hdot
    · rfl
  unfold strtod_decimal
  simp only [h1, h2, h3, h4]
  have hemp : ip.isEmpty = false := by
    cases ip with
    | nil => exact absurd rfl hne
    | cons a t => rfl
  simp [hemp]

theorem read_exponent_full (mk : Char) (hmk : mk = 'e' ∨ mk = 'E') (sgn ds rest : List Char)
    (hsgn : sgn = [] ∨ sgn = [ '+' ] ∨ sgn = [ '-' ])
    (hds : ∀ c ∈ ds, c.isDigit = true) (hne : ds ≠ [])
    (hrest : rest.takeWhile Char.isDigit = []) :
    (read_exponent 'e' 'E' (mk :: (sgn ++ (ds ++ rest)))).1 = 1 + sgn.length + ds.length := by
  have htw : (ds ++ rest).takeWhile Char.isDigit = ds :=
    takeWhile_digits_append ds _ _ hds hrest
  have hemp : ds.isEmpty = false := by
    cases ds with
    | nil => exact absurd rfl hne
    | cons a t => rfl
  unfold read_exponent
  simp only [hmk, if_true]
  rcases hsgn with h | h | h <;> subst h
  · obtain ⟨a, t, rfl⟩ : ∃ a t, ds = a :: t := by
      cases ds with
      | nil => exact absurd rfl hne
      | cons a t => exact ⟨a, t, rfl⟩
    have ha : a.isDigit = true := hds a (by simp)
    have ham : a ≠ '-' := by intro e; rw [e] at ha; exact absurd ha (by decide)
    have hap : a ≠ '+' := by intro e; rw [e] at ha; exact absurd ha (by decide)
    simp only [List.nil_append, List.cons_append]
    split
    · rename_i u heq; injection heq with h0 _; exact absurd h0 ham
    · rename_i u heq; injection heq with h0 _; exact absurd h0 hap
    · unfold exponent_digits
      rw [← List.cons_append, htw]
      simp
  · simp only [List.singleton_append]
    unfold exponent_digits
    rw [htw, hemp]
    simp
  · simp only [List.singleton_append]
    unfold exponent_digits
    rw [htw, hemp]
    simp

theorem strtod_digits_start (ip rest : List Char) (hip : ∀ c ∈ ip, c.isDigit = true)
    (hne : ip ≠ []) (hx : rest.head? ≠ some 'x' ∧ rest.head? ≠ some 'X') :
    ∃ d t, ip ++ rest = d :: t ∧ (d.isDigit = true ∨ d = '.') ∧
      after_hex_mark (d :: t) = none := by
  cases ip with
  | nil => exact absurd rfl hne
  | cons d ip1 =>
    refine ⟨d, ip1 ++ rest, rfl, Or.inl (hip d (by simp)), ?_⟩
    unfold after_hex_mark
    cases ip1 with
    | nil =>
      cases rest with
      | nil => rfl
      | cons x u =>
        have h1 : x ≠ 'x' := fun e => hx.1 (by rw [e]; rfl)
        have h2 : x ≠ 'X' := fun e => hx.2 (by rw [e]; rfl)
        simp [h1, h2]
    | cons x u =>
      have hxd : x.isDigit = true := hip x (by simp)
      have h1 : x ≠ 'x' := by intro e; rw [e] at hxd; exact absurd hxd (by decide)
      have h2 : x ≠ 'X' := by intro e; rw [e] at hxd; exact absurd hxd (by decide)
      simp [h1, h2]

theorem strtod_decimal_text (ip rest : List Char) (hip : ∀ c ∈ ip, c.isDigit = true)
    (hne : ip ≠ []) (hx : rest.head? ≠ some 'x' ∧ rest.head? ≠ some 'X') :
    strtod (ip ++ rest) =
      match strtod_decimal false (ip ++ rest) with
      | some r => r.shift 0
      | none => ⟨0, .finite false 0 0, false⟩ := by
  obtain ⟨d, t, e, hd, hh⟩ := strtod_digits_start ip rest hip hne hx
  rw [e, strtod_of_numeric d t hd, strtod_body_numeric false d t hd hh]

/-! ## Characters of the rendered text -/

theorem natToDecAux_isDigit : ∀ (fuel n : Nat) (acc : List Char),
    (∀ c ∈ acc, c.isDigit = true) → ∀ c ∈ natToDecAux fuel n acc, c.isDigit = true
  | 0, _, acc, h => by simpa [natToDecAux] using h
  | fuel + 1, n, acc, h => by
    have hd : (digitChar (n % 10)).isDigit = true := digitChar_isDigit _ (Nat.mod_lt _ (by decide))
    have hacc : ∀ c ∈ digitChar (n % 10) :: acc, c.isDigit = true := by
      intro c hc
      rcases List.mem_cons.1 hc with e | e
      · rw [e]; exact hd
      · exact h c e
    unfold natToDecAux
    split
    · exact hacc
    · exact natToDecAux_isDigit fuel (n / 10) _ hacc

theorem natToDec_isDigit (n : Nat) : ∀ c ∈ natToDec n, c.isDigit = true :=
  natToDecAux_isDigit _ _ [] (by simp)

theorem render_fixed6_chars (v : Double) : ∀ c ∈ render_fixed6 v, is_format_char c = true := by
  intro c hc
  cases v with
  | nan s => cases s <;> revert c <;> decide
  | inf s => cases s <;> revert c <;> decide
  | finite s m e =>
    simp only [render_fixed6, List.mem_append, List.mem_singleton] at hc
    rcases hc with ((h | h) | h) | h
    · cases s
      · simp [signText] at h
      · simp only [signText, if_true, List.mem_singleton] at h
        rw [h]; rfl
    · simp [is_format_char, natToDec_isDigit _ c h]
    · rw [h]; rfl
    · simp [is_format_char, fixedDigits_isDigit _ _ c h]

theorem mem_strip_trailing_zeros (out : List Char) (c : Char)
    (h : c ∈ strip_trailing_zeros out) : c ∈ out := by
  unfold strip_trailing_zeros at h
  rw [List.mem_reverse] at h
  exact List.mem_reverse.1 ((List.dropWhile_sublist _).subset h)

theorem format_float_chars (v : Double) : ∀ c ∈ format_float v, is_format_char c = true := by
  intro c hc
  unfold format_float trim_fixed at hc
  have hr := render_fixed6_chars v
  split at hc
  · simp only at hc
    split at hc
    · rcases List.mem_append.1 hc with h | h
      · exact hr c (mem_strip_trailing_zeros _ c h)
      · rw [List.mem_singleton.1 h]; rfl
    · exact hr c (mem_strip_trailing_zeros _ c hc)
  · rcases List.mem_append.1 hc with h | h
    · exact hr c h
    · have hall : ∀ x ∈ ".0".toList, is_format_char x = true := by decide
      exact hall c h

theorem format_float_no_exponent (v : Double) :
    'e' ∉ format_float v ∧ 'E' ∉ format_float v :=
  ⟨fun h => absurd (format_float_chars v _ h) (by decide),
   fun h => absurd (format_float_chars v _ h) (by decide)⟩

/-! ## Worked examples of the tokenisation -/

theorem c_str_from_append (a b : List Char) (ha : ∀ c ∈ a, c ≠ Char.ofNat 0) :
    c_str_from (a ++ b) 0 = a ++ c_str_from b 0 := by
  unfold c_str_from
  simp only [List.drop_zero]
  rw [List.takeWhile_append_of_pos (by intro c hc; simpa using ha c hc)]

theorem digit_ne_nul (c : Char) (h : c.isDigit = true) : c ≠ Char.ofNat 0 := by
  intro e; rw [e] at h; exact absurd h (by decide)

theorem is_number_start_of_dot (s : List Char) (i : Nat) (h : s[i]? = some '.') :
    is_number_start s i = .ok true := by
  unfold is_number_start char_at
  rw [h]
  rfl

theorem strtod_two_points (ip fp rest : List Char) (hip : ∀ c ∈ ip, c.isDigit = true)
    (hne : ip ≠ []) (hfp : ∀ c ∈ fp, c.isDigit = true) :
    (strtod (ip ++ '.' :: (fp ++ '.' :: rest))).consumed = ip.length + 1 + fp.length := by
  have hrest : ('.' :: rest).takeWhile Char.isDigit = [] := by
    rw [List.takeWhile_cons_of_neg (by decide)]
  rw [strtod_decimal_text ip _ hip hne (by constructor <;> simp),
    strtod_decimal_point false ip fp ('.' :: rest) hip hfp (Or.inl hne) hrest]
  simp only [StrtodResult.shift]
  have : (read_exponent 'e' 'E' ('.' :: rest)).1 = 0 := by
    simp [read_exponent]
  rw [this]
  omega

/-- C8. Left-to-right tokenisation across a second decimal point: in
`digits . digits . rest` a token read at the start ends before the second
point, which is a number start of its own; and `process_line("1.2.3",
Multiply(10))` is `"12.03.0"`, from the tokens `1.2` and `.3`. -/
theorem C8_second_decimal_point (ip fp rest : List Char)
    (hip : ∀ c ∈ ip, c.isDigit = true) (hne : ip ≠ []) (hfp : ∀ c ∈ fp, c.isDigit = true) :
    (∀ len val, read_number_token (ip ++ '.' :: (fp ++ '.' :: rest)) 0 = some (len, val) →
      len = ip.length + 1 + fp.length) ∧
    is_number_start (ip ++ '.' :: (fp ++ '.' :: rest)) (ip.length + 1 + fp.length) = .ok true ∧
    process_line "1.2.3".toList true (Double.ofNat 10) = .ok "12.03.0".toList ∧
    (read_number_token "1.2.3".toList 0).map Prod.fst = some 3 ∧
    (read_number_token "1.2.3".toList 3).map Prod.fst = some 2 ∧
    (read_number_token "1.2.3".toList 0).map
      (fun t => format_float (apply_transform true (Double.ofNat 10) t.2)) =
        some "12.0".toList ∧
    (read_number_token "1.2.3".toList 3).map
      (fun t => format_float (apply_transform true (Double.ofNat 10) t.2)) =
        some "3.0".toList := by
  refine ⟨?_, ?_, by decide!, by decide!, by decide!, by decide!, by decide!⟩
  · intro len val h
    rw [read_number_token_eq] at h
    split at h
    · exact absurd h (by simp)
    · injection h with h
      injection h with h1 h2
      rw [← h1]
      have e : ip ++ '.' :: (fp ++ '.' :: rest) = (ip ++ '.' :: fp) ++ ('.' :: rest) := by simp
      have hnn : ∀ c ∈ ip ++ '.' :: fp, c ≠ Char.ofNat 0 := by
        intro c hc
        rcases List.mem_append.1 hc with h | h
        · exact digit_ne_nul c (hip c h)
        · rcases List.mem_cons.1 h with h | h
          · rw [h]; decide
          · exact digit_ne_nul c (hfp c h)
      have e2 : c_str_from ('.' :: rest) 0 = '.' :: c_str_from rest 0 := by
        unfold c_str_from
        simp only [List.drop_zero]
        rw [List.takeWhile_cons_of_pos (by decide)]
      rw [e, c_str_from_append _ _ hnn, e2]
      have e3 : (ip ++ '.' :: fp) ++ '.' :: c_str_from rest 0 =
          ip ++ '.' :: (fp ++ '.' :: c_str_from rest 0) := by simp
      rw [e3]
      exact strtod_two_points ip fp _ hip hne hfp
  · apply is_number_start_of_dot
    have e : ip ++ '.' :: (fp ++ '.' :: rest) = (ip ++ '.' :: fp) ++ ('.' :: rest) := by simp
    rw [e, List.getElem?_append_right (by simp; omega)]
    have : ip.length + 1 + fp.length - (ip ++ '.' :: fp).length = 0 := by simp; omega
    rw [this]
    simp

theorem C8_second_decimal_point_witness :
    (∀ len val, read_number_token ("10".toList ++ '.' :: ("25".toList ++ '.' :: "7 x".toList)) 0
        = some (len, val) → len = "10".toList.length + 1 + "25".toList.length) ∧
    is_number_start ("10".toList ++ '.' :: ("25".toList ++ '.' :: "7 x".toList))
      ("10".toList.length + 1 + "25".toList.length) = .ok true :=
  have h := C8_second_decimal_point "10".toList "25".toList "7 x".toList
    (by decide) (by decide) (by decide)
  ⟨h.1, h.2.1⟩

/-- C9. The two usage examples of the file header hold, for `process_line`
and for `main` called with the documented arguments: the text before the
numbers is kept as it is and integer tokens come out as floats. -/
theorem C9_usage_examples :
    process_line "unboundColorClipboard: 1.0 1.0 1.0 1.0".toList true (Double.ofNat 255) =
      .ok "unboundColorClipboard: 255.0 255.0 255.0 255.0".toList ∧
    process_line "unboundColorClipboard: 255 255 255 255".toList false (Double.ofNat 255) =
      .ok "unboundColorClipboard: 1.0 1.0 1.0 1.0".toList ∧
    parse_double "255".toList = some (Double.ofNat 255) ∧
    main ["-in".toList, "unboundColorClipboard: 1.0 1.0 1.0 1.0".toList, "-mult".toList,
        "255".toList] [] =
      .ok ⟨0, "unboundColorClipboard: 255.0 255.0 255.0 255.0\n".toList⟩ ∧
    main ["-in".toList, "unboundColorClipboard: 255 255 255 255".toList, "-div".toList,
        "255".toList] [] =
      .ok ⟨0, "unboundColorClipboard: 1.0 1.0 1.0 1.0\n".toList⟩ := by
  refine ⟨by decide!, by decide!, by decide!, by decide!, by decide!⟩

theorem strtod_exponent_consumed (ip fp ds tail sgn : List Char) (mk : Char)
    (hip : ∀ c ∈ ip, c.isDigit = true) (hne : ip ≠ []) (hfp : ∀ c ∈ fp, c.isDigit = true)
    (hmk : mk = 'e' ∨ mk = 'E') (hsgn : sgn = [] ∨ sgn = [ '+' ] ∨ sgn = [ '-' ])
    (hds : ∀ c ∈ ds, c.isDigit = true) (hdne : ds ≠ [])
    (htail : tail.takeWhile Char.isDigit = []) :
    (strtod (ip ++ mk :: (sgn ++ (ds ++ tail)))).consumed =
      ip.length + (1 + sgn.length + ds.length) ∧
    (strtod (ip ++ '.' :: (fp ++ mk :: (sgn ++ (ds ++ tail))))).consumed =
      ip.length + (1 + fp.length) + (1 + sgn.length + ds.length) := by
  have hmkd : mk.isDigit = false := by rcases hmk with e | e <;> rw [e] <;> rfl
  have hrest : (mk :: (sgn ++ (ds ++ tail))).takeWhile Char.isDigit = [] := by
    rw [List.takeWhile_cons_of_neg (by simp [hmkd])]
  have hex := read_exponent_full mk hmk sgn ds tail hsgn hds hdne htail
  constructor
  · rw [strtod_decimal_text ip _ hip hne
        (by rcases hmk with e | e <;> rw [e] <;> constructor <;> simp),
      strtod_decimal_integer false ip _ hip hne hrest
        (by rcases hmk with e | e <;> rw [e] <;> simp)]
    simp only [StrtodResult.shift, hex]
    omega
  · rw [strtod_decimal_text ip _ hip hne (by constructor <;> simp),
      strtod_decimal_point false ip fp _ hip hfp (Or.inl hne) hrest]
    simp only [StrtodResult.shift, hex]
    omega

/-- C10. A signed token with fraction and exponent is one token:
`process_line("-3.5e2", Multiply(2))` is `"-700.0"`. In general a `+` or `-`
directly followed by a digit or a point is a number start and the token read
there is the token read after the sign with one more character (and the sign
set by `-`); an exponent part `e`/`E`, optional sign, digits after the
mantissa is consumed by `strtod` with it; and no output of `format_float`
contains `e` or `E`. -/
theorem C10_signed_exponent_token (c : Char) (rest : List Char) (hc : c = '+' ∨ c = '-')
    (hrest : ∃ d t, rest = d :: t ∧ (d.isDigit = true ∨ d = '.')) :
    is_number_start (c :: rest) 0 = .ok true ∧
    read_number_token (c :: rest) 0 =
      (read_number_token rest 0).map (fun p => (p.1 + 1, p.2.withSign (c == '-'))) ∧
    (∀ (ip fp ds tail sgn : List Char) (mk : Char),
      (∀ c ∈ ip, c.isDigit = true) → ip ≠ [] → (∀ c ∈ fp, c.isDigit = true) →
      (mk = 'e' ∨ mk = 'E') → (sgn = [] ∨ sgn = [ '+' ] ∨ sgn = [ '-' ]) →
      (∀ c ∈ ds, c.isDigit = true) → ds ≠ [] → tail.takeWhile Char.isDigit = [] →
      (strtod (ip ++ mk :: (sgn ++ (ds ++ tail)))).consumed =
        ip.length + (1 + sgn.length + ds.length) ∧
      (strtod (ip ++ '.' :: (fp ++ mk :: (sgn ++ (ds ++ tail))))).consumed =
        ip.length + (1 + fp.length) + (1 + sgn.length + ds.length)) ∧
    (∀ v : Double, 'e' ∉ format_float v ∧ 'E' ∉ format_float v) ∧
    process_line "-3.5e2".toList true (Double.ofNat 2) = .ok "-700.0".toList ∧
    (read_number_token "-3.5e2".toList 0).map Prod.fst = some 6 := by
  refine ⟨?_, read_number_token_signed c rest hc hrest, strtod_exponent_consumed,
    format_float_no_exponent, by decide!, by decide!⟩
  obtain ⟨d, t, rfl, hd⟩ := hrest
  rw [is_number_start_eq (c :: d :: t) 0 (by simp)]
  have hn : next_is_numeric (c :: d :: t) 0 = true := by
    unfold next_is_numeric
    rcases hd with h | h
    · simp [h]
    · simp [h]
  rw [hn]
  rcases hc with e | e <;> rw [e] <;> rfl

theorem C10_signed_exponent_token_witness :
    is_number_start ('-' :: "3.5e2".toList) 0 = .ok true ∧
    read_number_token ('-' :: "3.5e2".toList) 0 =
      (read_number_token "3.5e2".toList 0).map
        (fun p => (p.1 + 1, p.2.withSign ('-' == '-'))) :=
  have h := C10_signed_exponent_token '-' "3.5e2".toList (Or.inr rfl)
    ⟨'3', ".5e2".toList, rfl, Or.inl rfl⟩
  ⟨h.1, h.2.1⟩

/-! ## Rounding to the nearest integer, ties to even -/

theorem rne_frac (a b : Nat) (hb : 0 < b) :
    ((a : ℚ) / b = (a / b : Nat) + ((a % b : Nat) : ℚ) / b) ∧
    (0 : ℚ) ≤ ((a % b : Nat) : ℚ) / b ∧ ((a % b : Nat) : ℚ) / b < 1 := by
  have hbq : (0 : ℚ) < b := by exact_mod_cast hb
  have h1 : (a : ℚ) = b * (a / b : Nat) + (a % b : Nat) := by
    exact_mod_cast (Nat.div_add_mod a b).symm
  refine ⟨?_, by positivity, ?_⟩
  · field_simp
    linarith
  · rw [div_lt_one hbq]
    exact_mod_cast Nat.mod_lt a hb

theorem rne_spec (a b : Nat) (hb : 0 < b) :
    |(rne a b : ℚ) - (a : ℚ) / b| ≤ 1 / 2 ∧
    (|(rne a b : ℚ) - (a : ℚ) / b| = 1 / 2 → rne a b % 2 = 0) := by
  obtain ⟨hx, hf0, hf1⟩ := rne_frac a b hb
  have hbq : (0 : ℚ) < b := by exact_mod_cast hb
  unfold rne
  simp only
  split
  · rename_i h
    have hlt : ((a % b : Nat) : ℚ) / b < 1 / 2 := by
      rw [div_lt_iff₀ hbq]
      have : ((2 * (a % b) : Nat) : ℚ) < b := by exact_mod_cast h
      push_cast at this
      linarith
    rw [hx]
    have e : ((a / b : Nat) : ℚ) - ((a / b : Nat) + ((a % b : Nat) : ℚ) / b) =
        -(((a % b : Nat) : ℚ) / b) := by ring
    rw [e, abs_neg, abs_of_nonneg hf0]
    exact ⟨le_of_lt hlt, fun h => absurd h (ne_of_lt hlt)⟩
  · split
    · rename_i h1 h
      have hgt : 1 / 2 < ((a % b : Nat) : ℚ) / b := by
        rw [lt_div_iff₀ hbq]
        have : (b : ℚ) < ((2 * (a % b) : Nat) : ℚ) := by exact_mod_cast h
        push_cast at this
        linarith
      rw [hx]
      have e : (((a / b + 1 : Nat) : ℚ)) - ((a / b : Nat) + ((a % b : Nat) : ℚ) / b) =
          1 - ((a % b : Nat) : ℚ) / b := by push_cast; ring
      rw [e, abs_of_nonneg (by linarith)]
      exact ⟨by linarith, fun h => absurd h (by intro h'; linarith)⟩
    · rename_i h1 h2
      have heq : ((a % b : Nat) : ℚ) / b = 1 / 2 := by
        have : 2 * (a % b) = b := by omega
        rw [div_eq_iff (ne_of_gt hbq)]
        have h3 : ((2 * (a % b) : Nat) : ℚ) = b := by exact_mod_cast this
        push_cast at h3
        linarith
      split
      · rename_i hev
        rw [hx, heq]
        have e : ((a / b : Nat) : ℚ) - ((a / b : Nat) + 1 / 2) = -(1 / 2) := by ring
        rw [e, abs_neg, abs_of_nonneg (by norm_num)]
        exact ⟨le_refl _, fun _ => hev⟩
      · rename_i hodd
        rw [hx, heq]
        have e : (((a / b + 1 : Nat) : ℚ)) - ((a / b : Nat) + 1 / 2) = 1 / 2 := by
          push_cast; ring
        rw [e, abs_of_nonneg (by norm_num)]
        exact ⟨le_refl _, fun _ => by omega⟩

theorem rne_unique (a b n : Nat) (hb : 0 < b)
    (h : |(n : ℚ) - (a : ℚ) / b| < 1 / 2 ∨
      (|(n : ℚ) - (a : ℚ) / b| = 1 / 2 ∧ n % 2 = 0)) : rne a b = n := by
  obtain ⟨h1, h2⟩ := rne_spec a b hb
  have key : |(rne a b : ℚ) - n| < 1 → rne a b = n := by
    intro hlt
    have hi : |((rne a b : ℤ) - (n : ℤ) : ℤ)| < 1 := by
      have : ((|((rne a b : ℤ) - (n : ℤ) : ℤ)| : ℤ) : ℚ) < 1 := by
        push_cast
        exact hlt
      exact_mod_cast this
    have := Int.abs_lt_one_iff.1 hi
    omega
  have tri : |(rne a b : ℚ) - n| ≤ |(rne a b : ℚ) - (a : ℚ) / b| + |(n : ℚ) - (a : ℚ) / b| := by
    have := abs_sub_le (rne a b : ℚ) ((a : ℚ) / b) n
    rw [abs_sub_comm ((a : ℚ) / b) n] at this
    exact this
  rcases h with h | ⟨h, hev⟩
  · exact key (by linarith)
  · rcases lt_or_eq_of_le h1 with h3 | h3
    · exact key (by linarith)
    · have hev2 := h2 h3
      have hle : |(rne a b : ℚ) - n| ≤ 1 := by linarith
      have hi : |((rne a b : ℤ) - (n : ℤ) : ℤ)| ≤ 1 := by
        have : ((|((rne a b : ℤ) - (n : ℤ) : ℤ)| : ℤ) : ℚ) ≤ 1 := by
          push_cast
          exact hle
        exact_mod_cast this
      rw [abs_le] at hi
      omega

theorem rne_nearest (a b n : Nat) (hb : 0 < b) :
    |(rne a b : ℚ) - (a : ℚ) / b| ≤ |(n : ℚ) - (a : ℚ) / b| := by
  by_contra hc
  push_neg at hc
  have h1 := (rne_spec a b hb).1
  have := rne_unique a b n hb (Or.inl (by linarith))
  rw [this] at hc
  exact absurd hc (lt_irrefl _)

theorem rne_le_of_le (a b n : Nat) (hb : 0 < b) (h : (a : ℚ) / b ≤ n) : rne a b ≤ n := by
  by_contra hc
  push_neg at hc
  have hn := rne_nearest a b n hb
  have h1 : (n : ℚ) < rne a b := by exact_mod_cast hc
  rw [abs_of_nonneg (by linarith), abs_of_nonneg (by linarith)] at hn
  linarith

theorem le_rne_of_le (a b n : Nat) (hb : 0 < b) (h : (n : ℚ) ≤ (a : ℚ) / b) : n ≤ rne a b := by
  by_contra hc
  push_neg at hc
  have hn := rne_nearest a b n hb
  have h1 : (rne a b : ℚ) < n := by exact_mod_cast hc
  rw [abs_of_nonpos (by linarith), abs_of_nonpos (by linarith)] at hn
  linarith

/-! ## Binary exponent of a positive rational -/

theorem bitsAux_spec : ∀ (fuel n : Nat), n ≤ fuel →
    n < 2 ^ bitsAux fuel n ∧ (0 < n → 2 ^ (bitsAux fuel n - 1) ≤ n)
  | 0, n, h => by
    have : n = 0 := by omega
    subst this
    simp [bitsAux]
  | fuel + 1, n, h => by
    unfold bitsAux
    split
    · rename_i h0
      subst h0
      simp
    · rename_i h0
      obtain ⟨ih1, ih2⟩ := bitsAux_spec fuel (n / 2) (by omega)
      constructor
      · rw [pow_succ]
        omega
      · intro _
        simp only [Nat.add_sub_cancel]
        by_cases hz : n / 2 = 0
        · have h1 : n = 1 := by omega
          rw [hz] at ih1 ⊢
          have : bitsAux fuel 0 = 0 := by cases fuel <;> simp [bitsAux]
          rw [this, h1]
          simp
        · have hk : 1 ≤ bitsAux fuel (n / 2) := by
            by_contra hc
            have : bitsAux fuel (n / 2) = 0 := by omega
            rw [this] at ih1
            simp at ih1
            exact hz ih1
          have := ih2 (by omega)
          have e : 2 ^ bitsAux fuel (n / 2) = 2 * 2 ^ (bitsAux fuel (n / 2) - 1) := by
            rw [← pow_succ']
            congr 1
            omega
          rw [e]
          omega

theorem bits_spec (n : Nat) (h : 0 < n) : 2 ^ (bits n - 1) ≤ n ∧ n < 2 ^ bits n ∧ 1 ≤ bits n := by
  obtain ⟨h1, h2⟩ := bitsAux_spec n n (le_refl _)
  refine ⟨h2 h, h1, ?_⟩
  by_contra hc
  have : bits n = 0 := by omega
  unfold bits at this
  rw [this] at h1
  simp at h1
  omega

theorem two_zpow_sub (a b : Nat) : (2 : ℚ) ^ ((a : ℤ) - (b : ℤ)) = 2 ^ a / 2 ^ b := by
  rw [zpow_sub₀ (by norm_num : (2 : ℚ) ≠ 0), zpow_natCast, zpow_natCast]

theorem two_zpow_split (e : ℤ) : (2 : ℚ) ^ e = 2 ^ e.toNat / 2 ^ (-e).toNat := by
  rw [← two_zpow_sub]
  congr 1
  omega

theorem two_zpow_pos (e : ℤ) : (0 : ℚ) < 2 ^ e := zpow_pos (by norm_num) e

theorem normExp_spec (p q : Nat) (hp : 0 < p) (hq : 0 < q) :
    (2 : ℚ) ^ (52 + normExp p q) ≤ (p : ℚ) / q ∧ (p : ℚ) / q < 2 ^ (53 + normExp p q) := by
  obtain ⟨hp1, hp2, hp3⟩ := bits_spec p hp
  obtain ⟨hq1, hq2, hq3⟩ := bits_spec q hq
  have hqq : (0 : ℚ) < q := by exact_mod_cast hq
  have hpq : (0 : ℚ) < p := by exact_mod_cast hp
  have P1 : (2 : ℚ) ^ (bits p - 1) ≤ p := by exact_mod_cast hp1
  have P2 : (p : ℚ) < 2 ^ bits p := by exact_mod_cast hp2
  have Q1 : (2 : ℚ) ^ (bits q - 1) ≤ q := by exact_mod_cast hq1
  have Q2 : (q : ℚ) < 2 ^ bits q := by exact_mod_cast hq2
  have ep : (2 : ℚ) ^ bits p = 2 * 2 ^ (bits p - 1) := by
    rw [← pow_succ']; congr 1; omega
  have eq : (2 : ℚ) ^ bits q = 2 * 2 ^ (bits q - 1) := by
    rw [← pow_succ']; congr 1; omega
  have hbp : (0 : ℚ) < 2 ^ (bits p - 1) := by positivity
  have hbq : (0 : ℚ) < 2 ^ (bits q - 1) := by positivity
  unfold normExp
  split
  · rename_i h
    have hq' : (q : ℚ) * 2 ^ bits p ≤ p * 2 ^ bits q := by exact_mod_cast h
    have e1 : (52 : ℤ) + ((bits p : ℤ) - (bits q : ℤ) - 52) = (bits p : ℤ) - (bits q : ℤ) := by ring
    have e2 : (53 : ℤ) + ((bits p : ℤ) - (bits q : ℤ) - 52) =
        ((bits p + 1 : Nat) : ℤ) - (bits q : ℤ) := by push_cast; ring
    rw [e1, e2, two_zpow_sub, two_zpow_sub]
    constructor
    · rw [div_le_div_iff₀ (by positivity) hqq]
      linarith
    · rw [div_lt_div_iff₀ hqq (by positivity), pow_succ]
      nlinarith
  · rename_i h
    have hq' : (p : ℚ) * 2 ^ bits q < q * 2 ^ bits p := by
      have : p * 2 ^ bits q < q * 2 ^ bits p := by omega
      exact_mod_cast this
    have e1 : (52 : ℤ) + ((bits p : ℤ) - (bits q : ℤ) - 53) =
        ((bits p - 1 : Nat) : ℤ) - (bits q : ℤ) := by
      rw [Nat.cast_sub hp3]; push_cast; ring
    have e2 : (53 : ℤ) + ((bits p : ℤ) - (bits q : ℤ) - 53) = (bits p : ℤ) - (bits q : ℤ) := by ring
    rw [e1, e2, two_zpow_sub, two_zpow_sub]
    constructor
    · rw [div_le_div_iff₀ (by positivity) hqq]
      nlinarith
    · rw [div_lt_div_iff₀ hqq (by positivity)]
      linarith

/-! ## `round_rat` yields the nearest representable value -/

theorem scaled_quot (p q : Nat) (e : ℤ) :
    ((p * 2 ^ (-e).toNat : Nat) : ℚ) / ((q * 2 ^ e.toNat : Nat) : ℚ) = (p : ℚ) / q / 2 ^ e := by
  rw [two_zpow_split e]
  push_cast
  have h1 : (2 : ℚ) ^ e.toNat ≠ 0 := by positivity
  have h2 : (2 : ℚ) ^ (-e).toNat ≠ 0 := by positivity
  by_cases hq : (q : ℚ) = 0
  · simp [hq]
  · field_simp

theorem fval_shift (M : Nat) (F e : ℤ) (h : e ≤ F) :
    fval M F = ((M * 2 ^ (F - e).toNat : Nat) : ℚ) * 2 ^ e := by
  unfold fval
  push_cast
  rw [mul_assoc, ← zpow_natCast, ← zpow_add₀ (by norm_num : (2 : ℚ) ≠ 0)]
  congr 2
  omega

theorem abs_scale (a t s : ℚ) (hs : 0 < s) : |a * s - t * s| = |a - t| * s := by
  rw [← sub_mul, abs_mul, abs_of_pos hs]

/-- The mantissa and exponent `round_rat` works out before its overflow test. -/
theorem round_rat_core (p q : Nat) (hp : 0 < p) (hq : 0 < q) :
    ∃ (m : Nat) (e : ℤ),
      (∀ neg, round_rat neg p q = if 971 < e then Double.inf neg else Double.finite neg m e) ∧
      m < 2 ^ 53 ∧ -1074 ≤ e ∧ (-1074 < e → 2 ^ 52 ≤ m) ∧
      (∀ (M : Nat) (F : ℤ), M < 2 ^ 53 → -1074 ≤ F →
        |fval m e - (p : ℚ) / q| ≤ |fval M F - (p : ℚ) / q|) ∧
      ((p : ℚ) / q ≤ fval (2 ^ 53 - 1) 971 → e ≤ 971) ∧
      (fval (2 ^ 52) (-1074) ≤ (p : ℚ) / q → 2 ^ 52 ≤ m) ∧
      (fval (2 ^ 52) (-1074) ≤ (p : ℚ) / q →
        |fval m e - (p : ℚ) / q| ≤ (p : ℚ) / q / 2 ^ 53) := by
  obtain ⟨hE1, hE2⟩ := normExp_spec p q hp hq
  set E := normExp p q with hEdef
  set e0 : ℤ := max E (-1074) with he0
  set v : ℚ := (p : ℚ) / q with hv
  set t : ℚ := v / 2 ^ e0 with ht
  have hden : 0 < q * 2 ^ e0.toNat := by positivity
  set m0 := rne (p * 2 ^ (-e0).toNat) (q * 2 ^ e0.toNat) with hm0
  have hquot : ((p * 2 ^ (-e0).toNat : Nat) : ℚ) / ((q * 2 ^ e0.toNat : Nat) : ℚ) = t :=
    scaled_quot p q e0
  have hpow : (0 : ℚ) < 2 ^ e0 := two_zpow_pos e0
  have hvt : v = t * 2 ^ e0 := by
    rw [ht]; field_simp
  have hEle : E ≤ e0 := le_max_left _ _
  have he0ge : -1074 ≤ e0 := le_max_right _ _
  have two_mono : ∀ a b : ℤ, a ≤ b → (2 : ℚ) ^ a ≤ 2 ^ b := fun a b h =>
    zpow_le_zpow_right₀ (by norm_num) h
  have htlt : t < 2 ^ 53 := by
    rw [ht, div_lt_iff₀ hpow]
    calc v < 2 ^ (53 + E) := hE2
      _ ≤ 2 ^ (53 + e0) := two_mono _ _ (by omega)
      _ = 2 ^ 53 * 2 ^ e0 := by
        rw [zpow_add₀ (by norm_num : (2 : ℚ) ≠ 0)]; norm_num
  have hnearest : ∀ n : Nat, |(m0 : ℚ) - t| ≤ |(n : ℚ) - t| := by
    intro n
    have := rne_nearest (p * 2 ^ (-e0).toNat) (q * 2 ^ e0.toNat) n hden
    rw [hquot] at this
    exact this
  have hm0le : m0 ≤ 2 ^ 53 := by
    apply rne_le_of_le _ _ _ hden
    rw [hquot]
    push_cast
    exact le_of_lt htlt
  have hnormal : -1074 < e0 → (2 : ℚ) ^ 52 ≤ t := by
    intro h
    have hEe : e0 = E := by
      rw [he0]
      exact max_eq_left (by
        by_contra hc
        push_neg at hc
        have : e0 = -1074 := by rw [he0]; exact max_eq_right (le_of_lt hc)
        omega)
    rw [ht, le_div_iff₀ hpow, hEe]
    calc (2 : ℚ) ^ 52 * 2 ^ E = 2 ^ (52 + E) := by
          rw [zpow_add₀ (by norm_num : (2 : ℚ) ≠ 0)]; norm_num
      _ ≤ v := hE1
  have hm0ge : -1074 < e0 → 2 ^ 52 ≤ m0 := by
    intro h
    apply le_rne_of_le _ _ _ hden
    rw [hquot]
    push_cast
    exact hnormal h
  have hnear0 : ∀ (M : Nat) (F : ℤ), M < 2 ^ 53 → -1074 ≤ F →
      |fval m0 e0 - v| ≤ |fval M F - v| := by
    intro M F hM hF
    have hl : |fval m0 e0 - v| = |(m0 : ℚ) - t| * 2 ^ e0 := by
      unfold fval
      rw [hvt]
      exact abs_scale _ _ _ hpow
    rw [hl]
    by_cases hFe : e0 ≤ F
    · rw [fval_shift M F e0 hFe, hvt, abs_scale _ _ _ hpow]
      exact mul_le_mul_of_nonneg_right (hnearest _) (le_of_lt hpow)
    · push_neg at hFe
      have hn := hnormal (by omega)
      have hMq : (M : ℚ) < 2 ^ 53 := by exact_mod_cast hM
      have hx : fval M F ≤ 2 ^ 52 * 2 ^ e0 := by
        unfold fval
        have h1 : (M : ℚ) * 2 ^ F ≤ 2 ^ 53 * 2 ^ F :=
          mul_le_mul_of_nonneg_right (le_of_lt hMq) (le_of_lt (two_zpow_pos F))
        have h2 : (2 : ℚ) ^ 53 * 2 ^ F ≤ 2 ^ 53 * 2 ^ (e0 - 1) :=
          mul_le_mul_of_nonneg_left (two_mono _ _ (by omega)) (by positivity)
        have h3 : (2 : ℚ) ^ 53 * 2 ^ (e0 - 1) = 2 ^ 52 * 2 ^ e0 := by
          rw [zpow_sub₀ (by norm_num : (2 : ℚ) ≠ 0)]
          field_simp
          ring
        linarith
      have h52 := hnearest (2 ^ 52)
      have e52 : ((2 ^ 52 : Nat) : ℚ) = 2 ^ 52 := by norm_num
      rw [e52] at h52
      rw [abs_of_nonpos (by linarith : (2 : ℚ) ^ 52 - t ≤ 0)] at h52
      have hvv : (2 : ℚ) ^ 52 * 2 ^ e0 ≤ v := by
        rw [hvt]
        exact mul_le_mul_of_nonneg_right hn (le_of_lt hpow)
      rw [abs_of_nonpos (by linarith : fval M F - v ≤ 0)]
      have : |(m0 : ℚ) - t| * 2 ^ e0 ≤ (t - 2 ^ 52) * 2 ^ e0 :=
        mul_le_mul_of_nonneg_right (by linarith) (le_of_lt hpow)
      have e : (t - 2 ^ 52) * 2 ^ e0 = v - 2 ^ 52 * 2 ^ e0 := by rw [hvt]; ring
      linarith
  have hEub : v ≤ fval (2 ^ 53 - 1) 971 → e0 ≤ 971 ∧ (e0 = 971 → m0 ≤ 2 ^ 53 - 1) := by
    intro hle
    have hmax : fval (2 ^ 53 - 1) 971 < 2 ^ (1024 : ℤ) := by
      unfold fval
      norm_num
    have h1 : (2 : ℚ) ^ (52 + E) < 2 ^ (1024 : ℤ) := by linarith
    have h2 : 52 + E < 1024 := by
      by_contra hc
      push_neg at hc
      have := two_mono _ _ hc
      linarith
    have h3 : e0 ≤ 971 := by rw [he0]; exact max_le (by omega) (by norm_num)
    refine ⟨h3, fun h971 => ?_⟩
    apply rne_le_of_le _ _ _ hden
    rw [hquot, ht, h971, div_le_iff₀ (two_zpow_pos 971)]
    unfold fval at hle
    exact hle
  have hbigt : fval (2 ^ 52) (-1074) ≤ v → (2 : ℚ) ^ 52 ≤ t := by
    intro hle
    by_cases hsub : -1074 < e0
    · exact hnormal hsub
    · have h1074 : e0 = -1074 := by omega
      rw [ht, h1074, le_div_iff₀ (two_zpow_pos _)]
      unfold fval at hle
      have e52 : ((2 ^ 52 : Nat) : ℚ) = 2 ^ 52 := by norm_num
      rw [e52] at hle
      exact hle
  have hbig : fval (2 ^ 52) (-1074) ≤ v → 2 ^ 52 ≤ m0 := by
    intro hle
    apply le_rne_of_le _ _ _ hden
    rw [hquot]
    push_cast
    exact hbigt hle
  have hrel : fval (2 ^ 52) (-1074) ≤ v → |fval m0 e0 - v| ≤ v / 2 ^ 53 := by
    intro hle
    have h52 := hbigt hle
    have hhalf : |(m0 : ℚ) - t| ≤ 1 / 2 := by
      have := (rne_spec (p * 2 ^ (-e0).toNat) (q * 2 ^ e0.toNat) hden).1
      rw [hquot] at this
      exact this
    have hl : |fval m0 e0 - v| = |(m0 : ℚ) - t| * 2 ^ e0 := by
      unfold fval
      rw [hvt]
      exact abs_scale _ _ _ hpow
    rw [hl, hvt]
    have h1 : |(m0 : ℚ) - t| * 2 ^ e0 ≤ 1 / 2 * 2 ^ e0 :=
      mul_le_mul_of_nonneg_right hhalf (le_of_lt hpow)
    have h2 : (1 : ℚ) / 2 * 2 ^ e0 ≤ t * 2 ^ e0 / 2 ^ 53 := by
      rw [le_div_iff₀ (by positivity)]
      have : (2 : ℚ) ^ 52 * 2 ^ e0 ≤ t * 2 ^ e0 :=
        mul_le_mul_of_nonneg_right h52 (le_of_lt hpow)
      have e53 : (2 : ℚ) ^ 53 = 2 * 2 ^ 52 := by norm_num
      rw [e53]
      linarith
    exact le_trans h1 h2
  by_cases hm : m0 = 2 ^ 53
  · have hval : fval (2 ^ 52) (e0 + 1) = fval m0 e0 := by
      unfold fval
      rw [hm, zpow_add₀ (by norm_num : (2 : ℚ) ≠ 0)]
      push_cast
      ring
    refine ⟨2 ^ 52, e0 + 1, ?_, by norm_num, by omega, fun _ => le_refl _, ?_, ?_,
      fun _ => le_refl _, ?_⟩
    · intro neg
      unfold round_rat
      rw [if_neg (by omega)]
      simp only [← he0, ← hEdef, ← hm0, hm, if_true]
    · intro M F hM hF
      rw [hval]
      exact hnear0 M F hM hF
    · intro hle
      obtain ⟨h1, h2⟩ := hEub hle
      by_contra hc
      have : e0 = 971 := by omega
      have := h2 this
      omega
    · intro hle
      rw [hval]
      exact hrel hle
  · refine ⟨m0, e0, ?_, by omega, he0ge, hm0ge, hnear0, fun hle => (hEub hle).1, hbig, hrel⟩
    intro neg
    unfold round_rat
    rw [if_neg (by omega)]
    simp only [← he0, ← hEdef, ← hm0, hm, if_false]

/-- A value that is at least the smallest normal number is not tiny. -/
theorem not_tiny_of_normal (p q : Nat) (hp : 0 < p) (hq : 0 < q)
    (h : fval (2 ^ 52) (-1074) ≤ (p : ℚ) / q) : tiny_after_rounding p q = false := by
  obtain ⟨-, hE2⟩ := normExp_spec p q hp hq
  have hE : -1074 ≤ normExp p q := by
    by_contra hc
    have h1 : (2 : ℚ) ^ (53 + normExp p q) ≤ 2 ^ (-1022 : ℤ) :=
      zpow_le_zpow_right₀ (by norm_num) (by omega)
    have h2 : fval (2 ^ 52) (-1074) = 2 ^ (-1022 : ℤ) := by
      unfold fval
      rw [show ((2 ^ 52 : Nat) : ℚ) = 2 ^ (52 : ℤ) by norm_num, ← zpow_add₀ (by norm_num)]
      norm_num
    rw [h2] at h
    exact absurd (lt_of_lt_of_le hE2 h1) (not_lt.mpr h)
  unfold tiny_after_rounding
  rw [if_neg (by omega)]
  have e1 : decide (normExp p q < -1075) = false := by simp; omega
  have e2 : decide (normExp p q = -1075) = false := by simp; omega
  rw [e1, e2]
  rfl

theorem range_error_of_normal (s : Bool) (m : Nat) (e : ℤ) (p q : Nat) (hp : 0 < p)
    (hq : 0 < q) (h : fval (2 ^ 52) (-1074) ≤ (p : ℚ) / q) :
    range_error (.finite s m e) p q = false := by
  unfold range_error
  simp only
  rw [not_tiny_of_normal p q hp hq h, Bool.false_and]

theorem range_error_zero (s : Bool) (q : Nat) :
    range_error (.finite s 0 0) 0 q = false := by
  unfold range_error tiny_after_rounding
  simp

/-! ## Decimal numerals and their values -/

theorem digitsVal_append_single (b : Nat) (ds : List Char) (c : Char) :
    digitsVal b (ds ++ [c]) = b * digitsVal b ds + digitVal c := by
  simp [digitsVal, List.foldl_append]

theorem digitsVal_append (b : Nat) (xs ys : List Char) :
    digitsVal b (xs ++ ys) = digitsVal b xs * b ^ ys.length + digitsVal b ys := by
  induction ys using List.reverseRecOn with
  | nil => simp [digitsVal]
  | append_singleton ys c ih =>
    rw [← List.append_assoc, digitsVal_append_single, digitsVal_append_single, ih]
    simp only [List.length_append, List.length_singleton, pow_succ]
    ring

theorem digitsVal_zeros (n : Nat) : digitsVal 10 (List.replicate n '0') = 0 := by
  induction n with
  | zero => rfl
  | succ n ih =>
    rw [List.replicate_succ', digitsVal_append_single, ih]
    rfl

theorem digitsVal_fixedDigits : ∀ w n, digitsVal 10 (fixedDigits w n) = n % 10 ^ w
  | 0, n => by simp [fixedDigits, digitsVal, Nat.mod_one]
  | w + 1, n => by
    rw [fixedDigits, digitsVal_append_single, digitsVal_fixedDigits w (n / 10),
      digitVal_digitChar _ (Nat.mod_lt _ (by decide)), pow_succ]
    have h1 : n % (10 ^ w * 10) = n % 10 + 10 * (n / 10 % 10 ^ w) := by
      rw [mul_comm (10 ^ w) 10, Nat.mod_mul]
    omega

theorem natToDecAux_eq : ∀ (fuel n : Nat) (acc : List Char), n < fuel →
    ∃ ds, natToDecAux fuel n acc = ds ++ acc ∧ digitsVal 10 ds = n ∧ ds ≠ [] ∧
      (∀ c ∈ ds, c.isDigit = true)
  | 0, n, acc, h => by omega
  | fuel + 1, n, acc, h => by
    have hd : (digitChar (n % 10)).isDigit = true := digitChar_isDigit _ (Nat.mod_lt _ (by decide))
    have hv : digitVal (digitChar (n % 10)) = n % 10 := digitVal_digitChar _ (Nat.mod_lt _ (by decide))
    unfold natToDecAux
    split
    · rename_i h0
      refine ⟨[digitChar (n % 10)], rfl, ?_, by simp, ?_⟩
      · simp only [digitsVal, List.foldl_cons, List.foldl_nil, hv]
        omega
      · intro c hc
        rw [List.mem_singleton.1 hc]; exact hd
    · rename_i h0
      obtain ⟨ds, h1, h2, h3, h4⟩ := natToDecAux_eq fuel (n / 10) (digitChar (n % 10) :: acc) (by omega)
      refine ⟨ds ++ [digitChar (n % 10)], ?_, ?_, by simp, ?_⟩
      · rw [h1]; simp
      · rw [digitsVal_append_single, h2, hv]
        omega
      · intro c hc
        rcases List.mem_append.1 hc with h | h
        · exact h4 c h
        · rw [List.mem_singleton.1 h]; exact hd

theorem natToDec_spec (n : Nat) :
    digitsVal 10 (natToDec n) = n ∧ natToDec n ≠ [] ∧ ∀ c ∈ natToDec n, c.isDigit = true := by
  obtain ⟨ds, h1, h2, h3, h4⟩ := natToDecAux_eq (n + 1) n [] (by omega)
  unfold natToDec
  rw [h1, List.append_nil]
  exact ⟨h2, h3, h4⟩

/-! ## Formatting, reading back and formatting again -/

theorem micro_quot (m : Nat) (e : ℤ) :
    ((m * 10 ^ 6 * 2 ^ e.toNat : Nat) : ℚ) / ((2 ^ (-e).toNat : Nat) : ℚ) = fval m e * 10 ^ 6 := by
  unfold fval
  rw [two_zpow_split e]
  push_cast
  have h2 : (2 : ℚ) ^ (-e).toNat ≠ 0 := by positivity
  field_simp
  ring

theorem micro_spec (m : Nat) (e : ℤ) :
    |(micro m e : ℚ) - fval m e * 10 ^ 6| ≤ 1 / 2 ∧
    (|(micro m e : ℚ) - fval m e * 10 ^ 6| = 1 / 2 → micro m e % 2 = 0) := by
  have := rne_spec (m * 10 ^ 6 * 2 ^ e.toNat) (2 ^ (-e).toNat) (by positivity)
  rw [micro_quot] at this
  exact this

theorem micro_unique (m : Nat) (e : ℤ) (n : Nat)
    (h : |(n : ℚ) - fval m e * 10 ^ 6| < 1 / 2 ∨
      (|(n : ℚ) - fval m e * 10 ^ 6| = 1 / 2 ∧ n % 2 = 0)) : micro m e = n := by
  apply rne_unique _ _ _ (by positivity)
  rw [micro_quot]
  exact h

theorem micro_le (m : Nat) (e : ℤ) (n : Nat) (h : fval m e * 10 ^ 6 ≤ n) : micro m e ≤ n := by
  apply rne_le_of_le _ _ _ (by positivity)
  rw [micro_quot]
  exact h

theorem micro_reparse (m : Nat) (e : ℤ) (m1 : Nat) (e1 : ℤ)
    (h : |fval m1 e1 - (micro m e : ℚ) / 10 ^ 6| ≤ |fval m e - (micro m e : ℚ) / 10 ^ 6|) :
    micro m1 e1 = micro m e := by
  obtain ⟨h1, h2⟩ := micro_spec m e
  have sc : ∀ x : ℚ, |(micro m e : ℚ) - x * 10 ^ 6| = |x - (micro m e : ℚ) / 10 ^ 6| * 10 ^ 6 := by
    intro x
    have e1 : (micro m e : ℚ) - x * 10 ^ 6 = -((x - (micro m e : ℚ) / 10 ^ 6) * 10 ^ 6) := by
      field_simp
    rw [e1, abs_neg, abs_mul, abs_of_pos (by norm_num : (0 : ℚ) < 10 ^ 6)]
  have hY : |(micro m e : ℚ) - fval m1 e1 * 10 ^ 6| ≤ |(micro m e : ℚ) - fval m e * 10 ^ 6| := by
    rw [sc, sc]
    exact mul_le_mul_of_nonneg_right h (by norm_num)
  apply micro_unique
  rcases lt_or_eq_of_le (le_trans hY h1) with h3 | h3
  · exact Or.inl h3
  · refine Or.inr ⟨h3, h2 ?_⟩
    exact le_antisymm h1 (by rw [← h3]; exact hY)

theorem format_float_finite (s : Bool) (m : Nat) (e : ℤ) :
    ∃ kept n, fixedDigits 6 (micro m e % 10 ^ 6) = kept ++ List.replicate n '0' ∧
      (∀ c ∈ kept, c.isDigit = true) ∧
      format_float (.finite s m e) =
        signText s ++ (natToDec (micro m e / 10 ^ 6) ++
          '.' :: (if kept = [] then [ '0' ] else kept)) := by
  obtain ⟨n, h1, h2⟩ := strip_decomp (fixedDigits 6 (micro m e % 10 ^ 6))
  have hd : ∀ c ∈ strip_trailing_zeros (fixedDigits 6 (micro m e % 10 ^ 6)), c.isDigit = true := by
    intro c hc
    exact fixedDigits_isDigit _ _ c (mem_strip_trailing_zeros _ c hc)
  refine ⟨_, n, h1, hd, ?_⟩
  have := trim_fixed_of_kept (signText s ++ natToDec (micro m e / 10 ^ 6)) _ n hd h2
  rw [← h1] at this
  unfold format_float render_fixed6
  simp only [List.append_assoc, List.singleton_append] at this ⊢
  exact this

theorem reparse_value (I F n : Nat) (kept : List Char) (hF : F < 10 ^ 6)
    (h : fixedDigits 6 F = kept ++ List.replicate n '0') :
    ((digitsVal 10 (natToDec I ++ (if kept = [] then [ '0' ] else kept)) : Nat) : ℚ) /
      (10 : ℚ) ^ (if kept = [] then [ '0' ] else kept).length =
        ((I * 10 ^ 6 + F : Nat) : ℚ) / 10 ^ 6 := by
  have hlen : kept.length + n = 6 := by
    have := congrArg List.length h
    rw [fixedDigits_length, List.length_append, List.length_replicate] at this
    omega
  have hval : F = digitsVal 10 kept * 10 ^ n := by
    have := congrArg (digitsVal 10) h
    rw [digitsVal_fixedDigits, digitsVal_append, digitsVal_zeros, List.length_replicate,
      Nat.mod_eq_of_lt hF] at this
    omega
  rw [digitsVal_append, (natToDec_spec I).1]
  rw [div_eq_div_iff (by positivity) (by positivity)]
  by_cases hk : kept = []
  · subst hk
    have hF0 : F = 0 := by rw [hval]; simp [digitsVal]
    subst hF0
    simp only [if_true, List.length_singleton]
    have : digitsVal 10 [ '0' ] = 0 := rfl
    rw [this]
    simp only [Nat.cast_add, Nat.cast_mul, Nat.cast_pow, Nat.cast_ofNat, Nat.cast_zero]
    ring
  · simp only [if_neg hk]
    rw [hval]
    simp only [Nat.cast_add, Nat.cast_mul, Nat.cast_pow, Nat.cast_ofNat]
    have e6 : (10 : ℚ) ^ 6 = 10 ^ kept.length * 10 ^ n := by
      rw [← pow_add, hlen]
    rw [e6]
    ring

theorem strtod_formatted (s : Bool) (ip fp : List Char)
    (hip : ∀ c ∈ ip, c.isDigit = true) (hne : ip ≠ []) (hfp : ∀ c ∈ fp, c.isDigit = true) :
    strtod (signText s ++ (ip ++ '.' :: fp)) =
      ⟨(signText s).length + (ip.length + (1 + fp.length)),
        round_rat s (digitsVal 10 (ip ++ fp)) (10 ^ fp.length),
        range_error (round_rat s (digitsVal 10 (ip ++ fp)) (10 ^ fp.length))
          (digitsVal 10 (ip ++ fp)) (10 ^ fp.length)⟩ := by
  have hdec : ∀ neg, strtod_decimal neg (ip ++ '.' :: fp) =
      some ⟨ip.length + (1 + fp.length),
        round_rat neg (digitsVal 10 (ip ++ fp)) (10 ^ fp.length),
        range_error (round_rat neg (digitsVal 10 (ip ++ fp)) (10 ^ fp.length))
          (digitsVal 10 (ip ++ fp)) (10 ^ fp.length)⟩ := by
    intro neg
    have := strtod_decimal_point neg ip fp [] hip hfp (Or.inl hne) rfl
    simp only [List.append_nil] at this
    rw [this]
    have e1 : (read_exponent 'e' 'E' []) = (0, 0) := rfl
    have e2 : ((0 : ℤ) - (fp.length : ℤ)).toNat = 0 := by omega
    have e3 : (-((0 : ℤ) - (fp.length : ℤ))).toNat = fp.length := by omega
    simp only [e1, round_scaled, e2, e3, pow_zero, mul_one, one_mul, Nat.add_zero]
  cases s with
  | false =>
    simp only [signText, Bool.false_eq_true, if_false, List.nil_append, List.length_nil,
      Nat.zero_add]
    rw [strtod_decimal_text ip _ hip hne (by constructor <;> simp), hdec false]
    simp [StrtodResult.shift]
  | true =>
    simp only [signText, if_true, List.singleton_append, List.length_singleton]
    obtain ⟨d, t, e, hd, hh⟩ := strtod_digits_start ip ('.' :: fp) hip hne
      (by constructor <;> simp)
    rw [strtod_of_sign '-' _ (Or.inr rfl)]
    have hb : strtod_body ('-' == '-') (ip ++ '.' :: fp) = strtod_decimal true (ip ++ '.' :: fp) := by
      rw [e]
      exact strtod_body_numeric true d t hd hh
    rw [hb, hdec true]
    simp [StrtodResult.shift]

theorem format_float_congr (s : Bool) (m m1 : Nat) (e e1 : ℤ) (h : micro m1 e1 = micro m e) :
    format_float (.finite s m1 e1) = format_float (.finite s m e) := by
  simp only [format_float, render_fixed6]
  rw [h]

theorem c_str_from_no_nul (s : List Char) (h : ∀ c ∈ s, c ≠ Char.ofNat 0) :
    c_str_from s 0 = s := by
  unfold c_str_from
  simp only [List.drop_zero]
  rw [List.takeWhile_eq_self_iff]
  intro c hc
  simpa using h c hc

theorem format_float_no_nul (v : Double) : ∀ c ∈ format_float v, c ≠ Char.ofNat 0 := by
  intro c hc e
  have := format_float_chars v c hc
  rw [e] at this
  exact absurd this (by decide)

theorem fval_mono (m M : Nat) (e E : ℤ) (hm : m ≤ M) (he : e ≤ E) : fval m e ≤ fval M E := by
  unfold fval
  have h1 : (m : ℚ) ≤ M := by exact_mod_cast hm
  have h2 : (2 : ℚ) ^ e ≤ 2 ^ E := zpow_le_zpow_right₀ (by norm_num) he
  have h3 : (0 : ℚ) ≤ m := by positivity
  have h4 : (0 : ℚ) ≤ 2 ^ E := le_of_lt (two_zpow_pos E)
  exact mul_le_mul h1 h2 (le_of_lt (two_zpow_pos e)) (by positivity)

theorem reparse_finite (s : Bool) (m : Nat) (e : ℤ) (P Q : Nat) (hQ : 0 < Q)
    (hm : m < 2 ^ 53) (he1 : -1074 ≤ e) (he2 : e ≤ 971)
    (hPQ : (P : ℚ) / Q = (micro m e : ℚ) / 10 ^ 6) :
    range_error (round_rat s P Q) P Q = false ∧
    format_float (round_rat s P Q) = format_float (.finite s m e) := by
  by_cases hP : P = 0
  · subst hP
    have hN : micro m e = 0 := by
      have : (micro m e : ℚ) / 10 ^ 6 = 0 := by rw [← hPQ]; simp
      have h2 : (micro m e : ℚ) = 0 := by
        rcases div_eq_zero_iff.1 this with h | h
        · exact h
        · norm_num at h
      exact_mod_cast h2
    have hr : round_rat s 0 Q = .finite s 0 0 := by simp [round_rat]
    rw [hr]
    constructor
    · exact range_error_zero s Q
    · apply format_float_congr
      rw [hN]
      rfl
  · have hPpos : 0 < P := Nat.pos_of_ne_zero hP
    obtain ⟨m1, e1, hround, hm1, he1lo, _, hnear, hover, hbig, _⟩ := round_rat_core P Q hPpos hQ
    have hNpos : 0 < micro m e := by
      by_contra hc
      have h0 : micro m e = 0 := by omega
      rw [h0] at hPQ
      have hPq : (0 : ℚ) < (P : ℚ) / Q := by
        apply div_pos <;> exact_mod_cast (by assumption)
      rw [hPQ] at hPq
      norm_num at hPq
    have hmax : (micro m e : ℚ) / 10 ^ 6 ≤ fval (2 ^ 53 - 1) 971 := by
      have h1 : fval m e ≤ fval (2 ^ 53 - 1) 971 := fval_mono _ _ _ _ (by omega) he2
      have h2 : fval (2 ^ 53 - 1) 971 * 10 ^ 6 = (((2 ^ 53 - 1) * 2 ^ 971 * 10 ^ 6 : Nat) : ℚ) := by
        unfold fval
        norm_num
      have h3 := micro_le m e ((2 ^ 53 - 1) * 2 ^ 971 * 10 ^ 6) (by
        rw [← h2]
        exact mul_le_mul_of_nonneg_right h1 (by norm_num))
      rw [div_le_iff₀ (by norm_num), h2]
      exact_mod_cast h3
    have hmin : fval (2 ^ 52) (-1074) ≤ (micro m e : ℚ) / 10 ^ 6 := by
      have h1 : (1 : ℚ) ≤ micro m e := by exact_mod_cast hNpos
      have h2 : fval (2 ^ 52) (-1074) ≤ 1 / 10 ^ 6 := by
        have h3 : fval (2 ^ 52) (-1074) ≤ fval (2 ^ 52) (-72) :=
          fval_mono _ _ _ _ (le_refl _) (by norm_num)
        have h4 : fval (2 ^ 52) (-72) ≤ 1 / 10 ^ 6 := by
          unfold fval
          norm_num
        exact le_trans h3 h4
      calc fval (2 ^ 52) (-1074) ≤ 1 / 10 ^ 6 := h2
        _ ≤ (micro m e : ℚ) / 10 ^ 6 := by
          apply div_le_div_of_nonneg_right h1 (by norm_num)
    rw [hPQ] at hnear hover hbig
    have he1hi : e1 ≤ 971 := hover hmax
    have hm1lo : 2 ^ 52 ≤ m1 := hbig hmin
    rw [hround s, if_neg (by omega)]
    constructor
    · exact range_error_of_normal s m1 e1 P Q hPpos hQ (by rw [hPQ]; exact hmin)
    · apply format_float_congr
      exact micro_reparse m e m1 e1 (hnear m e hm he1)

theorem reformat_finite (s : Bool) (m : Nat) (e : ℤ)
    (hm : m < 2 ^ 53) (he1 : -1074 ≤ e) (he2 : e ≤ 971) :
    ∃ val, read_number_token (format_float (.finite s m e)) 0 =
        some ((format_float (.finite s m e)).length, val) ∧
      format_float val = format_float (.finite s m e) := by
  obtain ⟨kept, n, hk, hkd, hfmt⟩ := format_float_finite s m e
  obtain ⟨hI1, hI2, hI3⟩ := natToDec_spec (micro m e / 10 ^ 6)
  have hfpd : ∀ c ∈ (if kept = [] then [ '0' ] else kept), c.isDigit = true := by
    intro c hc
    split at hc
    · rw [List.mem_singleton.1 hc]; rfl
    · exact hkd c hc
  have hPQ := reparse_value (micro m e / 10 ^ 6) (micro m e % 10 ^ 6) n kept
    (Nat.mod_lt _ (by norm_num)) hk
  have hN : micro m e / 10 ^ 6 * 10 ^ 6 + micro m e % 10 ^ 6 = micro m e :=
    Nat.div_add_mod' _ _
  rw [hN] at hPQ
  have hQ : 0 < 10 ^ (if kept = [] then [ '0' ] else kept).length := by positivity
  have hPQ' : ((digitsVal 10 (natToDec (micro m e / 10 ^ 6) ++
      (if kept = [] then [ '0' ] else kept)) : Nat) : ℚ) /
      ((10 ^ (if kept = [] then [ '0' ] else kept).length : Nat) : ℚ) =
      (micro m e : ℚ) / 10 ^ 6 := by
    rw [← hPQ]
    push_cast
    rfl
  obtain ⟨hr1, hr2⟩ := reparse_finite s m e _ _ hQ hm he1 he2 hPQ'
  refine ⟨round_rat s (digitsVal 10 (natToDec (micro m e / 10 ^ 6) ++
      (if kept = [] then [ '0' ] else kept)))
      (10 ^ (if kept = [] then [ '0' ] else kept).length), ?_, hr2⟩
  rw [read_number_token_eq, c_str_from_no_nul _ (format_float_no_nul _), hfmt,
    strtod_formatted s _ _ hI3 hI2 hfpd]
  simp only [hr1]
  rw [if_neg (by simp)]
  simp only [List.length_append, List.length_cons]
  congr 2
  omega

/-- C6. Idempotence of formatting: for every binary64 value `x` (finite with at
most 53 significant bits and exponent in range, infinite or NaN),
`read_number_token` accepts `format_float x` at offset 0 and formatting the
value it reads gives `format_float x` again; for a finite `x` the token is the
whole string. -/
theorem C6_format_idempotent (x : Double) (hx : x.valid = true) :
    ∃ len val, read_number_token (format_float x) 0 = some (len, val) ∧
      format_float val = format_float x ∧
      (∀ s m e, x = .finite s m e → len = (format_float x).length) := by
  cases x with
  | finite s m e =>
    simp only [Double.valid, Bool.and_eq_true, decide_eq_true_eq] at hx
    obtain ⟨val, h1, h2⟩ := reformat_finite s m e hx.1.1 hx.1.2 hx.2
    exact ⟨_, val, h1, h2, fun _ _ _ _ => rfl⟩
  | inf s =>
    cases s
    · exact ⟨3, .inf false, by decide!, by decide!, fun _ _ _ h => by cases h⟩
    · exact ⟨4, .inf true, by decide!, by decide!, fun _ _ _ h => by cases h⟩
  | nan s =>
    cases s
    · exact ⟨3, .nan false, by decide!, by decide!, fun _ _ _ h => by cases h⟩
    · exact ⟨4, .nan true, by decide!, by decide!, fun _ _ _ h => by cases h⟩

theorem C6_format_idempotent_witness :
    ∃ len val, read_number_token (format_float (.finite true 5497558138880001 (-42))) 0 =
        some (len, val) ∧
      format_float val = format_float (.finite true 5497558138880001 (-42)) ∧
      (∀ s m e, Double.finite true 5497558138880001 (-42) = .finite s m e →
        len = (format_float (.finite true 5497558138880001 (-42))).length) :=
  C6_format_idempotent (.finite true 5497558138880001 (-42)) (by decide)

/-! ## Scaling by a power of two -/

theorem scaled2_quot (p q : Nat) (e : ℤ) :
    ((p * 2 ^ e.toNat : Nat) : ℚ) / ((q * 2 ^ (-e).toNat : Nat) : ℚ) = (p : ℚ) / q * 2 ^ e := by
  rw [two_zpow_split e]
  push_cast
  have h1 : (2 : ℚ) ^ e.toNat ≠ 0 := by positivity
  have h2 : (2 : ℚ) ^ (-e).toNat ≠ 0 := by positivity
  by_cases hq : (q : ℚ) = 0
  · simp [hq]
  · field_simp


/-! ## The text before an offset -/

theorem get_at_pre (pre : List Char) (c : Char) (u : List Char)
    (h : pre.length < (pre ++ c :: u).length) : (pre ++ c :: u).get ⟨pre.length, h⟩ = c := by
  rw [List.get_eq_getElem, List.getElem_append_right (le_refl _)]
  simp

theorem next_is_numeric_at_pre (pre u : List Char) :
    next_is_numeric (pre ++ u) pre.length = next_is_numeric u 0 := by
  unfold next_is_numeric
  rw [List.getElem?_append_right (by omega)]
  have : pre.length + 1 - pre.length = 0 + 1 := by omega
  rw [this]

theorem is_number_start_at_pre (pre : List Char) (c : Char) (u : List Char) :
    is_number_start (pre ++ c :: u) pre.length = is_number_start (c :: u) 0 := by
  have h1 : pre.length < (pre ++ c :: u).length := by simp
  rw [is_number_start_eq _ _ h1, is_number_start_eq (c :: u) 0 (by simp), get_at_pre,
    next_is_numeric_at_pre]
  rfl

theorem plain_not_start (c : Char) (u : List Char)
    (hc : (c.isDigit || c == '.' || c == '+' || c == '-') = false) :
    is_number_start (c :: u) 0 = .ok false := by
  rw [is_number_start_eq (c :: u) 0 (by simp)]
  simp only [List.get_eq_getElem, List.getElem_cons_zero]
  simp only [Bool.or_eq_false_iff] at hc
  obtain ⟨⟨⟨h1, h2⟩, h3⟩, h4⟩ := hc
  rw [h1, h2, h3, h4]
  rfl

theorem natToDec_head (n : Nat) : ∃ d t, natToDec n = d :: t ∧ d.isDigit = true := by
  obtain ⟨_, h2, h3⟩ := natToDec_spec n
  cases h : natToDec n with
  | nil => exact absurd h h2
  | cons d t => exact ⟨d, t, rfl, h3 d (by rw [h]; simp)⟩



/-! ## One number through Multiply and Divide -/

theorem abs_div_le (a b c κ : ℚ) (hκ : 0 < κ) (h : |a - b| ≤ c) :
    |a / κ - b / κ| ≤ c / κ := by
  rw [← sub_div, abs_div, abs_of_pos hκ]
  exact div_le_div_of_nonneg_right h (le_of_lt hκ)

theorem round_rat_abs (P Q : Nat) (hQ : 0 < Q) (hhi : (P : ℚ) / Q ≤ 10 ^ 30) :
    ∃ m e, round_rat false P Q = .finite false m e ∧ m < 2 ^ 53 ∧ -1074 ≤ e ∧ e ≤ 971 ∧
      |fval m e - (P : ℚ) / Q| ≤ (P : ℚ) / Q / 2 ^ 53 + 1 / 2 ^ 59 := by
  have hQq : (0 : ℚ) < Q := by exact_mod_cast hQ
  by_cases hP : P = 0
  · subst hP
    have hr : round_rat false 0 Q = .finite false 0 0 := by simp [round_rat]
    rw [hr]
    refine ⟨0, 0, rfl, by norm_num, by norm_num, by norm_num, ?_⟩
    simp [fval]
  · have hPpos : 0 < P := Nat.pos_of_ne_zero hP
    obtain ⟨m1, e1, hround, hm1, he1lo, _, hnear, hover, _, hrel⟩ := round_rat_core P Q hPpos hQ
    have hmax : (P : ℚ) / Q ≤ fval (2 ^ 53 - 1) 971 := by
      have h3 : fval (2 ^ 52) 100 ≤ fval (2 ^ 53 - 1) 971 :=
        fval_mono _ _ _ _ (by norm_num) (by norm_num)
      have h4 : (10 : ℚ) ^ 30 ≤ fval (2 ^ 52) 100 := by
        unfold fval
        norm_num
      exact le_trans hhi (le_trans h4 h3)
    have he1hi : e1 ≤ 971 := hover hmax
    rw [hround false, if_neg (by omega)]
    refine ⟨m1, e1, rfl, hm1, he1lo, he1hi, ?_⟩
    have hr0 : (0 : ℚ) ≤ (P : ℚ) / Q := by positivity
    by_cases hv : (1 : ℚ) / 10 ^ 18 ≤ (P : ℚ) / Q
    · have hmin : fval (2 ^ 52) (-1074) ≤ (P : ℚ) / Q := by
        have h3 : fval (2 ^ 52) (-1074) ≤ fval (2 ^ 52) (-200) :=
          fval_mono _ _ _ _ (le_refl _) (by norm_num)
        have h4 : fval (2 ^ 52) (-200) ≤ 1 / 10 ^ 18 := by
          unfold fval
          norm_num
        exact le_trans h3 (le_trans h4 hv)
      have := hrel hmin
      linarith
    · push_neg at hv
      have h1 := hnear 1 (-59) (by norm_num) (by norm_num)
      have e59 : fval 1 (-59) = 1 / 2 ^ 59 := by
        unfold fval
        norm_num
      rw [e59] at h1
      have h2 : (P : ℚ) / Q < 1 / 2 ^ 59 := by
        have : (1 : ℚ) / 10 ^ 18 < 1 / 2 ^ 59 := by norm_num
        linarith
      rw [abs_of_pos (by linarith : (0 : ℚ) < 1 / 2 ^ 59 - (P : ℚ) / Q)] at h1
      have h3 : (0 : ℚ) ≤ (P : ℚ) / Q / 2 ^ 53 := by positivity
      linarith

theorem round_trip_value (m : Nat) (e : ℤ) (mk : Nat) (ek : ℤ)
    (hA : micro m e < 10 ^ 15) (hk1 : 1 ≤ fval mk ek) (hk2 : fval mk ek ≤ 10 ^ 6) :
    ∃ m1 e1, m1 < 2 ^ 53 ∧ -1074 ≤ e1 ∧ e1 ≤ 971 ∧
      (∀ s sk, (Double.finite s m e).mul (.finite sk mk ek) = .finite (xor s sk) m1 e1) ∧
      ∀ P Q : Nat, 0 < Q → (P : ℚ) / Q = (micro m1 e1 : ℚ) / 10 ^ 6 →
        ∃ m2 e2,
          (∀ s sk, (round_rat s P Q).div (.finite sk mk ek) = .finite (xor s sk) m2 e2) ∧
          micro m2 e2 ≤ micro m e + 1 ∧ micro m e ≤ micro m2 e2 + 1 := by
  have hκ : (0 : ℚ) < fval mk ek := by linarith
  have hmk : mk ≠ 0 := by
    intro h0
    rw [h0] at hκ
    simp [fval] at hκ
  have hV0 : (0 : ℚ) ≤ fval m e := by unfold fval; positivity
  obtain ⟨hAV, _⟩ := micro_spec m e
  obtain ⟨hAV1, hAV2⟩ := abs_le.1 hAV
  have hAq : (micro m e : ℚ) + 1 ≤ 10 ^ 15 := by
    have : micro m e + 1 ≤ 10 ^ 15 := by omega
    exact_mod_cast this
  have hV9 : fval m e ≤ 10 ^ 9 := by linarith
  -- the product
  have hq : (((m * mk) * 2 ^ (e + ek).toNat : Nat) : ℚ) / ((1 * 2 ^ (-(e + ek)).toNat : Nat) : ℚ) =
      fval m e * fval mk ek := by
    rw [scaled2_quot]
    unfold fval
    push_cast
    rw [zpow_add₀ (by norm_num : (2 : ℚ) ≠ 0)]
    ring
  have hVκ : fval m e * fval mk ek ≤ 10 ^ 15 := by
    calc fval m e * fval mk ek ≤ 10 ^ 9 * 10 ^ 6 :=
          mul_le_mul hV9 hk2 (le_of_lt hκ) (by norm_num)
      _ = 10 ^ 15 := by norm_num
  obtain ⟨m1, e1, hx, hm1, he1, he1', hxe⟩ := round_rat_abs ((m * mk) * 2 ^ (e + ek).toNat)
    (1 * 2 ^ (-(e + ek)).toNat) (by positivity) (by rw [hq]; linarith)
  rw [hq] at hxe
  refine ⟨m1, e1, hm1, he1, he1', ?_, ?_⟩
  · intro s sk
    simp only [Double.mul, round_scaled]
    rw [round_rat_withSign, hx]
    rfl
  intro P Q hQ hPQ
  have hY0 : (0 : ℚ) ≤ fval m1 e1 := by unfold fval; positivity
  obtain ⟨hN, _⟩ := micro_spec m1 e1
  obtain ⟨hN1, hN2⟩ := abs_le.1 hN
  obtain ⟨hxe1, hxe2⟩ := abs_le.1 hxe
  -- (1) the product over the factor
  have hyk := abs_div_le _ _ _ _ hκ hxe
  have e1a : fval m e * fval mk ek / fval mk ek = fval m e := by field_simp
  have e1b : (fval m e * fval mk ek / 2 ^ 53 + 1 / 2 ^ 59) / fval mk ek =
      fval m e / 2 ^ 53 + 1 / 2 ^ 59 / fval mk ek := by
    field_simp
    ring
  have hδ : (1 : ℚ) / 2 ^ 59 / fval mk ek ≤ 1 / 2 ^ 59 := div_le_self (by norm_num) hk1
  rw [e1a, e1b] at hyk
  obtain ⟨a1, a2⟩ := abs_le.1 hyk
  -- (2) the text written, over the factor
  have hd : |(micro m1 e1 : ℚ) / 10 ^ 6 - fval m1 e1| ≤ 1 / (2 * 10 ^ 6) := by
    have := abs_div_le _ _ _ _ (by norm_num : (0 : ℚ) < 10 ^ 6) hN
    have e3 : fval m1 e1 * 10 ^ 6 / 10 ^ 6 = fval m1 e1 := by field_simp
    rw [e3] at this
    have e4 : (1 : ℚ) / 2 / 10 ^ 6 = 1 / (2 * 10 ^ 6) := by norm_num
    rw [e4] at this
    exact this
  have hdk := abs_div_le _ _ _ _ hκ hd
  have hh : (1 : ℚ) / (2 * 10 ^ 6) / fval mk ek ≤ 1 / (2 * 10 ^ 6) :=
    div_le_self (by norm_num) hk1
  obtain ⟨b1, b2⟩ := abs_le.1 hdk
  have hn0 : (0 : ℚ) ≤ (micro m1 e1 : ℚ) / 10 ^ 6 / fval mk ek := by positivity
  have hnhi : (micro m1 e1 : ℚ) / 10 ^ 6 / fval mk ek ≤ 10 ^ 9 + 1 := by
    have : fval m e / 2 ^ 53 ≤ 10 ^ 9 / 2 ^ 53 := by
      apply div_le_div_of_nonneg_right hV9 (by norm_num)
    norm_num at this hδ hh ⊢
    linarith
  have hNκ : (micro m1 e1 : ℚ) / 10 ^ 6 =
      (micro m1 e1 : ℚ) / 10 ^ 6 / fval mk ek * fval mk ek := by
    field_simp
    ring
  have hNhi : (micro m1 e1 : ℚ) / 10 ^ 6 ≤ 10 ^ 30 := by
    rw [hNκ]
    calc (micro m1 e1 : ℚ) / 10 ^ 6 / fval mk ek * fval mk ek ≤ (10 ^ 9 + 1) * 10 ^ 6 :=
          mul_le_mul hnhi hk2 (le_of_lt hκ) (by norm_num)
      _ ≤ 10 ^ 30 := by norm_num
  -- (3) the value read back
  obtain ⟨m', e', hx', _, _, _, hxe'⟩ := round_rat_abs P Q hQ (by rw [hPQ]; exact hNhi)
  rw [hPQ] at hxe'
  have hX0 : (0 : ℚ) ≤ fval m' e' := by unfold fval; positivity
  have hxk := abs_div_le _ _ _ _ hκ hxe'
  have e3b : ((micro m1 e1 : ℚ) / 10 ^ 6 / 2 ^ 53 + 1 / 2 ^ 59) / fval mk ek =
      (micro m1 e1 : ℚ) / 10 ^ 6 / fval mk ek / 2 ^ 53 + 1 / 2 ^ 59 / fval mk ek := by
    field_simp
    ring
  rw [e3b] at hxk
  obtain ⟨c1, c2⟩ := abs_le.1 hxk
  have hx0 : (0 : ℚ) ≤ fval m' e' / fval mk ek := by positivity
  have hxhi : fval m' e' / fval mk ek ≤ 10 ^ 9 + 2 := by
    have : (micro m1 e1 : ℚ) / 10 ^ 6 / fval mk ek / 2 ^ 53 ≤ (10 ^ 9 + 1) / 2 ^ 53 := by
      apply div_le_div_of_nonneg_right hnhi (by norm_num)
    norm_num at this hδ ⊢
    linarith
  -- (4) the quotient
  have hq' : ((m' * 2 ^ (e' - ek).toNat : Nat) : ℚ) / ((mk * 2 ^ (-(e' - ek)).toNat : Nat) : ℚ) =
      fval m' e' / fval mk ek := by
    rw [scaled2_quot]
    unfold fval
    have hnq : (mk : ℚ) ≠ 0 := by exact_mod_cast hmk
    have h2f : (2 : ℚ) ^ ek ≠ 0 := ne_of_gt (two_zpow_pos ek)
    rw [zpow_sub₀ (by norm_num : (2 : ℚ) ≠ 0)]
    field_simp
  obtain ⟨m2, e2, hy, _, _, _, hye⟩ := round_rat_abs (m' * 2 ^ (e' - ek).toNat)
    (mk * 2 ^ (-(e' - ek)).toNat)
    (Nat.mul_pos (Nat.pos_of_ne_zero hmk) (by positivity))
    (by rw [hq']; linarith)
  rw [hq'] at hye
  refine ⟨m2, e2, ?_, ?_⟩
  · intro s sk
    rw [round_rat_withSign s P Q, hx']
    simp only [Double.withSign, Double.div, if_neg hmk, round_scaled]
    rw [round_rat_withSign, hy]
    rfl
  obtain ⟨d1, d2⟩ := abs_le.1 hye
  obtain ⟨hm2, _⟩ := micro_spec m2 e2
  obtain ⟨f1, f2⟩ := abs_le.1 hm2
  have g1 : fval m e / 2 ^ 53 ≤ 10 ^ 9 / 2 ^ 53 :=
    div_le_div_of_nonneg_right hV9 (by norm_num)
  have g2 : (micro m1 e1 : ℚ) / 10 ^ 6 / fval mk ek / 2 ^ 53 ≤ (10 ^ 9 + 1) / 2 ^ 53 :=
    div_le_div_of_nonneg_right hnhi (by norm_num)
  have g3 : fval m' e' / fval mk ek / 2 ^ 53 ≤ (10 ^ 9 + 2) / 2 ^ 53 :=
    div_le_div_of_nonneg_right hxhi (by norm_num)
  have hup : (micro m2 e2 : ℚ) < ((micro m e + 2 : Nat) : ℚ) := by
    push_cast
    norm_num at g1 g2 g3 hδ hh a1 a2 b1 b2 c1 c2 d1 d2 ⊢
    linarith
  have hdn : (micro m e : ℚ) < ((micro m2 e2 + 2 : Nat) : ℚ) := by
    push_cast
    norm_num at g1 g2 g3 hδ hh a1 a2 b1 b2 c1 c2 d1 d2 ⊢
    linarith
  have h1 : micro m2 e2 < micro m e + 2 := by exact_mod_cast hup
  have h2 : micro m e < micro m2 e2 + 2 := by exact_mod_cast hdn
  omega

/-! ## The command line of `stringMath` -/

theorem argv_of_cons (o : Opt) (opts : List Opt) :
    argv_of (o :: opts) = o.args ++ argv_of opts := by
  simp [argv_of]

theorem arg_loop_text (long : Bool) (v : List Char) (rest : List (List Char)) (st : ArgState) :
    arg_loop ((Opt.text long v).args ++ rest) st =
      arg_loop rest ⟨v, true, st.haveMult, st.haveDiv, st.multVal, st.divVal⟩ := by
  cases long <;> simp [Opt.args, arg_loop]

theorem arg_loop_mult (v : List Char) (rest : List (List Char)) (st : ArgState) :
    arg_loop ((Opt.mult v).args ++ rest) st =
      match parse_double v with
      | none => .error ⟨2, []⟩
      | some x => arg_loop rest ⟨st.inText, st.haveInText, true, st.haveDiv, x, st.divVal⟩ := by
  have h1 : ¬ ("-mult".toList = "-in".toList ∨ "-mult".toList = "--in".toList) := by decide
  simp only [Opt.args, List.cons_append, List.nil_append, arg_loop, if_neg h1, if_true]
  rfl

theorem arg_loop_div (v : List Char) (rest : List (List Char)) (st : ArgState) :
    arg_loop ((Opt.div v).args ++ rest) st =
      match parse_double v with
      | none => .error ⟨2, []⟩
      | some x => arg_loop rest ⟨st.inText, st.haveInText, st.haveMult, true, st.multVal, x⟩ := by
  have h1 : ¬ ("-div".toList = "-in".toList ∨ "-div".toList = "--in".toList) := by decide
  have h2 : ¬ ("-div".toList = "-mult".toList) := by decide
  simp only [Opt.args, List.cons_append, List.nil_append, arg_loop, if_neg h1, if_neg h2,
    if_true]
  rfl

theorem last_arg_cons (f : Opt → Option (List Char)) (acc : Option (List Char)) (o : Opt)
    (opts : List Opt) :
    last_arg f acc (o :: opts) =
      last_arg f (match f o with | some v => some v | none => acc) opts :=
  rfl

/-- The argument loop on a list of options with valid factors runs to its
end; its locals hold the last value of each kind. -/
theorem arg_loop_valid : ∀ (opts : List Opt) (st : ArgState) (ta tm td : Option (List Char)),
    factors_valid opts = true →
    st.haveInText = ta.isSome → (∀ t, ta = some t → st.inText = t) →
    st.haveMult = tm.isSome → (∀ v, tm = some v → parse_double v = some st.multVal) →
    st.haveDiv = td.isSome → (∀ v, td = some v → parse_double v = some st.divVal) →
    ∃ st1, arg_loop (argv_of opts) st = .ok st1 ∧
      st1.haveInText = (last_arg Opt.textArg ta opts).isSome ∧
      (∀ t, last_arg Opt.textArg ta opts = some t → st1.inText = t) ∧
      st1.haveMult = (last_arg Opt.multArg tm opts).isSome ∧
      (∀ v, last_arg Opt.multArg tm opts = some v → parse_double v = some st1.multVal) ∧
      st1.haveDiv = (last_arg Opt.divArg td opts).isSome ∧
      (∀ v, last_arg Opt.divArg td opts = some v → parse_double v = some st1.divVal)
  | [], st, ta, tm, td, _, h1, h2, h3, h4, h5, h6 =>
    ⟨st, by simp [argv_of, arg_loop], h1, h2, h3, h4, h5, h6⟩
  | .text long v :: opts, st, ta, tm, td, hv, h1, h2, h3, h4, h5, h6 => by
    have hv1 : factors_valid opts = true := by
      simp only [factors_valid, List.all_cons, Bool.true_and] at hv ⊢
      exact hv
    rw [argv_of_cons, arg_loop_text]
    simp only [last_arg_cons, Opt.textArg, Opt.multArg, Opt.divArg]
    exact arg_loop_valid opts _ (some v) tm td hv1 rfl (fun t ht => by simpa using ht)
      h3 h4 h5 h6
  | .mult v :: opts, st, ta, tm, td, hv, h1, h2, h3, h4, h5, h6 => by
    have hv0 : (parse_double v).isSome = true ∧ factors_valid opts = true := by
      simpa [factors_valid] using hv
    obtain ⟨x, hx⟩ := Option.isSome_iff_exists.mp hv0.1
    rw [argv_of_cons, arg_loop_mult, hx]
    simp only [last_arg_cons, Opt.textArg, Opt.multArg, Opt.divArg]
    exact arg_loop_valid opts _ ta (some v) td hv0.2 h1 h2 rfl
      (fun w hw => by cases hw; exact hx) h5 h6
  | .div v :: opts, st, ta, tm, td, hv, h1, h2, h3, h4, h5, h6 => by
    have hv0 : (parse_double v).isSome = true ∧ factors_valid opts = true := by
      simpa [factors_valid] using hv
    obtain ⟨x, hx⟩ := Option.isSome_iff_exists.mp hv0.1
    rw [argv_of_cons, arg_loop_div, hx]
    simp only [last_arg_cons, Opt.textArg, Opt.multArg, Opt.divArg]
    exact arg_loop_valid opts _ ta tm (some v) hv0.2 h1 h2 h3 h4 rfl
      (fun w hw => by cases hw; exact hx)

/-- The argument loop on a list of options with a factor that is not a
number ends the run with exit code 2. -/
theorem arg_loop_invalid : ∀ (opts : List Opt) (st : ArgState),
    factors_valid opts = false → arg_loop (argv_of opts) st = .error ⟨2, []⟩
  | [], _, h => by simp [factors_valid] at h
  | .text long v :: opts, st, h => by
    have h1 : factors_valid opts = false := by
      simp only [factors_valid, List.all_cons, Bool.true_and] at h ⊢
      exact h
    rw [argv_of_cons, arg_loop_text]
    exact arg_loop_invalid opts _ h1
  | .mult v :: opts, st, h => by
    rw [argv_of_cons, arg_loop_mult]
    cases hp : parse_double v with
    | none => rfl
    | some x =>
      have h1 : factors_valid opts = false := by
        simpa [factors_valid, hp] using h
      exact arg_loop_invalid opts _ h1
  | .div v :: opts, st, h => by
    rw [argv_of_cons, arg_loop_div]
    cases hp : parse_double v with
    | none => rfl
    | some x =>
      have h1 : factors_valid opts = false := by
        simpa [factors_valid, hp] using h
      exact arg_loop_invalid opts _ h1

theorem arg_loop_single (a : List Char) (st : ArgState) :
    arg_loop [a] st =
      if a = "-h".toList ∨ a = "--help".toList then .error ⟨0, usage_text⟩
      else .error ⟨2, usage_text⟩ := by
  rw [arg_loop]

theorem arg_loop_pair (a v : List Char) (rest : List (List Char)) (st : ArgState) :
    arg_loop (a :: v :: rest) st =
      if a = "-in".toList ∨ a = "--in".toList then
        arg_loop rest ⟨v, true, st.haveMult, st.haveDiv, st.multVal, st.divVal⟩
      else if a = "-mult".toList then
        match parse_double v with
        | none => .error ⟨2, []⟩
        | some x => arg_loop rest ⟨st.inText, st.haveInText, true, st.haveDiv, x, st.divVal⟩
      else if a = "-div".toList then
        match parse_double v with
        | none => .error ⟨2, []⟩
        | some x => arg_loop rest ⟨st.inText, st.haveInText, st.haveMult, true, st.multVal, x⟩
      else if a = "-h".toList ∨ a = "--help".toList then .error ⟨0, usage_text⟩
      else .error ⟨2, usage_text⟩ := by
  rw [arg_loop]

/-- Every argument list is a list of options with their values, or the
argument loop ends the run: with the usage text and exit code 0 or 2, or
with exit code 2 at a factor that is not a number. -/
theorem arg_loop_cases : ∀ (n : Nat) (argv : List (List Char)) (st : ArgState),
    argv.length ≤ n →
    (∃ opts, argv = argv_of opts) ∨ arg_loop argv st = .error ⟨0, usage_text⟩ ∨
      arg_loop argv st = .error ⟨2, usage_text⟩ ∨ arg_loop argv st = .error ⟨2, []⟩
  | _, [], _, _ => .inl ⟨[], rfl⟩
  | _, [a], st, _ => by
    rw [arg_loop_single]
    by_cases h : a = "-h".toList ∨ a = "--help".toList
    · exact .inr (.inl (by rw [if_pos h]))
    · exact .inr (.inr (.inl (by rw [if_neg h])))
  | 0, a :: v :: rest, _, h => by simp at h
  | n + 1, a :: v :: rest, st, hn => by
    have hr : rest.length ≤ n := by simp at hn; omega
    rw [arg_loop_pair]
    by_cases h1 : a = "-in".toList ∨ a = "--in".toList
    · rw [if_pos h1]
      rcases arg_loop_cases n rest ⟨v, true, st.haveMult, st.haveDiv, st.multVal, st.divVal⟩ hr
        with ⟨opts, ho⟩ | h
      · refine .inl ⟨.text (a == "--in".toList) v :: opts, ?_⟩
        rw [argv_of_cons, ← ho]
        rcases h1 with h1 | h1 <;> subst h1 <;> rfl
      · exact .inr h
    · rw [if_neg h1]
      by_cases h2 : a = "-mult".toList
      · rw [if_pos h2]
        cases hp : parse_double v with
        | none => exact .inr (.inr (.inr rfl))
        | some x =>
          rcases arg_loop_cases n rest
            ⟨st.inText, st.haveInText, true, st.haveDiv, x, st.divVal⟩ hr
            with ⟨opts, ho⟩ | h
          · refine .inl ⟨.mult v :: opts, ?_⟩
            rw [argv_of_cons, ← ho, h2]
            rfl
          · exact .inr h
      · rw [if_neg h2]
        by_cases h3 : a = "-div".toList
        · rw [if_pos h3]
          cases hp : parse_double v with
          | none => exact .inr (.inr (.inr rfl))
          | some x =>
            rcases arg_loop_cases n rest
              ⟨st.inText, st.haveInText, st.haveMult, true, st.multVal, x⟩ hr
              with ⟨opts, ho⟩ | h
            · refine .inl ⟨.div v :: opts, ?_⟩
              rw [argv_of_cons, ← ho, h3]
              rfl
            · exact .inr h
        · rw [if_neg h3]
          by_cases h4 : a = "-h".toList ∨ a = "--help".toList
          · exact .inr (.inl (by rw [if_pos h4]))
          · exact .inr (.inr (.inl (by rw [if_neg h4])))

theorem process_line_total (line : List Char) (doMult : Bool) (factor : Double) :
    ∃ out, process_line line doMult factor = .ok out := by
  obtain ⟨segs, -, -, h⟩ := process_loop_partition line doMult factor line.length 0 []
    (Nat.zero_le _) (by omega)
  exact ⟨_, h⟩

theorem filter_lines_total (doMult : Bool) (factor : Double) :
    ∀ stdin : List (List Char), ∃ out, filter_lines doMult factor stdin = .ok out
  | [] => ⟨[], rfl⟩
  | line :: rest => by
    obtain ⟨r, hr⟩ := process_line_total (strip_cr line) doMult factor
    obtain ⟨out, ho⟩ := filter_lines_total doMult factor rest
    exact ⟨r ++ [Char.ofNat 10] ++ out, by simp only [filter_lines, hr, ho]⟩

theorem rewrite_output_total (text : Option (List Char)) (doMult : Bool) (factor : Double)
    (stdin : List (List Char)) : ∃ out, rewrite_output text doMult factor stdin = .ok out := by
  cases text with
  | none => exact filter_lines_total doMult factor stdin
  | some t =>
    obtain ⟨r, hr⟩ := process_line_total t doMult factor
    exact ⟨r ++ [Char.ofNat 10], by simp only [rewrite_output, hr]⟩

theorem main_of_error (argv stdin : List (List Char)) (r : Run)
    (h : arg_loop argv ArgState.init = .error r) : main argv stdin = .ok r := by
  unfold main
  rw [h]

theorem main_both_or_neither (argv stdin : List (List Char)) (st : ArgState)
    (h : arg_loop argv ArgState.init = .ok st) (hb : st.haveMult = st.haveDiv) :
    main argv stdin = .ok ⟨2, []⟩ := by
  unfold main
  rw [h]
  have he : (st.haveMult == st.haveDiv) = true := by simpa using hb
  simp only [he]
  rfl

theorem main_rewrites (argv stdin : List (List Char)) (st : ArgState)
    (h : arg_loop argv ArgState.init = .ok st) (hone : st.haveMult ≠ st.haveDiv)
    (hz : (if st.haveMult then st.multVal else st.divVal).isZero = false) :
    main argv stdin =
      match rewrite_output (if st.haveInText then some st.inText else none) st.haveMult
          (if st.haveMult then st.multVal else st.divVal) stdin with
      | .error f => .error f
      | .ok out => .ok ⟨0, out⟩ := by
  unfold main
  rw [h]
  have hne : (st.haveMult == st.haveDiv) = false := by simpa using hone
  simp only [hne, hz, Bool.false_eq_true, if_false]
  cases ht : st.haveInText
  · simp only [Bool.false_eq_true, if_false, rewrite_output]
  · simp only [if_true, rewrite_output]
    cases process_line st.inText st.haveMult
      (if st.haveMult = true then st.multVal else st.divVal) <;> rfl

/-- What `main` does on a list of options. -/
theorem main_on_options :
    (∀ (opts : List Opt) (stdin : List (List Char)),
      mult_supplied opts = div_supplied opts → main (argv_of opts) stdin = .ok ⟨2, []⟩) ∧
    (∀ (opts : List Opt) (stdin : List (List Char)),
      factors_valid opts = false → main (argv_of opts) stdin = .ok ⟨2, []⟩) ∧
    (∀ (opts : List Opt) (stdin : List (List Char)) (v : List Char) (k : Double),
      factors_valid opts = true → mult_supplied opts ≠ div_supplied opts →
      factor_arg opts = some v → parse_double v = some k →
      (k.isZero = true → main (argv_of opts) stdin = .ok ⟨2, []⟩) ∧
      (k.isZero = false →
        ∃ out, rewrite_output (last_arg Opt.textArg none opts) (mult_supplied opts) k stdin =
            .ok out ∧
          main (argv_of opts) stdin = .ok ⟨0, out⟩)) := by
  have hinit := fun (opts : List Opt) (hv : factors_valid opts = true) =>
    arg_loop_valid opts ArgState.init none none none hv rfl (by simp) rfl (by simp) rfl
      (by simp)
  refine ⟨?_, ?_, ?_⟩
  · intro opts stdin hb
    cases hv : factors_valid opts
    · exact main_of_error _ _ _ (arg_loop_invalid opts _ hv)
    · obtain ⟨st, hst, -, -, hm, -, hd, -⟩ := hinit opts hv
      refine main_both_or_neither _ _ st hst ?_
      rw [hm, hd]
      exact hb
  · intro opts stdin hv
    exact main_of_error _ _ _ (arg_loop_invalid opts _ hv)
  · intro opts stdin v k hv hone hf hk
    obtain ⟨st, hst, ht, ht2, hm, hm2, hd, hd2⟩ := hinit opts hv
    have hone1 : st.haveMult ≠ st.haveDiv := by
      rw [hm, hd]
      exact hone
    have hfac : (if st.haveMult then st.multVal else st.divVal) = k := by
      unfold factor_arg at hf
      cases hms : mult_supplied opts
      · have hds : div_supplied opts = true := by
          cases hds : div_supplied opts
          · exact absurd (hms.trans hds.symm) hone
          · rfl
        rw [hms] at hf
        have h1 : st.haveMult = false := hm.trans hms
        rw [h1]
        have h2 := hd2 v hf
        rw [hk] at h2
        simpa using (Option.some.inj h2).symm
      · rw [hms] at hf
        have h1 : st.haveMult = true := hm.trans hms
        rw [h1]
        have h2 := hm2 v hf
        rw [hk] at h2
        simpa using (Option.some.inj h2).symm
    constructor
    · intro hz
      exact main_zero_factor _ _ st hst hone1 (by rw [hfac]; exact hz)
    · intro hz
      have htext : (if st.haveInText then some st.inText else none) =
          last_arg Opt.textArg none opts := by
        cases hl : last_arg Opt.textArg none opts with
        | none =>
          rw [hl] at ht
          rw [ht]
          rfl
        | some t =>
          rw [hl] at ht
          rw [ht, ht2 t hl]
          rfl
      have hmain := main_rewrites _ stdin st hst hone1 (by rw [hfac]; exact hz)
      have hm1 : st.haveMult = mult_supplied opts := hm
      rw [hfac, htext, hm1] at hmain
      obtain ⟨out, hout⟩ := rewrite_output_total (last_arg Opt.textArg none opts)
        (mult_supplied opts) k stdin
      refine ⟨out, hout, ?_⟩
      rw [hmain, hout]


/-- The argument loop goes through a list of options and on to what follows. -/
theorem arg_loop_append : ∀ (opts : List Opt) (st st1 : ArgState) (rest : List (List Char)),
    arg_loop (argv_of opts) st = .ok st1 →
    arg_loop (argv_of opts ++ rest) st = arg_loop rest st1
  | [], st, st1, rest, h => by
    have e : arg_loop (argv_of []) st = .ok st := by simp [argv_of, arg_loop]
    rw [e] at h
    rw [← Except.ok.inj h]
    rfl
  | .text long v :: opts, st, st1, rest, h => by
    rw [argv_of_cons, arg_loop_text] at h
    rw [argv_of_cons, List.append_assoc, arg_loop_text]
    exact arg_loop_append opts _ st1 rest h
  | .mult v :: opts, st, st1, rest, h => by
    rw [argv_of_cons, arg_loop_mult] at h
    rw [argv_of_cons, List.append_assoc, arg_loop_mult]
    cases hp : parse_double v with
    | none =>
      rw [hp] at h
      exact absurd h (by simp)
    | some x =>
      rw [hp] at h
      exact arg_loop_append opts _ st1 rest h
  | .div v :: opts, st, st1, rest, h => by
    rw [argv_of_cons, arg_loop_div] at h
    rw [argv_of_cons, List.append_assoc, arg_loop_div]
    cases hp : parse_double v with
    | none =>
      rw [hp] at h
      exact absurd h (by simp)
    | some x =>
      rw [hp] at h
      exact arg_loop_append opts _ st1 rest h

/-- A factor that is not a number ends the run, whatever follows the options. -/
theorem arg_loop_invalid_append : ∀ (opts : List Opt) (st : ArgState)
    (rest : List (List Char)),
    factors_valid opts = false → arg_loop (argv_of opts ++ rest) st = .error ⟨2, []⟩
  | [], _, _, h => by simp [factors_valid] at h
  | .text long v :: opts, st, rest, h => by
    have h1 : factors_valid opts = false := by
      simp only [factors_valid, List.all_cons, Bool.true_and] at h ⊢
      exact h
    rw [argv_of_cons, List.append_assoc, arg_loop_text]
    exact arg_loop_invalid_append opts _ rest h1
  | .mult v :: opts, st, rest, h => by
    rw [argv_of_cons, List.append_assoc, arg_loop_mult]
    cases hp : parse_double v with
    | none => rfl
    | some x =>
      have h1 : factors_valid opts = false := by
        simpa [factors_valid, hp] using h
      exact arg_loop_invalid_append opts _ rest h1
  | .div v :: opts, st, rest, h => by
    rw [argv_of_cons, List.append_assoc, arg_loop_div]
    cases hp : parse_double v with
    | none => rfl
    | some x =>
      have h1 : factors_valid opts = false := by
        simpa [factors_valid, hp] using h
      exact arg_loop_invalid_append opts _ rest h1

/-- At an argument that is no option with a value the argument loop ends the
run: with exit code 0 for a help flag, with exit code 2 otherwise. -/
theorem arg_loop_stop (a : List Char) (t : List (List Char)) (st : ArgState)
    (h : is_option a = false ∨ t = []) :
    arg_loop (a :: t) st =
      if is_help a = true then .error ⟨0, usage_text⟩ else .error ⟨2, usage_text⟩ := by
  have hh : (a = "-h".toList ∨ a = "--help".toList) ↔ is_help a = true := by
    simp [is_help]
  cases t with
  | nil =>
    rw [arg_loop_single]
    by_cases h1 : a = "-h".toList ∨ a = "--help".toList
    · rw [if_pos h1, if_pos (hh.mp h1)]
    · rw [if_neg h1, if_neg (fun e => h1 (hh.mpr e))]
  | cons v r =>
    have ho : is_option a = false := by
      rcases h with h | h
      · exact h
      · exact absurd h (by simp)
    simp only [is_option, Bool.or_eq_false_iff, beq_eq_false_iff_ne, ne_eq] at ho
    obtain ⟨⟨⟨o1, o2⟩, o3⟩, o4⟩ := ho
    rw [arg_loop_pair, if_neg (fun e => e.elim o1 o2), if_neg o3, if_neg o4]
    by_cases h1 : a = "-h".toList ∨ a = "--help".toList
    · rw [if_pos h1, if_pos (hh.mp h1)]
    · rw [if_neg h1, if_neg (fun e => h1 (hh.mpr e))]

/-- Every argument list is a list of options followed by nothing, or by an
argument that is no option with a value and by whatever comes after it. -/
theorem argv_split : ∀ (n : Nat) (argv : List (List Char)), argv.length ≤ n →
    ∃ opts rest, argv = argv_of opts ++ rest ∧
      (rest = [] ∨ ∃ a t, rest = a :: t ∧ (is_option a = false ∨ t = []))
  | _, [], _ => ⟨[], [], rfl, .inl rfl⟩
  | _, [a], _ => ⟨[], [a], rfl, .inr ⟨a, [], rfl, .inr rfl⟩⟩
  | 0, a :: v :: r, h => by simp at h
  | n + 1, a :: v :: r, h => by
    have hr : r.length ≤ n := by simp at h; omega
    obtain ⟨opts, rest, h1, h2⟩ := argv_split n r hr
    by_cases ho : is_option a = true
    · simp only [is_option, Bool.or_eq_true, beq_iff_eq] at ho
      rcases ho with ((ho | ho) | ho) | ho
      · exact ⟨.text false v :: opts, rest, by rw [argv_of_cons, h1, ho]; rfl, h2⟩
      · exact ⟨.text true v :: opts, rest, by rw [argv_of_cons, h1, ho]; rfl, h2⟩
      · exact ⟨.mult v :: opts, rest, by rw [argv_of_cons, h1, ho]; rfl, h2⟩
      · exact ⟨.div v :: opts, rest, by rw [argv_of_cons, h1, ho]; rfl, h2⟩
    · exact ⟨[], a :: v :: r, rfl, .inr ⟨a, v :: r, rfl, .inl (by simpa using ho)⟩⟩

/-- C11 (as amended). Exactly one transform must be given. Every argument
list is a list of options `-in TEXT`, `--in TEXT`, `-mult X`, `-div X`,
followed by nothing or by an argument that is no option with a value and by
whatever comes after it. When a factor among the options is not a number,
`main` exits with code 2 and writes nothing. Otherwise, at an argument that is
no option with a value, `main` writes the usage text and exits with code 0
when that argument is `-h` or `--help`, and with code 2 when it is not. On a
list of options alone, `main` exits with code 2 and writes nothing when both
`-mult` and `-div` are supplied or neither is; with exactly one of them
supplied and valid factors it exits with code 2 for a zero factor and
otherwise rewrites (the input text, or the lines of standard input) with exit
code 0. -/
theorem C11_exactly_one_transform :
    (∀ argv : List (List Char), ∃ opts rest, argv = argv_of opts ++ rest ∧
      (rest = [] ∨ ∃ a t, rest = a :: t ∧ (is_option a = false ∨ t = []))) ∧
    (∀ (opts : List Opt) (rest stdin : List (List Char)),
      factors_valid opts = false → main (argv_of opts ++ rest) stdin = .ok ⟨2, []⟩) ∧
    (∀ (opts : List Opt) (a : List Char) (t stdin : List (List Char)),
      factors_valid opts = true → (is_option a = false ∨ t = []) →
      (is_help a = true → main (argv_of opts ++ a :: t) stdin = .ok ⟨0, usage_text⟩) ∧
      (is_help a = false → main (argv_of opts ++ a :: t) stdin = .ok ⟨2, usage_text⟩)) ∧
    (∀ (opts : List Opt) (stdin : List (List Char)),
      mult_supplied opts = div_supplied opts → main (argv_of opts) stdin = .ok ⟨2, []⟩) ∧
    (∀ (opts : List Opt) (stdin : List (List Char)),
      factors_valid opts = false → main (argv_of opts) stdin = .ok ⟨2, []⟩) ∧
    (∀ (opts : List Opt) (stdin : List (List Char)) (v : List Char) (k : Double),
      factors_valid opts = true → mult_supplied opts ≠ div_supplied opts →
      factor_arg opts = some v → parse_double v = some k →
      (k.isZero = true → main (argv_of opts) stdin = .ok ⟨2, []⟩) ∧
      (k.isZero = false →
        ∃ out, rewrite_output (last_arg Opt.textArg none opts) (mult_supplied opts) k stdin =
            .ok out ∧
          main (argv_of opts) stdin = .ok ⟨0, out⟩)) := by
  refine ⟨fun argv => argv_split argv.length argv (le_refl _), ?_, ?_,
    main_on_options.1, main_on_options.2.1, main_on_options.2.2⟩
  · intro opts rest stdin hv
    exact main_of_error _ _ _ (arg_loop_invalid_append opts _ rest hv)
  · intro opts a t stdin hv hstop
    obtain ⟨st1, hst, -⟩ := arg_loop_valid opts ArgState.init none none none hv rfl
      (by simp) rfl (by simp) rfl (by simp)
    have e := arg_loop_append opts _ st1 (a :: t) hst
    rw [arg_loop_stop a t st1 hstop] at e
    constructor
    · intro hh
      rw [if_pos hh] at e
      exact main_of_error _ _ _ e
    · intro hh
      rw [if_neg (by rw [hh]; simp)] at e
      exact main_of_error _ _ _ e

theorem C11_exactly_one_transform_witness :
    factors_valid [.text false "x: 1.0 2".toList, .mult "255".toList] = true ∧
    parse_double "255".toList = some (Double.ofNat 255) ∧
    (∃ out, rewrite_output (some "x: 1.0 2".toList) true (Double.ofNat 255) [] = .ok out ∧
      main ["-in".toList, "x: 1.0 2".toList, "-mult".toList, "255".toList] [] =
        .ok ⟨0, out⟩) ∧
    main (argv_of [.mult "2".toList, .div "3".toList] ++ ["--help".toList, "x".toList]) [] =
      .ok ⟨0, usage_text⟩ ∧
    main (argv_of [.mult "2".toList] ++ ["-in".toList]) [] = .ok ⟨2, usage_text⟩ ∧
    parse_double "2.2250738585072012e-308".toList = none ∧
    main (argv_of [.text false "1".toList, .mult "2.2250738585072012e-308".toList] ++ []) [] =
      .ok ⟨2, []⟩ :=
  ⟨by decide!, by decide!,
    (C11_exactly_one_transform.2.2.2.2.2 [.text false "x: 1.0 2".toList, .mult "255".toList]
      [] "255".toList (Double.ofNat 255) (by decide!) (by decide!) (by decide!)
      (by decide!)).2 (by decide!),
    (C11_exactly_one_transform.2.2.1 [.mult "2".toList, .div "3".toList] "--help".toList
      ["x".toList] [] (by decide!) (by decide)).1 (by decide),
    (C11_exactly_one_transform.2.2.1 [.mult "2".toList] "-in".toList [] []
      (by decide!) (by decide)).2 (by decide),
    by decide!,
    C11_exactly_one_transform.2.1
      [.text false "1".toList, .mult "2.2250738585072012e-308".toList] [] [] (by decide!)⟩

/-- C11 (counterexample). With a help flag in the argument list the run ends
with exit code 0, although neither `-mult` nor `-div` is supplied, although
both are, or although the factor is not a number. -/
theorem C11_help_exits_zero :
    main ["-h".toList] [] = .ok ⟨0, usage_text⟩ ∧
    main ["-mult".toList, "2".toList, "-div".toList, "3".toList, "--help".toList] [] =
      .ok ⟨0, usage_text⟩ ∧
    main ["-h".toList, "-mult".toList, "abc".toList] [] = .ok ⟨0, usage_text⟩ ∧
    parse_double "abc".toList = none := by
  refine ⟨by decide!, by decide!, by decide!, by decide!⟩

/-! ## The pre-check, rewriting from an offset, totality -/

/-- C15. Numeric-start pre-check: at an offset inside the string,
`is_number_start` returns, and returns `true` exactly when the character is a
digit or a point, or is a sign, is not the last character and is followed by
a digit or a point. A sign that is the last character, or that is followed by
another character, is no numeric start. -/
theorem C15_numeric_start_precheck (s : List Char) (i : Nat) (h : i < s.length) :
    (∃ b, is_number_start s i = .ok b ∧
      (b = true ↔
        ((s.get ⟨i, h⟩).isDigit = true ∨ s.get ⟨i, h⟩ = '.' ∨
          ((s.get ⟨i, h⟩ = '+' ∨ s.get ⟨i, h⟩ = '-') ∧
            ∃ h1 : i + 1 < s.length,
              (s.get ⟨i + 1, h1⟩).isDigit = true ∨ s.get ⟨i + 1, h1⟩ = '.')))) ∧
    ((s.get ⟨i, h⟩ = '+' ∨ s.get ⟨i, h⟩ = '-') → i + 1 = s.length →
      is_number_start s i = .ok false) ∧
    ((s.get ⟨i, h⟩ = '+' ∨ s.get ⟨i, h⟩ = '-') → ∀ h1 : i + 1 < s.length,
      ¬ ((s.get ⟨i + 1, h1⟩).isDigit = true ∨ s.get ⟨i + 1, h1⟩ = '.') →
      is_number_start s i = .ok false) := by
  have e := is_number_start_eq s i h
  have hsign : ∀ c : Char, (c = '+' ∨ c = '-') → (c.isDigit || c == '.') = false := by
    intro c hc
    rcases hc with rfl | rfl <;> decide
  refine ⟨⟨_, e, ?_⟩, ?_, ?_⟩
  · by_cases h1 : i + 1 < s.length
    · simp [next_is_numeric, List.getElem?_eq_getElem h1, h1, or_assoc]
    · simp [next_is_numeric, List.getElem?_eq_none (Nat.le_of_not_lt h1), h1]
  · intro hc hl
    rw [e, hsign _ hc]
    have h1 : ¬ i + 1 < s.length := by omega
    simp [next_is_numeric, List.getElem?_eq_none (Nat.le_of_not_lt h1)]
  · intro hc h1 hn
    rw [e, hsign _ hc]
    have hn1 : ((s.get ⟨i + 1, h1⟩).isDigit || s.get ⟨i + 1, h1⟩ == '.') = false := by
      simpa using hn
    simp only [next_is_numeric, List.getElem?_eq_getElem h1]
    simp only [List.get_eq_getElem] at hn1
    simp [hn1]

theorem C15_numeric_start_precheck_witness :
    is_number_start "a-.5+".toList 1 = .ok true ∧
    is_number_start "a-.5+".toList 4 = .ok false ∧
    is_number_start "a-.5+".toList 0 = .ok false :=
  ⟨by decide,
    (C15_numeric_start_precheck "a-.5+".toList 4 (by decide)).2.1 (by decide) (by decide),
    by decide⟩

/-- From an offset inside or at the end of the line the scan returns, and with
enough iterations allowed what it writes does not depend on their number or
on what was written before. -/
theorem process_loop_from (line : List Char) (doMult : Bool) (factor : Double) :
    ∀ (k i : Nat), line.length - i ≤ k →
      ∃ r, rewrite_from line doMult factor i = .ok r ∧
        ∀ (fuel : Nat) (out : List Char), line.length - i ≤ fuel →
          process_loop line doMult factor fuel i out = .ok (out ++ r) := by
  have key : ∀ (k i : Nat), line.length - i ≤ k →
      ∃ r, ∀ (fuel : Nat) (out : List Char), line.length - i ≤ fuel →
        process_loop line doMult factor fuel i out = .ok (out ++ r) := by
    intro k
    induction k with
    | zero =>
      intro i hk
      refine ⟨[], fun fuel out _ => ?_⟩
      rw [process_loop_done _ _ _ _ _ _ (by omega), List.append_nil]
    | succ k ih =>
      intro i hk
      by_cases hi : i < line.length
      · obtain ⟨b, hb⟩ := is_number_start_ok line i hi
        have hlit : (is_number_start line i = .ok false ∨
            (is_number_start line i = .ok true ∧ read_number_token line i = none)) →
            ∃ r, ∀ (fuel : Nat) (out : List Char), line.length - i ≤ fuel →
              process_loop line doMult factor fuel i out = .ok (out ++ r) := by
          intro hs
          obtain ⟨r, hr⟩ := ih (i + 1) (by omega)
          refine ⟨line.get ⟨i, hi⟩ :: r, fun fuel out hf => ?_⟩
          obtain ⟨f, rfl⟩ : ∃ f, fuel = f + 1 := ⟨fuel - 1, by omega⟩
          rw [process_loop_literal _ _ _ _ _ _ hi hs, hr f _ (by omega)]
          simp
        cases b with
        | false => exact hlit (.inl hb)
        | true =>
          cases hr : read_number_token line i with
          | none => exact hlit (.inr ⟨hb, hr⟩)
          | some p =>
            obtain ⟨len, val⟩ := p
            have hbd := read_number_token_bound line i len val hr
            obtain ⟨r, hrr⟩ := ih (i + len) (by omega)
            refine ⟨format_float (apply_transform doMult factor val) ++ r,
              fun fuel out hf => ?_⟩
            obtain ⟨f, rfl⟩ : ∃ f, fuel = f + 1 := ⟨fuel - 1, by omega⟩
            rw [process_loop_token _ _ _ _ _ _ len val hi hb hr, hrr f _ (by omega)]
            simp
      · refine ⟨[], fun fuel out _ => ?_⟩
        rw [process_loop_done _ _ _ _ _ _ hi, List.append_nil]
  intro k i hk
  obtain ⟨r, hr⟩ := key k i hk
  refine ⟨r, ?_, hr⟩
  have := hr (line.length - i) [] (le_refl _)
  simpa [rewrite_from] using this

/-- C16. Degrade-to-literal on parse failure: at a scan offset where the
pre-check passes and `strtod` performs no conversion or reports `ERANGE`,
`read_number_token` fails, the scan copies the one character `line[i]` and
goes on at `i + 1`; it returns, and what is written from offset `i` on is
`line[i]` followed by what is written from `i + 1` on, whatever was written
before. -/
theorem C16_degrade_to_literal (line : List Char) (doMult : Bool) (factor : Double)
    (i : Nat) (h : i < line.length) (hs : is_number_start line i = .ok true)
    (hfail : (strtod (c_str_from line i)).consumed = 0 ∨
      (strtod (c_str_from line i)).erange = true) :
    read_number_token line i = none ∧
    (∀ (fuel : Nat) (out : List Char),
      process_loop line doMult factor (fuel + 1) i out =
        process_loop line doMult factor fuel (i + 1) (out ++ [line.get ⟨i, h⟩])) ∧
    ∃ rest, rewrite_from line doMult factor (i + 1) = .ok rest ∧
      rewrite_from line doMult factor i = .ok (line.get ⟨i, h⟩ :: rest) ∧
      ∀ (fuel : Nat) (out : List Char), line.length - i ≤ fuel →
        process_loop line doMult factor fuel i out = .ok (out ++ line.get ⟨i, h⟩ :: rest) := by
  have hr : read_number_token line i = none := by
    rw [read_number_token_eq, if_pos hfail]
  refine ⟨hr, ?_⟩
  have hstep := fun (fuel : Nat) (out : List Char) =>
    process_loop_literal line doMult factor fuel i out h (.inr ⟨hs, hr⟩)
  refine ⟨hstep, ?_⟩
  obtain ⟨rest, h1, h2⟩ := process_loop_from line doMult factor _ (i + 1) (le_refl _)
  have h3 : ∀ (fuel : Nat) (out : List Char), line.length - i ≤ fuel →
      process_loop line doMult factor fuel i out = .ok (out ++ line.get ⟨i, h⟩ :: rest) := by
    intro fuel out hf
    obtain ⟨f, rfl⟩ : ∃ f, fuel = f + 1 := ⟨fuel - 1, by omega⟩
    rw [hstep, h2 f _ (by omega)]
    simp
  refine ⟨rest, h1, ?_, h3⟩
  have := h3 (line.length - i) [] (le_refl _)
  simpa [rewrite_from] using this

theorem C16_degrade_to_literal_witness :
    is_number_start "1e999 +.x".toList 0 = .ok true ∧
    (strtod (c_str_from "1e999 +.x".toList 0)).erange = true ∧
    read_number_token "1e999 +.x".toList 0 = none ∧
    process_line "1e999 +.x".toList true (Double.ofNat 2) = .ok "1e1998.0 +.x".toList ∧
    (∃ rest, rewrite_from "1e999 +.x".toList true (Double.ofNat 2) 1 = .ok rest ∧
      rewrite_from "1e999 +.x".toList true (Double.ofNat 2) 0 = .ok ('1' :: rest)) ∧
    is_number_start "1e999 +.x".toList 6 = .ok true ∧
    (strtod (c_str_from "1e999 +.x".toList 6)).consumed = 0 ∧
    (∃ rest, rewrite_from "1e999 +.x".toList true (Double.ofNat 2) 7 = .ok rest ∧
      rewrite_from "1e999 +.x".toList true (Double.ofNat 2) 6 = .ok ('+' :: rest)) ∧
    is_number_start "x 2.2250738585072012e-308 y".toList 2 = .ok true ∧
    (strtod (c_str_from "x 2.2250738585072012e-308 y".toList 2)).erange = true ∧
    (strtod (c_str_from "x 2.2250738585072012e-308 y".toList 2)).val =
      .finite false (2 ^ 52) (-1074) ∧
    read_number_token "x 2.2250738585072012e-308 y".toList 2 = none ∧
    process_line "x 2.2250738585072012e-308 y".toList true (Double.ofNat 1) =
      .ok "x 2.0.0 y".toList ∧
    (∃ rest, rewrite_from "x 2.2250738585072012e-308 y".toList true (Double.ofNat 1) 3 =
        .ok rest ∧
      rewrite_from "x 2.2250738585072012e-308 y".toList true (Double.ofNat 1) 2 =
        .ok ('2' :: rest)) :=
  ⟨by decide!, by decide!, by decide!, by decide!,
    have h := (C16_degrade_to_literal "1e999 +.x".toList true (Double.ofNat 2) 0 (by decide)
      (by decide!) (.inr (by decide!))).2.2
    ⟨h.choose, h.choose_spec.1, h.choose_spec.2.1⟩,
    by decide!, by decide!,
    have h := (C16_degrade_to_literal "1e999 +.x".toList true (Double.ofNat 2) 6 (by decide)
      (by decide!) (.inl (by decide!))).2.2
    ⟨h.choose, h.choose_spec.1, h.choose_spec.2.1⟩,
    by decide!, by decide!, by decide!, by decide!, by decide!,
    have h := (C16_degrade_to_literal "x 2.2250738585072012e-308 y".toList true
      (Double.ofNat 1) 2 (by decide) (by decide!) (.inr (by decide!))).2.2
    ⟨h.choose, h.choose_spec.1, h.choose_spec.2.1⟩⟩

/-- C18. `process_line` returns for every line. At every offset inside the
line the accesses of `is_number_start` and of the loop are within the line, a
token has a length of at least one and ends inside the line, and one
iteration moves the offset forward, to at most the length of the line; so the
loop, which is allowed `|line|` iterations, ends. -/
theorem C18_process_line_total (line : List Char) (doMult : Bool) (factor : Double) :
    (∃ out, process_line line doMult factor = .ok out) ∧
    (∀ i, i < line.length →
      (∃ b, is_number_start line i = .ok b) ∧ (∃ c, char_at line i = .ok c)) ∧
    (∀ (i len : Nat) (val : Double), read_number_token line i = some (len, val) →
      1 ≤ len ∧ i + len ≤ line.length) ∧
    (∀ (fuel i : Nat) (out : List Char), i < line.length →
      ∃ j out1, i < j ∧ j ≤ line.length ∧
        process_loop line doMult factor (fuel + 1) i out =
          process_loop line doMult factor fuel j out1) ∧
    (∀ (fuel i : Nat) (out : List Char), line.length - i ≤ fuel →
      ∃ r, process_loop line doMult factor fuel i out = .ok r) := by
  have hbound : ∀ (i len : Nat) (val : Double), read_number_token line i = some (len, val) →
      1 ≤ len ∧ i + len ≤ line.length := by
    intro i len val hr
    have hb := read_number_token_bound line i len val hr
    have hi : i < line.length := by omega
    exact ⟨hb.1, by omega⟩
  refine ⟨?_, ?_, hbound, ?_, ?_⟩
  · obtain ⟨r, -, hr⟩ := process_loop_from line doMult factor _ 0 (le_refl _)
    exact ⟨r, by simpa [process_line] using hr line.length [] (by omega)⟩
  · intro i hi
    exact ⟨is_number_start_ok line i hi, _, char_at_of_lt line i hi⟩
  · intro fuel i out hi
    obtain ⟨b, hb⟩ := is_number_start_ok line i hi
    have hlit : (is_number_start line i = .ok false ∨
        (is_number_start line i = .ok true ∧ read_number_token line i = none)) →
        ∃ j out1, i < j ∧ j ≤ line.length ∧
          process_loop line doMult factor (fuel + 1) i out =
            process_loop line doMult factor fuel j out1 := fun hs =>
      ⟨i + 1, _, by omega, by omega, process_loop_literal _ _ _ _ _ _ hi hs⟩
    cases b with
    | false => exact hlit (.inl hb)
    | true =>
      cases hr : read_number_token line i with
      | none => exact hlit (.inr ⟨hb, hr⟩)
      | some p =>
        obtain ⟨len, val⟩ := p
        have hbd := hbound i len val hr
        exact ⟨i + len, _, by omega, hbd.2, process_loop_token _ _ _ _ _ _ len val hi hb hr⟩
  · intro fuel i out hf
    obtain ⟨r, -, hr⟩ := process_loop_from line doMult factor _ i (le_refl _)
    exact ⟨_, hr fuel out hf⟩

theorem C18_process_line_total_witness :
    ∃ j out1, 3 < j ∧ j ≤ "ab +1e5x".toList.length ∧
      process_loop "ab +1e5x".toList false (Double.ofNat 4) (8 + 1) 3 "ab ".toList =
        process_loop "ab +1e5x".toList false (Double.ofNat 4) 8 j out1 :=
  (C18_process_line_total "ab +1e5x".toList false (Double.ofNat 4)).2.2.2.1 8 3 "ab ".toList
    (by decide)

/-! ## Text after a character that ends every numeral -/

theorem takeWhile_append_stop (p : Char → Bool) (c : Char) (hc : p c = false) :
    ∀ (s r : List Char), (s ++ c :: r).takeWhile p = s.takeWhile p
  | [], r => by simp [List.takeWhile_cons, hc]
  | a :: s, r => by
    simp only [List.cons_append, List.takeWhile_cons]
    rw [takeWhile_append_stop p c hc s r]

theorem dropWhile_append_stop (p : Char → Bool) (c : Char) (hc : p c = false) :
    ∀ (s r : List Char), (s ++ c :: r).dropWhile p = s.dropWhile p ++ c :: r
  | [], r => by simp [List.dropWhile_cons, hc]
  | a :: s, r => by
    simp only [List.cons_append, List.dropWhile_cons]
    rw [dropWhile_append_stop p c hc s r]
    split <;> rfl

theorem read_fraction_cons (p : Char → Bool) (x : Char) (t : List Char) :
    read_fraction p (x :: t) = if x = '.' then (t.takeWhile p, true) else ([], false) := by
  unfold read_fraction
  split
  · rename_i u h
    injection h with h1 h2
    subst h1 h2
    simp
  · rename_i h
    by_cases hx : x = '.'
    · subst hx
      exact absurd rfl (h t)
    · rw [if_neg hx]

theorem after_fraction_cons (p : Char → Bool) (x : Char) (t : List Char) :
    after_fraction p (x :: t) = if x = '.' then t.dropWhile p else x :: t := by
  unfold after_fraction
  split
  · rename_i u h
    injection h with h1 h2
    subst h1 h2
    simp
  · rename_i h
    by_cases hx : x = '.'
    · subst hx
      exact absurd rfl (h t)
    · rw [if_neg hx]

theorem read_fraction_stop (p : Char → Bool) (c : Char) (hc : p c = false) (hd : c ≠ '.')
    (s r : List Char) : read_fraction p (s ++ c :: r) = read_fraction p s := by
  cases s with
  | nil =>
    rw [List.nil_append, read_fraction_cons, if_neg hd]
    rfl
  | cons x t =>
    rw [List.cons_append, read_fraction_cons, read_fraction_cons,
      takeWhile_append_stop p c hc]

theorem after_fraction_stop (p : Char → Bool) (c : Char) (hc : p c = false) (hd : c ≠ '.')
    (s r : List Char) : after_fraction p (s ++ c :: r) = after_fraction p s ++ c :: r := by
  cases s with
  | nil =>
    rw [List.nil_append, after_fraction_cons, if_neg hd]
    rfl
  | cons x t =>
    rw [List.cons_append, after_fraction_cons, after_fraction_cons,
      dropWhile_append_stop p c hc]
    split <;> rfl

theorem exponent_digits_stop (k : Nat) (b : Bool) (c : Char) (hc : c.isDigit = false)
    (u r : List Char) : exponent_digits k b (u ++ c :: r) = exponent_digits k b u := by
  unfold exponent_digits
  rw [takeWhile_append_stop Char.isDigit c hc]

theorem read_exponent_cons (lo up x : Char) (t : List Char) :
    read_exponent lo up (x :: t) =
      if x = lo ∨ x = up then
        (if t.head? = some '-' then exponent_digits 2 true t.tail
         else if t.head? = some '+' then exponent_digits 2 false t.tail
         else exponent_digits 1 false t)
      else (0, 0) := by
  unfold read_exponent
  by_cases hx : x = lo ∨ x = up
  · simp only [if_pos hx]
    split
    · simp
    · simp
    · rename_i h1 h2
      cases t with
      | nil => simp
      | cons y u =>
        have e1 : y ≠ '-' := fun e => h1 u (by rw [e])
        have e2 : y ≠ '+' := fun e => h2 u (by rw [e])
        simp [e1, e2]
  · simp only [if_neg hx]

theorem read_exponent_stop (lo up c : Char) (hc : c.isDigit = false) (h1 : c ≠ lo)
    (h2 : c ≠ up) (h3 : c ≠ '-') (h4 : c ≠ '+') (s r : List Char) :
    read_exponent lo up (s ++ c :: r) = read_exponent lo up s := by
  have hnil : exponent_digits 1 false (c :: r) = exponent_digits 1 false [] := by
    have := exponent_digits_stop 1 false c hc [] r
    simpa using this
  cases s with
  | nil =>
    rw [List.nil_append, read_exponent_cons, if_neg (by simp [h1, h2])]
    rfl
  | cons x t =>
    rw [List.cons_append, read_exponent_cons, read_exponent_cons]
    cases t with
    | nil =>
      simp only [List.nil_append, List.head?_cons, List.tail_cons, List.head?_nil,
        List.tail_nil, Option.some.injEq, h3, h4, if_false, hnil]
      simp
    | cons y u =>
      simp only [List.cons_append, List.head?_cons, List.tail_cons,
        exponent_digits_stop _ _ c hc]
      have := exponent_digits_stop 1 false c hc (y :: u) r
      rw [List.cons_append] at this
      rw [this]

theorem strtod_decimal_stop (neg : Bool) (c : Char) (hc : c.isDigit = false) (hd : c ≠ '.')
    (h1 : c ≠ 'e') (h2 : c ≠ 'E') (h3 : c ≠ '-') (h4 : c ≠ '+') (s r : List Char) :
    strtod_decimal neg (s ++ c :: r) = strtod_decimal neg s := by
  unfold strtod_decimal
  simp only [takeWhile_append_stop Char.isDigit c hc, dropWhile_append_stop Char.isDigit c hc,
    read_fraction_stop Char.isDigit c hc hd, after_fraction_stop Char.isDigit c hc hd,
    read_exponent_stop 'e' 'E' c hc h1 h2 h3 h4]

theorem strtod_hex_stop (neg : Bool) (c : Char) (hc : isXDigit c = false)
    (hg : c.isDigit = false) (hd : c ≠ '.')
    (h1 : c ≠ 'p') (h2 : c ≠ 'P') (h3 : c ≠ '-') (h4 : c ≠ '+') (s r : List Char) :
    strtod_hex neg (s ++ c :: r) = strtod_hex neg s := by
  unfold strtod_hex
  simp only [takeWhile_append_stop isXDigit c hc, dropWhile_append_stop isXDigit c hc,
    read_fraction_stop isXDigit c hc hd, after_fraction_stop isXDigit c hc hd,
    read_exponent_stop 'p' 'P' c hg h1 h2 h3 h4]

theorem after_hex_mark_stop (c : Char) (h0 : c ≠ '0') (h1 : c ≠ 'x') (h2 : c ≠ 'X')
    (s r : List Char) :
    after_hex_mark (s ++ c :: r) = (after_hex_mark s).map (fun t => t ++ c :: r) := by
  cases s with
  | nil =>
    cases r with
    | nil => rfl
    | cons y u => simp [after_hex_mark, h0]
  | cons a t =>
    cases t with
    | nil => simp [after_hex_mark, h1, h2]
    | cons b u =>
      simp only [List.cons_append, after_hex_mark]
      split <;> rfl

theorem strtod_body_of_numeric (neg : Bool) (c : Char) (t : List Char)
    (hc : c.isDigit = true ∨ c = '.') :
    strtod_body neg (c :: t) =
      match (after_hex_mark (c :: t)).bind (strtod_hex neg) with
      | some r => some r
      | none => strtod_decimal neg (c :: t) := by
  have hmem := numeric_cases c hc
  have e1 : starts_with_ci "infinity".toList (c :: t) = false :=
    starts_with_ci_first _ _ _ _ (numeric_facts c hmem).1
  have e2 : starts_with_ci "inf".toList (c :: t) = false :=
    starts_with_ci_first _ _ _ _ (numeric_facts c hmem).1
  have e3 : starts_with_ci "nan".toList (c :: t) = false :=
    starts_with_ci_first _ _ _ _ (numeric_facts c hmem).2.1
  unfold strtod_body
  simp only [e1, e2, e3, Bool.false_eq_true, if_false]

/-- A space after a text that starts like a number changes nothing for `strtod_body`. -/
theorem strtod_body_space (neg : Bool) (c : Char) (t r : List Char)
    (hc : c.isDigit = true ∨ c = '.') :
    strtod_body neg (c :: t ++ ' ' :: r) = strtod_body neg (c :: t) := by
  rw [List.cons_append, strtod_body_of_numeric neg c _ hc, strtod_body_of_numeric neg c t hc,
    ← List.cons_append, after_hex_mark_stop ' ' (by decide) (by decide) (by decide),
    strtod_decimal_stop neg ' ' (by decide) (by decide) (by decide) (by decide) (by decide)
      (by decide)]
  cases h : after_hex_mark (c :: t) with
  | none => rfl
  | some u =>
    simp only [Option.map_some', Option.some_bind]
    rw [strtod_hex_stop neg ' ' (by decide) (by decide) (by decide) (by decide) (by decide)
      (by decide) (by decide)]

/-- The text starts like a number: with a digit or a point, or with a sign
and then a digit or a point. -/
theorem strtod_space (u r : List Char)
    (hu : (∃ c t, u = c :: t ∧ (c.isDigit = true ∨ c = '.')) ∨
      (∃ s c t, u = s :: c :: t ∧ (s = '+' ∨ s = '-') ∧ (c.isDigit = true ∨ c = '.'))) :
    strtod (u ++ ' ' :: r) = strtod u := by
  rcases hu with ⟨c, t, rfl, hc⟩ | ⟨s, c, t, rfl, hs, hc⟩
  · rw [List.cons_append, strtod_of_numeric c _ hc, strtod_of_numeric c t hc,
      ← List.cons_append, strtod_body_space false c t r hc]
  · rw [List.cons_append, strtod_of_sign s _ hs, strtod_of_sign s _ hs,
      strtod_body_space _ c t r hc]

/-! ## Rewriting is local to the pieces between spaces -/

theorem rewrite_from_end (line : List Char) (doMult : Bool) (factor : Double) (i : Nat)
    (h : ¬ i < line.length) : rewrite_from line doMult factor i = .ok [] := by
  unfold rewrite_from
  exact process_loop_done _ _ _ _ _ _ h

theorem rewrite_from_token (line : List Char) (doMult : Bool) (factor : Double)
    (i len : Nat) (val : Double) (h : i < line.length)
    (hs : is_number_start line i = .ok true) (hr : read_number_token line i = some (len, val)) :
    ∃ r, rewrite_from line doMult factor (i + len) = .ok r ∧
      rewrite_from line doMult factor i =
        .ok (format_float (apply_transform doMult factor val) ++ r) := by
  obtain ⟨r, h1, h2⟩ := process_loop_from line doMult factor _ (i + len) (le_refl _)
  refine ⟨r, h1, ?_⟩
  have hb := read_number_token_bound line i len val hr
  unfold rewrite_from
  obtain ⟨f, hf⟩ : ∃ f, line.length - i = f + 1 := ⟨line.length - i - 1, by omega⟩
  rw [hf, process_loop_token _ _ _ _ _ _ len val h hs hr, h2 f _ (by omega), List.nil_append]

theorem rewrite_from_literal (line : List Char) (doMult : Bool) (factor : Double)
    (i : Nat) (h : i < line.length)
    (hs : is_number_start line i = .ok false ∨
      (is_number_start line i = .ok true ∧ read_number_token line i = none)) :
    ∃ r, rewrite_from line doMult factor (i + 1) = .ok r ∧
      rewrite_from line doMult factor i = .ok (line.get ⟨i, h⟩ :: r) := by
  obtain ⟨r, h1, h2⟩ := process_loop_from line doMult factor _ (i + 1) (le_refl _)
  refine ⟨r, h1, ?_⟩
  unfold rewrite_from
  obtain ⟨f, hf⟩ : ∃ f, line.length - i = f + 1 := ⟨line.length - i - 1, by omega⟩
  rw [hf, process_loop_literal _ _ _ _ _ _ h hs, h2 f _ (by omega), List.nil_append]
  rfl

theorem is_number_start_shift (pre u : List Char) (j : Nat) (h : j < u.length) :
    is_number_start (pre ++ u) (pre.length + j) = is_number_start u j := by
  have h1 : pre.length + j < (pre ++ u).length := by simp; omega
  have e1 : (pre ++ u).get ⟨pre.length + j, h1⟩ = u.get ⟨j, h⟩ := by
    simp only [List.get_eq_getElem]
    rw [List.getElem_append_right (by omega)]
    simp
  have e2 : next_is_numeric (pre ++ u) (pre.length + j) = next_is_numeric u j := by
    unfold next_is_numeric
    have : (pre ++ u)[pre.length + j + 1]? = u[j + 1]? := by
      rw [List.getElem?_append_right (by omega)]
      congr 1
      omega
    rw [this]
  rw [is_number_start_eq _ _ h1, is_number_start_eq u j h, e1, e2]

theorem read_number_token_shift (pre u : List Char) (j : Nat) :
    read_number_token (pre ++ u) (pre.length + j) = read_number_token u j := by
  rw [read_number_token_eq, read_number_token_eq]
  have : c_str_from (pre ++ u) (pre.length + j) = c_str_from u j := by
    unfold c_str_from
    rw [List.drop_append]
  rw [this]

/-- What is written from an offset on does not depend on the text before it. -/
theorem rewrite_from_shift (pre u : List Char) (doMult : Bool) (factor : Double) :
    ∀ (k j : Nat), u.length - j ≤ k →
      rewrite_from (pre ++ u) doMult factor (pre.length + j) = rewrite_from u doMult factor j := by
  intro k
  induction k with
  | zero =>
    intro j hk
    rw [rewrite_from_end _ _ _ _ (by simp; omega), rewrite_from_end _ _ _ _ (by omega)]
  | succ k ih =>
    intro j hk
    by_cases hj : j < u.length
    · have h1 : pre.length + j < (pre ++ u).length := by simp; omega
      have es := is_number_start_shift pre u j hj
      have er := read_number_token_shift pre u j
      have eg : (pre ++ u).get ⟨pre.length + j, h1⟩ = u.get ⟨j, hj⟩ := by
        simp only [List.get_eq_getElem]
        rw [List.getElem_append_right (by omega)]
        simp
      obtain ⟨b, hb⟩ := is_number_start_ok u j hj
      have hlit : (is_number_start u j = .ok false ∨
          (is_number_start u j = .ok true ∧ read_number_token u j = none)) →
          rewrite_from (pre ++ u) doMult factor (pre.length + j) =
            rewrite_from u doMult factor j := by
        intro hs
        obtain ⟨r, hr1, hr2⟩ := rewrite_from_literal u doMult factor j hj hs
        obtain ⟨r1, hr3, hr4⟩ := rewrite_from_literal (pre ++ u) doMult factor
          (pre.length + j) h1 (by rw [es, er]; exact hs)
        rw [hr2, hr4, eg]
        have := ih (j + 1) (by omega)
        rw [← Nat.add_assoc, hr3, hr1] at this
        rw [Except.ok.inj this]
      cases b with
      | false => exact hlit (.inl hb)
      | true =>
        cases hr : read_number_token u j with
        | none => exact hlit (.inr ⟨hb, hr⟩)
        | some p =>
          obtain ⟨len, val⟩ := p
          have hbd := read_number_token_bound u j len val hr
          obtain ⟨r, hr1, hr2⟩ := rewrite_from_token u doMult factor j len val hj hb hr
          obtain ⟨r1, hr3, hr4⟩ := rewrite_from_token (pre ++ u) doMult factor
            (pre.length + j) len val h1 (by rw [es]; exact hb) (by rw [er]; exact hr)
          rw [hr2, hr4]
          have := ih (j + len) (by omega)
          rw [← Nat.add_assoc, hr3, hr1] at this
          rw [Except.ok.inj this]
    · rw [rewrite_from_end _ _ _ _ (by simp; omega), rewrite_from_end _ _ _ _ hj]

theorem takeWhile_space_split (p : Char → Bool) :
    ∀ (x b : List Char), ∃ rest, (x ++ ' ' :: b).takeWhile p = x.takeWhile p ++ rest ∧
      (rest = [] ∨ ∃ r, rest = ' ' :: r)
  | [], b => by
    by_cases h : p ' ' = true
    · exact ⟨' ' :: b.takeWhile p, by simp [List.takeWhile_cons, h], .inr ⟨_, rfl⟩⟩
    · exact ⟨[], by simp [List.takeWhile_cons, h], .inl rfl⟩
  | a :: x, b => by
    obtain ⟨rest, h1, h2⟩ := takeWhile_space_split p x b
    by_cases h : p a = true
    · exact ⟨rest, by simp [List.takeWhile_cons, h, h1], h2⟩
    · exact ⟨[], by simp [List.takeWhile_cons, h], .inl rfl⟩

theorem c_str_from_space (a b : List Char) (i : Nat) (h : i ≤ a.length) :
    ∃ rest, c_str_from (a ++ ' ' :: b) i = c_str_from a i ++ rest ∧
      (rest = [] ∨ ∃ r, rest = ' ' :: r) := by
  unfold c_str_from
  rw [List.drop_append_of_le_length h]
  exact takeWhile_space_split _ _ _

/-- Where the pre-check holds, the text that `strtod` is given starts like a number. -/
theorem c_str_from_numeric (a : List Char) (i : Nat) (h : i < a.length)
    (hs : is_number_start a i = .ok true) :
    (∃ c t, c_str_from a i = c :: t ∧ (c.isDigit = true ∨ c = '.')) ∨
      (∃ s c t, c_str_from a i = s :: c :: t ∧ (s = '+' ∨ s = '-') ∧
        (c.isDigit = true ∨ c = '.')) := by
  rw [is_number_start_eq a i h] at hs
  have hs1 := Except.ok.inj hs
  by_cases hn : (a.get ⟨i, h⟩).isDigit = true ∨ a.get ⟨i, h⟩ = '.'
  · have h0 := (numeric_facts _ (numeric_cases _ hn)).2.2.2.2
    exact .inl ⟨_, _, c_str_from_cons a i h h0, hn⟩
  · have hn1 : ((a.get ⟨i, h⟩).isDigit || a.get ⟨i, h⟩ == '.') = false := by simpa using hn
    rw [hn1, Bool.false_or, Bool.and_eq_true] at hs1
    obtain ⟨hsg, hnx⟩ := hs1
    have hsg1 : a.get ⟨i, h⟩ = '+' ∨ a.get ⟨i, h⟩ = '-' := by simpa using hsg
    have h0 : a.get ⟨i, h⟩ ≠ Char.ofNat 0 := by
      rcases hsg1 with e | e <;> rw [e] <;> decide
    unfold next_is_numeric at hnx
    by_cases h1 : i + 1 < a.length
    · rw [List.getElem?_eq_getElem h1] at hnx
      have hn2 : (a.get ⟨i + 1, h1⟩).isDigit = true ∨ a.get ⟨i + 1, h1⟩ = '.' := by
        simpa using hnx
      have h01 := (numeric_facts _ (numeric_cases _ hn2)).2.2.2.2
      refine .inr ⟨a.get ⟨i, h⟩, a.get ⟨i + 1, h1⟩, c_str_from a (i + 1 + 1), ?_, hsg1, hn2⟩
      rw [c_str_from_cons a i h h0, c_str_from_cons a (i + 1) h1 h01]
    · rw [List.getElem?_eq_none (Nat.le_of_not_lt h1)] at hnx
      exact absurd hnx (by simp)

theorem read_number_token_space (a b : List Char) (i : Nat) (h : i < a.length)
    (hs : is_number_start a i = .ok true) :
    read_number_token (a ++ ' ' :: b) i = read_number_token a i := by
  rw [read_number_token_eq, read_number_token_eq]
  obtain ⟨rest, h1, h2⟩ := c_str_from_space a b i (Nat.le_of_lt h)
  have : strtod (c_str_from (a ++ ' ' :: b) i) = strtod (c_str_from a i) := by
    rw [h1]
    rcases h2 with rfl | ⟨r, rfl⟩
    · rw [List.append_nil]
    · exact strtod_space _ _ (c_str_from_numeric a i h hs)
  rw [this]

theorem is_number_start_space (a b : List Char) (i : Nat) (h : i < a.length) :
    is_number_start (a ++ ' ' :: b) i = is_number_start a i := by
  have h1 : i < (a ++ ' ' :: b).length := by simp; omega
  have e1 : (a ++ ' ' :: b).get ⟨i, h1⟩ = a.get ⟨i, h⟩ := by
    simp only [List.get_eq_getElem]
    rw [List.getElem_append_left h]
  have e2 : next_is_numeric (a ++ ' ' :: b) i = next_is_numeric a i := by
    unfold next_is_numeric
    by_cases h2 : i + 1 < a.length
    · rw [List.getElem?_append_left h2]
    · have h3 : i + 1 = a.length := by omega
      rw [List.getElem?_eq_none (Nat.le_of_not_lt h2), List.getElem?_append_right (by omega)]
      simp [h3]
  rw [is_number_start_eq _ _ h1, is_number_start_eq a i h, e1, e2]

/-- What is written for `a`, a space and `b` from an offset inside `a` on is
what is written for `a` from there on, the space, and what is written for `b`. -/
theorem rewrite_from_space (a b : List Char) (doMult : Bool) (factor : Double)
    (rb : List Char) (hb : rewrite_from b doMult factor 0 = .ok rb) :
    ∀ (k i : Nat), a.length - i ≤ k → i ≤ a.length →
      ∃ ra, rewrite_from a doMult factor i = .ok ra ∧
        rewrite_from (a ++ ' ' :: b) doMult factor i = .ok (ra ++ ' ' :: rb) := by
  have hend : rewrite_from (a ++ ' ' :: b) doMult factor a.length = .ok (' ' :: rb) := by
    have h1 : a.length < (a ++ ' ' :: b).length := by simp
    have hs : is_number_start (a ++ ' ' :: b) a.length = .ok false := by
      rw [is_number_start_at_pre]
      exact plain_not_start ' ' b (by decide)
    obtain ⟨r, hr1, hr2⟩ := rewrite_from_literal (a ++ ' ' :: b) doMult factor a.length h1
      (.inl hs)
    have hsh := rewrite_from_shift (a ++ [' ']) b doMult factor _ 0 (le_refl _)
    simp only [List.append_assoc, List.singleton_append, List.length_append,
      List.length_singleton, Nat.add_zero] at hsh
    rw [hsh, hb] at hr1
    rw [hr2, get_at_pre, ← Except.ok.inj hr1]
  intro k
  induction k with
  | zero =>
    intro i hk hi
    have : i = a.length := by omega
    subst this
    exact ⟨[], rewrite_from_end _ _ _ _ (by omega), by rw [hend]; rfl⟩
  | succ k ih =>
    intro i hk hi
    by_cases hlt : i < a.length
    · have h1 : i < (a ++ ' ' :: b).length := by simp; omega
      have es := is_number_start_space a b i hlt
      have eg : (a ++ ' ' :: b).get ⟨i, h1⟩ = a.get ⟨i, hlt⟩ := by
        simp only [List.get_eq_getElem]
        rw [List.getElem_append_left hlt]
      obtain ⟨c, hc⟩ := is_number_start_ok a i hlt
      have hlit : (is_number_start a i = .ok false ∨
          (is_number_start a i = .ok true ∧ read_number_token a i = none)) →
          ∃ ra, rewrite_from a doMult factor i = .ok ra ∧
            rewrite_from (a ++ ' ' :: b) doMult factor i = .ok (ra ++ ' ' :: rb) := by
        intro hs
        have hs1 : is_number_start (a ++ ' ' :: b) i = .ok false ∨
            (is_number_start (a ++ ' ' :: b) i = .ok true ∧
              read_number_token (a ++ ' ' :: b) i = none) := by
          rcases hs with hs | ⟨hs, hr⟩
          · exact .inl (by rw [es]; exact hs)
          · exact .inr ⟨by rw [es]; exact hs, by rw [read_number_token_space a b i hlt hs, hr]⟩
        obtain ⟨r, hr1, hr2⟩ := rewrite_from_literal a doMult factor i hlt hs
        obtain ⟨r1, hr3, hr4⟩ := rewrite_from_literal (a ++ ' ' :: b) doMult factor i h1 hs1
        obtain ⟨ra, hra1, hra2⟩ := ih (i + 1) (by omega) (by omega)
        rw [hr1] at hra1
        rw [hr3] at hra2
        refine ⟨a.get ⟨i, hlt⟩ :: r, hr2, ?_⟩
        rw [hr4, eg, Except.ok.inj hra2, ← Except.ok.inj hra1]
        rfl
      cases c with
      | false => exact hlit (.inl hc)
      | true =>
        cases hr : read_number_token a i with
        | none => exact hlit (.inr ⟨hc, hr⟩)
        | some p =>
          obtain ⟨len, val⟩ := p
          have hbd := read_number_token_bound a i len val hr
          obtain ⟨r, hr1, hr2⟩ := rewrite_from_token a doMult factor i len val hlt hc hr
          obtain ⟨r1, hr3, hr4⟩ := rewrite_from_token (a ++ ' ' :: b) doMult factor i len val
            h1 (by rw [es]; exact hc) (by rw [read_number_token_space a b i hlt hc, hr])
          obtain ⟨ra, hra1, hra2⟩ := ih (i + len) (by omega) (by omega)
          rw [hr1] at hra1
          rw [hr3] at hra2
          refine ⟨_, hr2, ?_⟩
          rw [hr4, Except.ok.inj hra2, ← Except.ok.inj hra1, List.append_assoc]
    · have : i = a.length := by omega
      subst this
      exact ⟨[], rewrite_from_end _ _ _ _ (by omega), by rw [hend]; rfl⟩

/-- C20. Rewriting is local to the pieces between spaces: for all strings `a`
and `b` and every transform, the three rewritings return and the line
`a ++ " " ++ b` is rewritten to the rewriting of `a`, a space, and the
rewriting of `b`. No token that the scan takes in `a ++ " " ++ b` from an
offset in `a` spans the space, and it is the token taken in `a` alone. -/
theorem C20_space_locality (a b : List Char) (doMult : Bool) (factor : Double) :
    (∃ ra rb, process_line a doMult factor = .ok ra ∧ process_line b doMult factor = .ok rb ∧
      process_line (a ++ " ".toList ++ b) doMult factor = .ok (ra ++ " ".toList ++ rb)) ∧
    (∀ (i len : Nat) (val : Double), i < a.length →
      is_number_start (a ++ " ".toList ++ b) i = .ok true →
      read_number_token (a ++ " ".toList ++ b) i = some (len, val) →
      i + len ≤ a.length ∧ is_number_start a i = .ok true ∧
        read_number_token a i = some (len, val)) := by
  have e : a ++ " ".toList ++ b = a ++ ' ' :: b := by simp
  rw [e]
  constructor
  · obtain ⟨rb, hb, -⟩ := process_loop_from b doMult factor _ 0 (le_refl _)
    obtain ⟨ra, h1, h2⟩ := rewrite_from_space a b doMult factor rb hb _ 0 (le_refl _)
      (Nat.zero_le _)
    refine ⟨ra, rb, h1, hb, ?_⟩
    have e2 : ra ++ " ".toList ++ rb = ra ++ ' ' :: rb := by simp
    rw [e2]
    exact h2
  · intro i len val hi hs hr
    rw [is_number_start_space a b i hi] at hs
    rw [read_number_token_space a b i hi hs] at hr
    have hbd := read_number_token_bound a i len val hr
    exact ⟨by omega, hs, hr⟩

theorem C20_space_locality_witness :
    process_line "x=1e".toList true (Double.ofNat 2) = .ok "x=2.0e".toList ∧
    process_line "5 -".toList true (Double.ofNat 2) = .ok "10.0 -".toList ∧
    process_line "x=1e 5 -".toList true (Double.ofNat 2) = .ok "x=2.0e 10.0 -".toList ∧
    (2 + 1 ≤ "x=1e".toList.length ∧ is_number_start "x=1e".toList 2 = .ok true ∧
      read_number_token "x=1e".toList 2 = some (1, Double.ofNat 1)) :=
  ⟨by decide!, by decide!, by decide!,
    (C20_space_locality "x=1e".toList "5 -".toList true (Double.ofNat 2)).2 2 1
      (Double.ofNat 1) (by decide) (by decide!) (by decide!)⟩

/-! ## The decimal grammar -/

theorem all_take_of_le (p : Char → Bool) :
    ∀ (u : List Char) (j : Nat), j ≤ (u.takeWhile p).length → (u.take j).all p = true
  | [], j, _ => by simp
  | a :: u, 0, _ => by simp
  | a :: u, j + 1, h => by
    by_cases ha : p a = true
    · rw [List.takeWhile_cons_of_pos ha] at h
      simp only [List.take_succ_cons, List.all_cons, ha, Bool.true_and]
      exact all_take_of_le p u j (by simpa using h)
    · rw [List.takeWhile_cons_of_neg ha] at h
      simp at h

theorem all_take_of_gt (p : Char → Bool) :
    ∀ (u : List Char) (j : Nat), (u.takeWhile p).length < j → j ≤ u.length →
      (u.take j).all p = false
  | [], j, h1, h2 => by simp at h1 h2; omega
  | a :: u, 0, h1, _ => by simp at h1
  | a :: u, j + 1, h1, h2 => by
    by_cases ha : p a = true
    · rw [List.takeWhile_cons_of_pos ha] at h1
      simp only [List.take_succ_cons, List.all_cons, ha, Bool.true_and]
      exact all_take_of_gt p u j (by simpa using h1) (by simpa using h2)
    · simp only [List.take_succ_cons, List.all_cons]
      simp [ha]

theorem exponent_literal_cons (x : Char) (t : List Char) :
    exponent_literal (x :: t) =
      ((x == 'e' || x == 'E') &&
        (if t.head? = some '+' ∨ t.head? = some '-' then
          !t.tail.isEmpty && t.tail.all Char.isDigit
         else !t.isEmpty && t.all Char.isDigit)) := by
  cases t with
  | nil => simp [exponent_literal]
  | cons s v => simp [exponent_literal]

theorem exponent_digits_fst (k : Nat) (b : Bool) (u : List Char) :
    (exponent_digits k b u).1 =
      if (u.takeWhile Char.isDigit).length = 0 then 0
      else k + (u.takeWhile Char.isDigit).length := by
  unfold exponent_digits
  cases h : u.takeWhile Char.isDigit <;> simp

/-- The exponent part that `strtod` reads matches the grammar of an exponent. -/
theorem exponent_literal_take (r2 : List Char) (h : 0 < (read_exponent 'e' 'E' r2).1) :
    exponent_literal (r2.take (read_exponent 'e' 'E' r2).1) = true := by
  cases r2 with
  | nil => simp [read_exponent] at h
  | cons x t =>
    rw [read_exponent_cons] at h ⊢
    by_cases hx : x = 'e' ∨ x = 'E'
    · rw [if_pos hx] at h ⊢
      have hx1 : (x == 'e' || x == 'E') = true := by simpa using hx
      cases t with
      | nil => simp [exponent_digits] at h
      | cons s v =>
        simp only [List.head?_cons, List.tail_cons, Option.some.injEq] at h ⊢
        by_cases h1 : s = '-'
        · rw [if_pos h1, exponent_digits_fst] at h ⊢
          by_cases hk : (v.takeWhile Char.isDigit).length = 0
          · rw [if_pos hk] at h
            omega
          · rw [if_neg hk]
            have e : (x :: s :: v).take (2 + (v.takeWhile Char.isDigit).length) =
                x :: s :: v.take (v.takeWhile Char.isDigit).length := by
              rw [Nat.add_comm]
              rfl
            rw [e, exponent_literal_cons, hx1]
            have hl := len_takeWhile_le Char.isDigit v
            have hne : (v.take (v.takeWhile Char.isDigit).length).isEmpty = false := by
              cases hv : v with
              | nil => rw [hv] at hk; simp at hk
              | cons a w =>
                rw [hv] at hk
                obtain ⟨q, hq⟩ : ∃ q, ((a :: w).takeWhile Char.isDigit).length = q + 1 :=
                  ⟨_, (Nat.succ_pred_eq_of_ne_zero hk).symm⟩
                rw [hq]
                rfl
            simp [h1, hne, all_take_of_le Char.isDigit v _ (le_refl _)]
        · rw [if_neg h1] at h ⊢
          by_cases h2 : s = '+'
          · rw [if_pos h2, exponent_digits_fst] at h ⊢
            by_cases hk : (v.takeWhile Char.isDigit).length = 0
            · rw [if_pos hk] at h
              omega
            · rw [if_neg hk]
              have e : (x :: s :: v).take (2 + (v.takeWhile Char.isDigit).length) =
                  x :: s :: v.take (v.takeWhile Char.isDigit).length := by
                rw [Nat.add_comm]
                rfl
              rw [e, exponent_literal_cons, hx1]
              have hne : (v.take (v.takeWhile Char.isDigit).length).isEmpty = false := by
                cases hv : v with
                | nil => rw [hv] at hk; simp at hk
                | cons a w =>
                  rw [hv] at hk
                  obtain ⟨q, hq⟩ : ∃ q, ((a :: w).takeWhile Char.isDigit).length = q + 1 :=
                    ⟨_, (Nat.succ_pred_eq_of_ne_zero hk).symm⟩
                  rw [hq]
                  rfl
              simp [h2, hne, all_take_of_le Char.isDigit v _ (le_refl _)]
          · rw [if_neg h2, exponent_digits_fst] at h ⊢
            by_cases hk : ((s :: v).takeWhile Char.isDigit).length = 0
            · rw [if_pos hk] at h
              omega
            · rw [if_neg hk]
              obtain ⟨q, hq⟩ : ∃ q, ((s :: v).takeWhile Char.isDigit).length = q + 1 :=
                ⟨_, (Nat.succ_pred_eq_of_ne_zero hk).symm⟩
              have e : (x :: s :: v).take (1 + ((s :: v).takeWhile Char.isDigit).length) =
                  x :: (s :: v).take ((s :: v).takeWhile Char.isDigit).length := by
                rw [Nat.add_comm]
                rfl
              rw [e, exponent_literal_cons, hx1]
              have hall := all_take_of_le Char.isDigit (s :: v) _ (le_refl _)
              rw [hq] at hall ⊢
              simp only [List.take_succ_cons] at hall ⊢
              simp only [List.head?_cons, Option.some.injEq, List.tail_cons, List.isEmpty_cons,
                Bool.not_false, Bool.true_and]
              rw [if_neg (by simp [h1, h2]), hall]
    · rw [if_neg hx] at h
      simp at h

/-- No longer prefix than the exponent part that `strtod` reads matches the
grammar of an exponent. -/
theorem exponent_literal_longest (r2 : List Char) (m : Nat)
    (hm : (read_exponent 'e' 'E' r2).1 < m) (hm2 : m ≤ r2.length) :
    exponent_literal (r2.take m) = false := by
  cases r2 with
  | nil => simp at hm2; omega
  | cons x t =>
    obtain ⟨m1, rfl⟩ : ∃ m1, m = m1 + 1 := ⟨m - 1, by omega⟩
    rw [List.take_succ_cons, exponent_literal_cons]
    rw [read_exponent_cons] at hm
    by_cases hx : x = 'e' ∨ x = 'E'
    · rw [if_pos hx] at hm
      have hx1 : (x == 'e' || x == 'E') = true := by simpa using hx
      rw [hx1, Bool.true_and]
      cases t with
      | nil => simp
      | cons s v =>
        simp only [List.head?_cons, List.tail_cons, Option.some.injEq] at hm
        simp only [List.length_cons] at hm2
        cases m1 with
        | zero => simp
        | succ m2 =>
          simp only [List.take_succ_cons, List.head?_cons, List.tail_cons, Option.some.injEq]
          by_cases h1 : s = '-'
          · rw [if_pos h1, exponent_digits_fst] at hm
            rw [if_pos (.inr h1)]
            cases m2 with
            | zero => simp
            | succ m3 =>
              have hgt : (v.takeWhile Char.isDigit).length < m3 + 1 := by
                by_cases hk : (v.takeWhile Char.isDigit).length = 0
                · omega
                · rw [if_neg hk] at hm
                  omega
              rw [all_take_of_gt Char.isDigit v _ hgt (by omega), Bool.and_false]
          · rw [if_neg h1] at hm
            by_cases h2 : s = '+'
            · rw [if_pos h2, exponent_digits_fst] at hm
              rw [if_pos (.inl h2)]
              cases m2 with
              | zero => simp
              | succ m3 =>
                have hgt : (v.takeWhile Char.isDigit).length < m3 + 1 := by
                  by_cases hk : (v.takeWhile Char.isDigit).length = 0
                  · omega
                  · rw [if_neg hk] at hm
                    omega
                rw [all_take_of_gt Char.isDigit v _ hgt (by omega), Bool.and_false]
            · rw [if_neg h2, exponent_digits_fst] at hm
              rw [if_neg (by simp [h1, h2])]
              have hgt : ((s :: v).takeWhile Char.isDigit).length < m2 + 1 := by
                by_cases hk : ((s :: v).takeWhile Char.isDigit).length = 0
                · omega
                · rw [if_neg hk] at hm
                  omega
              have := all_take_of_gt Char.isDigit (s :: v) _ hgt (by simp; omega)
              rw [List.take_succ_cons] at this
              rw [this, Bool.and_false]
    · have hx1 : (x == 'e' || x == 'E') = false := by simpa using hx
      rw [hx1, Bool.false_and]

theorem unsigned_literal_eq (t : List Char) :
    unsigned_literal t =
      (!((t.takeWhile Char.isDigit).isEmpty &&
          (read_fraction Char.isDigit (t.dropWhile Char.isDigit)).1.isEmpty) &&
        ((after_fraction Char.isDigit (t.dropWhile Char.isDigit)).isEmpty ||
          exponent_literal (after_fraction Char.isDigit (t.dropWhile Char.isDigit)))) := by
  unfold unsigned_literal
  split
  · rename_i u heq
    rw [heq, read_fraction_cons, after_fraction_cons, if_pos rfl, if_pos rfl]
  · rename_i r1 hne
    cases hd : t.dropWhile Char.isDigit with
    | nil => simp [read_fraction, after_fraction]
    | cons x u =>
      have hx : x ≠ '.' := fun e => hne u (by rw [hd, e])
      rw [read_fraction_cons, after_fraction_cons, if_neg hx, if_neg hx]
      simp

/-- The grammar on a text given by its parts: digits, an optional point with
digits, and a rest that does not go on with a digit (nor, without a point,
with a point). -/
theorem unsigned_literal_parts (ip fp y : List Char) (dot : Bool)
    (hip : ∀ c ∈ ip, c.isDigit = true) (hfp : ∀ c ∈ fp, c.isDigit = true)
    (hy : y.takeWhile Char.isDigit = [])
    (hdot : dot = false → fp = [] ∧ y.head? ≠ some '.') :
    unsigned_literal (ip ++ ((if dot then '.' :: fp else []) ++ y)) =
      (!(ip.isEmpty && fp.isEmpty) && (y.isEmpty || exponent_literal y)) := by
  rw [unsigned_literal_eq]
  cases dot with
  | true =>
    have h1 : ('.' :: (fp ++ y)).takeWhile Char.isDigit = [] := by
      rw [List.takeWhile_cons_of_neg (by decide)]
    simp only [if_true, List.cons_append]
    rw [takeWhile_digits_append ip _ _ hip h1, dropWhile_digits_append ip _ _ hip h1,
      read_fraction_cons, after_fraction_cons, if_pos rfl, if_pos rfl,
      takeWhile_digits_append fp _ _ hfp hy, dropWhile_digits_append fp _ _ hfp hy]
  | false =>
    obtain ⟨hfp0, hyd⟩ := hdot rfl
    subst hfp0
    simp only [Bool.false_eq_true, if_false, List.nil_append]
    rw [takeWhile_digits_append ip _ _ hip hy, dropWhile_digits_append ip _ _ hip hy]
    cases y with
    | nil => rfl
    | cons a w =>
      have ha : a ≠ '.' := fun e => hyd (by rw [e]; rfl)
      rw [read_fraction_cons, after_fraction_cons, if_neg ha, if_neg ha]

theorem takeWhile_dropWhile_nil (p : Char → Bool) :
    ∀ l : List Char, (l.dropWhile p).takeWhile p = []
  | [] => rfl
  | a :: l => by
    by_cases h : p a = true
    · rw [List.dropWhile_cons_of_pos h]
      exact takeWhile_dropWhile_nil p l
    · rw [List.dropWhile_cons_of_neg h, List.takeWhile_cons_of_neg h]

theorem takeWhile_take_nil (p : Char → Bool) (l : List Char) (m : Nat)
    (h : l.takeWhile p = []) : (l.take m).takeWhile p = [] := by
  cases l with
  | nil => simp
  | cons a l =>
    cases m with
    | zero => simp
    | succ m =>
      by_cases ha : p a = true
      · rw [List.takeWhile_cons_of_pos ha] at h
        simp at h
      · rw [List.take_succ_cons, List.takeWhile_cons_of_neg ha]

theorem head_take_ne (l : List Char) (m : Nat) (c : Char) (h : l.head? ≠ some c) :
    (l.take m).head? ≠ some c := by
  cases l with
  | nil => simp
  | cons a l =>
    cases m with
    | zero => simp
    | succ m => simpa using h

/-- The parts of a text after its leading digits. -/
theorem fraction_parts (r1 : List Char) (h : r1.takeWhile Char.isDigit = []) :
    r1 = (if (read_fraction Char.isDigit r1).2 then '.' :: (read_fraction Char.isDigit r1).1
        else []) ++ after_fraction Char.isDigit r1 ∧
      (after_fraction Char.isDigit r1).takeWhile Char.isDigit = [] ∧
      ((read_fraction Char.isDigit r1).2 = false →
        (read_fraction Char.isDigit r1).1 = [] ∧
          (after_fraction Char.isDigit r1).head? ≠ some '.') ∧
      (∀ c ∈ (read_fraction Char.isDigit r1).1, c.isDigit = true) := by
  cases r1 with
  | nil => simp [read_fraction, after_fraction]
  | cons x u =>
    rw [read_fraction_cons, after_fraction_cons]
    by_cases hx : x = '.'
    · subst hx
      simp only [if_true, List.cons_append, List.takeWhile_append_dropWhile, true_and]
      refine ⟨takeWhile_dropWhile_nil _ _, by simp, ?_⟩
      intro c hc
      exact List.mem_takeWhile_imp hc
    · simp only [if_neg hx, Bool.false_eq_true, if_false, List.nil_append, true_and]
      exact ⟨h, by simp [hx], by simp⟩

/-- The span that `strtod_decimal` consumes matches the grammar, and no
longer prefix of the text does. -/
theorem strtod_decimal_longest (neg : Bool) (b : List Char) (r : StrtodResult)
    (h : strtod_decimal neg b = some r) :
    unsigned_literal (b.take r.consumed) = true ∧
      ∀ n, r.consumed < n → n ≤ b.length → unsigned_literal (b.take n) = false := by
  have hb : b.takeWhile Char.isDigit ++ b.dropWhile Char.isDigit = b :=
    List.takeWhile_append_dropWhile _ _
  have hip : ∀ c ∈ b.takeWhile Char.isDigit, c.isDigit = true :=
    fun c hc => List.mem_takeWhile_imp hc
  obtain ⟨f1, f2, f3, f4⟩ := fraction_parts (b.dropWhile Char.isDigit)
    (takeWhile_dropWhile_nil _ _)
  unfold strtod_decimal at h
  simp only at h
  split at h
  · exact absurd h (by simp)
  · rename_i hne
    injection h with h
    have hc : r.consumed = (b.takeWhile Char.isDigit).length +
        (if (read_fraction Char.isDigit (b.dropWhile Char.isDigit)).2 then
          1 + (read_fraction Char.isDigit (b.dropWhile Char.isDigit)).1.length else 0) +
        (read_exponent 'e' 'E' (after_fraction Char.isDigit (b.dropWhile Char.isDigit))).1 := by
      rw [← h]
    generalize hip0 : b.takeWhile Char.isDigit = ip at *
    generalize hfp0 : (read_fraction Char.isDigit (b.dropWhile Char.isDigit)).1 = fp at *
    generalize hdot0 : (read_fraction Char.isDigit (b.dropWhile Char.isDigit)).2 = dot at *
    generalize hr20 : after_fraction Char.isDigit (b.dropWhile Char.isDigit) = r2 at *
    generalize hex0 : (read_exponent 'e' 'E' r2).1 = k at *
    have hne1 : (!(ip.isEmpty && fp.isEmpty)) = true := by
      cases hq : (ip.isEmpty && fp.isEmpty)
      · rfl
      · exact absurd hq hne
    have hlen : ((if dot then '.' :: fp else []) : List Char).length =
        (if dot then 1 + fp.length else 0) := by
      cases dot <;> simp [Nat.add_comm]
    have hbl : b.length = ip.length + (if dot then 1 + fp.length else 0) + r2.length := by
      rw [← hb, f1, List.length_append, List.length_append, hlen]
      omega
    have htake : ∀ m, b.take (ip.length + (if dot then 1 + fp.length else 0) + m) =
        ip ++ ((if dot then '.' :: fp else []) ++ r2.take m) := by
      intro m
      rw [← hb, f1, ← List.append_assoc, ← hlen, ← List.length_append, List.take_append]
      rw [List.append_assoc]
    have hlit : ∀ m, unsigned_literal
        (b.take (ip.length + (if dot then 1 + fp.length else 0) + m)) =
        ((r2.take m).isEmpty || exponent_literal (r2.take m)) := by
      intro m
      rw [htake, unsigned_literal_parts ip fp (r2.take m) dot hip f4
        (takeWhile_take_nil _ _ _ f2)
        (fun hd => ⟨(f3 hd).1, head_take_ne _ _ _ (f3 hd).2⟩), hne1, Bool.true_and]
    constructor
    · rw [hc, hlit]
      by_cases hk : k = 0
      · rw [hk]
        rfl
      · have := exponent_literal_take r2 (by rw [hex0]; omega)
        rw [hex0] at this
        rw [this, Bool.or_true]
    · intro n hn hn2
      obtain ⟨m, hm⟩ : ∃ m, n = ip.length + (if dot then 1 + fp.length else 0) + m :=
        ⟨n - (ip.length + (if dot then 1 + fp.length else 0)), by omega⟩
      rw [hm, hlit]
      have hm1 : k < m := by omega
      have hm2 : m ≤ r2.length := by omega
      have hE := exponent_literal_longest r2 m (by rw [hex0]; exact hm1) hm2
      rw [hE, Bool.or_false]
      cases r2 with
      | nil => simp at hm2; omega
      | cons a w =>
        obtain ⟨m0, rfl⟩ : ∃ m0, m = m0 + 1 := ⟨m - 1, by omega⟩
        rfl

theorem c_str_split (x : List Char) :
    ∃ rest, x = x.takeWhile (fun c => c != Char.ofNat 0) ++ rest ∧
      (rest = [] ∨ ∃ r, rest = Char.ofNat 0 :: r) := by
  refine ⟨x.dropWhile (fun c => c != Char.ofNat 0),
    (List.takeWhile_append_dropWhile _ _).symm, ?_⟩
  induction x with
  | nil => exact .inl rfl
  | cons a x ih =>
    by_cases ha : a = Char.ofNat 0
    · subst ha
      exact .inr ⟨x, by simp [List.dropWhile_cons]⟩
    · rw [List.dropWhile_cons_of_pos (by simpa using ha)]
      exact ih

theorem strtod_decimal_nul (neg : Bool) (u rest : List Char)
    (h : rest = [] ∨ ∃ r, rest = Char.ofNat 0 :: r) :
    strtod_decimal neg (u ++ rest) = strtod_decimal neg u := by
  rcases h with rfl | ⟨r, rfl⟩
  · rw [List.append_nil]
  · exact strtod_decimal_stop neg (Char.ofNat 0) (by decide) (by decide) (by decide)
      (by decide) (by decide) (by decide) u r

theorem decimal_literal_cons (c : Char) (x : List Char) :
    decimal_literal (c :: x) =
      if c = '+' ∨ c = '-' then unsigned_literal x else unsigned_literal (c :: x) := by
  simp [decimal_literal]

theorem hex_digits_start_eq (neg : Bool) (w : List Char) :
    hex_digits_start w = (strtod_hex neg w).isSome := by
  have key : (strtod_hex neg w).isSome =
      !((w.takeWhile isXDigit).isEmpty &&
        (read_fraction isXDigit (w.dropWhile isXDigit)).1.isEmpty) := by
    unfold strtod_hex
    simp only
    split
    · rename_i h
      rw [h]
      rfl
    · rename_i h
      have : ((w.takeWhile isXDigit).isEmpty &&
          (read_fraction isXDigit (w.dropWhile isXDigit)).1.isEmpty) = false := by
        simpa using h
      rw [this]
      rfl
  rw [key]
  cases w with
  | nil => rfl
  | cons d rest =>
    by_cases hd : isXDigit d = true
    · rw [List.takeWhile_cons_of_pos hd]
      simp [hex_digits_start, hd]
    · have hd1 : isXDigit d = false := by simpa using hd
      rw [List.takeWhile_cons_of_neg hd, List.dropWhile_cons_of_neg hd, read_fraction_cons]
      by_cases hp : d = '.'
      · subst hp
        cases rest with
        | nil => simp [hex_digits_start, hd1]
        | cons h r =>
          by_cases hh : isXDigit h = true
          · rw [if_pos rfl, List.takeWhile_cons_of_pos hh]
            simp [hex_digits_start, hd1, hh]
          · have hh1 : isXDigit h = false := by simpa using hh
            rw [if_pos rfl, List.takeWhile_cons_of_neg hh]
            simp [hex_digits_start, hd1, hh1]
      · rw [if_neg hp]
        simp [hex_digits_start, hd1, hp]

theorem hex_numeral_start_cons (neg : Bool) (c : Char) (x : List Char) :
    hex_numeral_start (c :: x) =
      if c = '+' ∨ c = '-' then ((after_hex_mark x).bind (strtod_hex neg)).isSome
      else ((after_hex_mark (c :: x)).bind (strtod_hex neg)).isSome := by
  have key : ∀ y : List Char, ((after_hex_mark y).map hex_digits_start == some true) =
      ((after_hex_mark y).bind (strtod_hex neg)).isSome := by
    intro y
    cases after_hex_mark y with
    | none => rfl
    | some w =>
      simp only [Option.map_some', Option.some_bind]
      rw [hex_digits_start_eq neg w]
      cases (strtod_hex neg w).isSome <;> rfl
  unfold hex_numeral_start
  simp only [key]
  by_cases h : c = '+' ∨ c = '-'
  · rw [if_pos h, if_pos (by simpa using h)]
  · rw [if_neg h, if_neg (by simpa using h)]

theorem hex_bind_nul (neg : Bool) (u rest : List Char)
    (h : rest = [] ∨ ∃ r, rest = Char.ofNat 0 :: r) :
    (after_hex_mark (u ++ rest)).bind (strtod_hex neg) =
      (after_hex_mark u).bind (strtod_hex neg) := by
  rcases h with rfl | ⟨r, rfl⟩
  · rw [List.append_nil]
  · rw [after_hex_mark_stop (Char.ofNat 0) (by decide) (by decide) (by decide)]
    cases after_hex_mark u with
    | none => rfl
    | some w =>
      simp only [Option.map_some', Option.some_bind]
      exact strtod_hex_stop neg (Char.ofNat 0) (by decide) (by decide) (by decide)
        (by decide) (by decide) (by decide) (by decide) w r

theorem strtod_hex_ge (neg : Bool) (w : List Char) (r : StrtodResult)
    (h : strtod_hex neg w = some r) : 3 ≤ r.consumed := by
  unfold strtod_hex at h
  simp only at h
  split at h
  · exact absurd h (by simp)
  · rename_i hne
    injection h with h
    subst h
    simp only
    cases hd : (read_fraction isXDigit (w.dropWhile isXDigit)).2
    · have hfp := read_fraction_nodot _ _ hd
      rw [hfp] at hne
      have : (w.takeWhile isXDigit).length ≠ 0 := by
        intro e
        exact hne (by simp [List.length_eq_zero.mp e])
      omega
    · simp only [if_true]
      omega

theorem after_hex_mark_some (y w : List Char) (h : after_hex_mark y = some w) :
    ∃ x, (x = 'x' ∨ x = 'X') ∧ y = '0' :: x :: w := by
  unfold after_hex_mark at h
  split at h
  · rename_i c x t
    split at h
    · rename_i hc
      injection h with h
      subst h
      exact ⟨x, hc.2, by rw [hc.1]⟩
    · exact absurd h (by simp)
  · exact absurd h (by simp)

theorem unsigned_literal_hex (x : Char) (hx : x = 'x' ∨ x = 'X') (y : List Char) :
    unsigned_literal ('0' :: x :: y) = false := by
  have hd : x.isDigit = false := by rcases hx with rfl | rfl <;> decide
  have hp : x ≠ '.' := by rcases hx with rfl | rfl <;> decide
  have he : (x == 'e' || x == 'E') = false := by rcases hx with rfl | rfl <;> decide
  have h0 : ('0' : Char).isDigit = true := by decide
  have hnd : ¬ x.isDigit = true := by simp [hd]
  rw [unsigned_literal_eq, List.takeWhile_cons_of_pos h0, List.dropWhile_cons_of_pos h0,
    List.takeWhile_cons_of_neg hnd, List.dropWhile_cons_of_neg hnd,
    read_fraction_cons, after_fraction_cons, if_neg hp, if_neg hp, exponent_literal_cons, he]
  rfl

/-- C17 (as amended). Decimal grammar: a span that `read_number_token` accepts
at an offset where the pre-check holds matches the decimal floating-point
grammar (optional sign, digits, optional decimal point with digits, optional
exponent marker with optional sign and digits), and no longer prefix of the
text at that offset matches it, unless the text there starts, after an
optional sign, with `0x` or `0X` followed by a hexadecimal digit or by a point
and a hexadecimal digit. Such a text is read as a hexadecimal numeral: the
accepted span takes in the `x` and at least one more character, and does not
match the decimal grammar. -/
theorem C17_decimal_grammar (s : List Char) (i len : Nat) (val : Double)
    (hi : i < s.length) (hs : is_number_start s i = .ok true)
    (hr : read_number_token s i = some (len, val)) :
    (hex_numeral_start (s.drop i) = false →
      decimal_literal ((s.drop i).take len) = true ∧
        ∀ n, len < n → n ≤ s.length - i → decimal_literal ((s.drop i).take n) = false) ∧
    (hex_numeral_start (s.drop i) = true →
      3 ≤ len ∧ decimal_literal ((s.drop i).take len) = false) := by
  obtain ⟨rest, ht, hrest⟩ := c_str_split (s.drop i)
  have hu : c_str_from s i = (s.drop i).takeWhile (fun c => c != Char.ofNat 0) := rfl
  have hlen : (s.drop i).length = s.length - i := List.length_drop _ _
  rw [read_number_token_eq] at hr
  split at hr
  · exact absurd hr (by simp)
  · rename_i hok
    injection hr with hr
    injection hr with hr1 hr2
    have hcons : (strtod (c_str_from s i)).consumed ≠ 0 := fun e => hok (.inl e)
    rw [← hlen]
    rcases c_str_from_numeric s i hi hs with ⟨c, t, hc, hnum⟩ | ⟨sg, c, t, hc, hsg, hnum⟩
    · have hnsg : ¬ (c = '+' ∨ c = '-') := by
        have := (numeric_facts c (numeric_cases c hnum)).2.2.2.1
        intro h
        rcases h with h | h <;> subst h <;> simp at this
      rw [← hu, hc] at ht
      rw [ht, List.cons_append, hex_numeral_start_cons false, if_neg hnsg, ← List.cons_append,
        hex_bind_nul false _ _ hrest, List.cons_append]
      rw [hc, strtod_of_numeric c t hnum, strtod_body_of_numeric false c t hnum] at hr1 hcons
      constructor
      · intro hx
        have hb : (after_hex_mark (c :: t)).bind (strtod_hex false) = none := by
          cases hq : (after_hex_mark (c :: t)).bind (strtod_hex false) with
          | none => rfl
          | some r =>
            rw [hq] at hx
            exact absurd hx (by simp)
        rw [hb] at hr1 hcons
        simp only at hr1 hcons
        cases hd : strtod_decimal false (c :: t) with
        | none =>
          rw [hd] at hcons
          exact absurd rfl hcons
        | some r =>
          rw [hd] at hr1 hcons
          have hr3 : len = r.consumed := by
            rw [← hr1]
            simp [StrtodResult.shift]
          have hd1 : strtod_decimal false (c :: t ++ rest) = some r := by
            rw [strtod_decimal_nul false _ _ hrest, hd]
          obtain ⟨g1, g2⟩ := strtod_decimal_longest false _ r hd1
          have hpos : 0 < r.consumed := (strtod_decimal_le false _ r hd).1
          have hdl : ∀ n, 0 < n → decimal_literal ((c :: (t ++ rest)).take n) =
              unsigned_literal ((c :: (t ++ rest)).take n) := by
            intro n hn
            obtain ⟨n0, rfl⟩ : ∃ n0, n = n0 + 1 := ⟨n - 1, by omega⟩
            rw [List.take_succ_cons, decimal_literal_cons, if_neg hnsg]
          rw [List.cons_append] at g1 g2
          refine ⟨by rw [hr3, hdl _ hpos]; exact g1, fun n hn hn2 => ?_⟩
          rw [hdl n (by omega)]
          exact g2 n (by omega) hn2
      · intro hx
        cases hq : (after_hex_mark (c :: t)).bind (strtod_hex false) with
        | none =>
          rw [hq] at hx
          exact absurd hx (by simp)
        | some r =>
          rw [hq] at hr1
          simp only at hr1
          obtain ⟨w, hw1, hw2⟩ := Option.bind_eq_some.mp hq
          obtain ⟨x, hx1, hx2⟩ := after_hex_mark_some _ w hw1
          have hge := strtod_hex_ge false w r hw2
          have hr3 : len = r.consumed := by
            rw [← hr1]
            simp [StrtodResult.shift]
          refine ⟨by omega, ?_⟩
          obtain ⟨n0, hn0⟩ : ∃ n0, len = n0 + 1 + 1 := ⟨len - 2, by omega⟩
          obtain ⟨rfl, rfl⟩ := List.cons.inj hx2
          rw [hn0]
          simp only [List.cons_append, List.take_succ_cons]
          rw [decimal_literal_cons, if_neg (by decide)]
          exact unsigned_literal_hex x hx1 _
    · rw [← hu, hc] at ht
      rw [ht, List.cons_append, hex_numeral_start_cons (sg == '-'), if_pos hsg,
        hex_bind_nul _ _ _ hrest]
      rw [hc, strtod_of_sign sg _ hsg, strtod_body_of_numeric _ c t hnum] at hr1 hcons
      constructor
      · intro hx
        have hb : (after_hex_mark (c :: t)).bind (strtod_hex (sg == '-')) = none := by
          cases hq : (after_hex_mark (c :: t)).bind (strtod_hex (sg == '-')) with
          | none => rfl
          | some r =>
            rw [hq] at hx
            exact absurd hx (by simp)
        rw [hb] at hr1 hcons
        simp only at hr1 hcons
        cases hd : strtod_decimal (sg == '-') (c :: t) with
        | none =>
          rw [hd] at hcons
          exact absurd rfl hcons
        | some r =>
          rw [hd] at hr1 hcons
          have hr3 : len = r.consumed + 1 := by
            rw [← hr1]
            simp [StrtodResult.shift, Nat.add_comm]
          have hd1 : strtod_decimal (sg == '-') (c :: t ++ rest) = some r := by
            rw [strtod_decimal_nul _ _ _ hrest, hd]
          obtain ⟨g1, g2⟩ := strtod_decimal_longest _ _ r hd1
          have hdl : ∀ n, decimal_literal ((sg :: (c :: t ++ rest)).take (n + 1)) =
              unsigned_literal ((c :: t ++ rest).take n) := by
            intro n
            rw [List.take_succ_cons, decimal_literal_cons, if_pos hsg]
          refine ⟨by rw [hr3, hdl]; exact g1, fun n hn hn2 => ?_⟩
          obtain ⟨n0, rfl⟩ : ∃ n0, n = n0 + 1 := ⟨n - 1, by omega⟩
          rw [hdl]
          exact g2 n0 (by omega) (by simp at hn2 ⊢; omega)
      · intro hx
        cases hq : (after_hex_mark (c :: t)).bind (strtod_hex (sg == '-')) with
        | none =>
          rw [hq] at hx
          exact absurd hx (by simp)
        | some r =>
          rw [hq] at hr1
          simp only at hr1
          obtain ⟨w, hw1, hw2⟩ := Option.bind_eq_some.mp hq
          obtain ⟨x, hx1, hx2⟩ := after_hex_mark_some _ w hw1
          have hge := strtod_hex_ge (sg == '-') w r hw2
          have hr3 : len = r.consumed + 1 := by
            rw [← hr1]
            simp [StrtodResult.shift, Nat.add_comm]
          refine ⟨by omega, ?_⟩
          obtain ⟨n0, hn0⟩ : ∃ n0, len = n0 + 1 + 1 + 1 := ⟨len - 3, by omega⟩
          obtain ⟨rfl, rfl⟩ := List.cons.inj hx2
          rw [hn0]
          simp only [List.cons_append, List.take_succ_cons]
          rw [decimal_literal_cons, if_pos hsg]
          exact unsigned_literal_hex x hx1 _

theorem C17_decimal_grammar_witness :
    read_number_token "k=-3.5e2e1".toList 2 = some (6, .finite true 6157265115545600 (-44)) ∧
    decimal_literal (("k=-3.5e2e1".toList.drop 2).take 6) = true ∧
    decimal_literal (("k=-3.5e2e1".toList.drop 2).take 7) = false ∧
    hex_numeral_start "-0Xz".toList = false ∧
    read_number_token "-0Xz".toList 0 = some (2, .finite true 0 0) ∧
    decimal_literal (("-0Xz".toList.drop 0).take 2) = true ∧
    decimal_literal (("-0Xz".toList.drop 0).take 3) = false ∧
    hex_numeral_start "0x.8p1".toList = true ∧
    read_number_token "0x.8p1".toList 0 = some (6, Double.ofNat 1) ∧
    decimal_literal (("0x.8p1".toList.drop 0).take 6) = false :=
  have h := (C17_decimal_grammar "k=-3.5e2e1".toList 2 6
    (.finite true 6157265115545600 (-44)) (by decide) (by decide) (by decide!)).1 (by decide)
  have g := (C17_decimal_grammar "-0Xz".toList 0 2 (.finite true 0 0) (by decide)
    (by decide) (by decide!)).1 (by decide)
  have k := (C17_decimal_grammar "0x.8p1".toList 0 6 (Double.ofNat 1) (by decide)
    (by decide) (by decide!)).2 (by decide)
  ⟨by decide!, h.1, h.2 7 (by decide) (by decide), by decide, by decide!, g.1,
    g.2 3 (by decide) (by decide), by decide, by decide!, k.2⟩

/-- C17 (counterexample). A hexadecimal numeral is consumed as one token: at
offset 0 of `0x1A` the pre-check holds and `read_number_token` accepts all
four characters with the value 26, so the line is rewritten to `26.0`; the
accepted span does not match the decimal grammar, whose longest prefix at
that offset is `0`. -/
theorem C17_hex_token_consumed :
    is_number_start "0x1A".toList 0 = .ok true ∧
    read_number_token "0x1A".toList 0 = some (4, Double.ofNat 26) ∧
    Double.ofNat 26 = .finite false 7318349394477056 (-48) ∧
    decimal_literal ("0x1A".toList.take 4) = false ∧
    decimal_literal ("0x1A".toList.take 1) = true ∧
    process_line "0x1A".toList true (Double.ofNat 1) = .ok "26.0".toList := by
  refine ⟨by decide, by decide!, by decide!, by decide, by decide, by decide!⟩

/-! ## The text written for a value, read again -/

theorem strtod_formatted_rest (s : Bool) (ip fp rest : List Char)
    (hip : ∀ c ∈ ip, c.isDigit = true) (hne : ip ≠ []) (hfp : ∀ c ∈ fp, c.isDigit = true)
    (hr1 : rest.takeWhile Char.isDigit = []) (hr2 : read_exponent 'e' 'E' rest = (0, 0)) :
    strtod (signText s ++ (ip ++ '.' :: (fp ++ rest))) =
      ⟨(signText s).length + (ip.length + (1 + fp.length)),
        round_rat s (digitsVal 10 (ip ++ fp)) (10 ^ fp.length),
        range_error (round_rat s (digitsVal 10 (ip ++ fp)) (10 ^ fp.length))
          (digitsVal 10 (ip ++ fp)) (10 ^ fp.length)⟩ := by
  have hdec : ∀ neg, strtod_decimal neg (ip ++ '.' :: (fp ++ rest)) =
      some ⟨ip.length + (1 + fp.length),
        round_rat neg (digitsVal 10 (ip ++ fp)) (10 ^ fp.length),
        range_error (round_rat neg (digitsVal 10 (ip ++ fp)) (10 ^ fp.length))
          (digitsVal 10 (ip ++ fp)) (10 ^ fp.length)⟩ := by
    intro neg
    rw [strtod_decimal_point neg ip fp rest hip hfp (Or.inl hne) hr1]
    have e2 : ((0 : ℤ) - (fp.length : ℤ)).toNat = 0 := by omega
    have e3 : (-((0 : ℤ) - (fp.length : ℤ))).toNat = fp.length := by omega
    simp only [hr2, round_scaled, e2, e3, pow_zero, mul_one, one_mul, Nat.add_zero]
  cases s with
  | false =>
    simp only [signText, Bool.false_eq_true, if_false, List.nil_append, List.length_nil,
      Nat.zero_add]
    rw [strtod_decimal_text ip _ hip hne (by constructor <;> simp), hdec false]
    simp [StrtodResult.shift]
  | true =>
    simp only [signText, if_true, List.singleton_append, List.length_singleton]
    obtain ⟨d, t, e, hd, hh⟩ := strtod_digits_start ip ('.' :: (fp ++ rest)) hip hne
      (by constructor <;> simp)
    rw [strtod_of_sign '-' _ (Or.inr rfl)]
    have hb : strtod_body ('-' == '-') (ip ++ '.' :: (fp ++ rest)) =
        strtod_decimal true (ip ++ '.' :: (fp ++ rest)) := by
      rw [e]
      exact strtod_body_numeric true d t hd hh
    rw [hb, hdec true]
    simp [StrtodResult.shift]

theorem takeWhile_digit_c_str (F : List Char) (h : F.takeWhile Char.isDigit = []) :
    (c_str_from F 0).takeWhile Char.isDigit = [] := by
  unfold c_str_from
  simp only [List.drop_zero]
  cases F with
  | nil => rfl
  | cons c t =>
    have hc : c.isDigit = false := by
      cases hd : c.isDigit with
      | false => rfl
      | true =>
        rw [List.takeWhile_cons_of_pos hd] at h
        exact absurd h (by simp)
    by_cases hn : (c != Char.ofNat 0) = true
    · simp only [List.takeWhile_cons, hn, if_true, hc, Bool.false_eq_true, if_false]
    · simp only [List.takeWhile_cons, hn, Bool.false_eq_true, if_false, List.takeWhile_nil]

theorem read_exponent_c_str (F : List Char) (h : read_exponent 'e' 'E' F = (0, 0)) :
    read_exponent 'e' 'E' (c_str_from F 0) = (0, 0) := by
  unfold c_str_from
  simp only [List.drop_zero]
  have hsplit := List.takeWhile_append_dropWhile (fun c => c != Char.ofNat 0) F
  cases hd : F.dropWhile (fun c => c != Char.ofNat 0) with
  | nil =>
    rw [hd, List.append_nil] at hsplit
    rw [hsplit]
    exact h
  | cons c r =>
    have hc : (c != Char.ofNat 0) = false := by
      have := List.head_dropWhile_not (fun c => c != Char.ofNat 0) F
        (by rw [hd]; simp)
      simpa [hd] using this
    have hc0 : c = Char.ofNat 0 := by simpa using hc
    rw [hd] at hsplit
    rw [← hsplit, hc0] at h
    rw [read_exponent_stop 'e' 'E' (Char.ofNat 0) (by decide) (by decide) (by decide)
      (by decide) (by decide)] at h
    exact h

theorem formatted_token (s : Bool) (m : Nat) (e : ℤ)
    (hm : m < 2 ^ 53) (he1 : -1074 ≤ e) (he2 : e ≤ 971) :
    ∃ P Q : Nat, 0 < Q ∧ (P : ℚ) / Q = (micro m e : ℚ) / 10 ^ 6 ∧
      reread (.finite s m e) = round_rat s P Q ∧
      ∀ F : List Char, F.takeWhile Char.isDigit = [] → read_exponent 'e' 'E' F = (0, 0) →
        is_number_start (format_float (.finite s m e) ++ F) 0 = .ok true ∧
        read_number_token (format_float (.finite s m e) ++ F) 0 =
          some ((format_float (.finite s m e)).length, round_rat s P Q) := by
  obtain ⟨kept, n, hk, hkd, hfmt⟩ := format_float_finite s m e
  obtain ⟨hI1, hI2, hI3⟩ := natToDec_spec (micro m e / 10 ^ 6)
  have hfpd : ∀ c ∈ (if kept = [] then [ '0' ] else kept), c.isDigit = true := by
    intro c hc
    split at hc
    · rw [List.mem_singleton.1 hc]; rfl
    · exact hkd c hc
  have hPQ := reparse_value (micro m e / 10 ^ 6) (micro m e % 10 ^ 6) n kept
    (Nat.mod_lt _ (by norm_num)) hk
  have hN : micro m e / 10 ^ 6 * 10 ^ 6 + micro m e % 10 ^ 6 = micro m e :=
    Nat.div_add_mod' _ _
  rw [hN] at hPQ
  have hQ : 0 < 10 ^ (if kept = [] then [ '0' ] else kept).length := by positivity
  have hPQ' : ((digitsVal 10 (natToDec (micro m e / 10 ^ 6) ++
      (if kept = [] then [ '0' ] else kept)) : Nat) : ℚ) /
      ((10 ^ (if kept = [] then [ '0' ] else kept).length : Nat) : ℚ) =
      (micro m e : ℚ) / 10 ^ 6 := by
    rw [← hPQ]
    push_cast
    rfl
  obtain ⟨hr1, hr2⟩ := reparse_finite s m e _ _ hQ hm he1 he2 hPQ'
  have hread : ∀ F : List Char, F.takeWhile Char.isDigit = [] →
      read_exponent 'e' 'E' F = (0, 0) →
      strtod (format_float (.finite s m e) ++ F) =
        ⟨(format_float (.finite s m e)).length,
          round_rat s (digitsVal 10 (natToDec (micro m e / 10 ^ 6) ++
            (if kept = [] then [ '0' ] else kept)))
            (10 ^ (if kept = [] then [ '0' ] else kept).length), false⟩ := by
    intro F hF1 hF2
    have e1 : format_float (.finite s m e) ++ F =
        signText s ++ (natToDec (micro m e / 10 ^ 6) ++
          '.' :: ((if kept = [] then [ '0' ] else kept) ++ F)) := by
      rw [hfmt]
      simp
    rw [e1, strtod_formatted_rest s _ _ F hI3 hI2 hfpd hF1 hF2, hr1, hfmt]
    congr 1
    simp only [List.length_append, List.length_cons]
    omega
  refine ⟨_, _, hQ, hPQ', ?_, ?_⟩
  · have := hread [] rfl rfl
    rw [List.append_nil] at this
    unfold reread
    rw [this]
  · intro F hF1 hF2
    constructor
    · have hhead : ∃ d t, format_float (.finite s m e) = d :: t ∧
          (d.isDigit = true ∨ (d = '-' ∧ ∃ d2 t2, t = d2 :: t2 ∧ d2.isDigit = true)) := by
        obtain ⟨d, t, hd, hdig⟩ := natToDec_head (micro m e / 10 ^ 6)
        rw [hfmt, hd]
        cases s with
        | false => exact ⟨d, _, rfl, Or.inl hdig⟩
        | true => exact ⟨'-', _, rfl, Or.inr ⟨rfl, d, _, rfl, hdig⟩⟩
      obtain ⟨d, t, hd, hcase⟩ := hhead
      rw [hd, List.cons_append, is_number_start_eq _ 0 (by simp)]
      rcases hcase with h | ⟨h, d2, t2, ht, hd2⟩
      · simp [h]
      · subst h
        subst ht
        simp [next_is_numeric, hd2]
    · rw [read_number_token_eq, c_str_from_append _ _ (format_float_no_nul _),
        hread _ (takeWhile_digit_c_str F hF1) (read_exponent_c_str F hF2)]
      simp only
      have hpos : (format_float (.finite s m e)).length ≠ 0 := by
        rw [hfmt]
        simp
      rw [if_neg (by simp [hpos])]

/-! ## The pieces of a line -/

theorem scan_lit (f : Nat) (c : Char) (rest : List Char)
    (h : is_number_start (c :: rest) 0 = .ok false ∨
      (is_number_start (c :: rest) 0 = .ok true ∧ read_number_token (c :: rest) 0 = none)) :
    scan (f + 1) (c :: rest) = .lit c :: scan f rest := by
  rcases h with h | ⟨h1, h2⟩
  · simp only [scan, h]
  · simp only [scan, h1, h2]

theorem scan_tok (f : Nat) (c : Char) (rest : List Char) (len : Nat) (val : Double)
    (hs : is_number_start (c :: rest) 0 = .ok true)
    (hr : read_number_token (c :: rest) 0 = some (len, val)) :
    scan (f + 1) (c :: rest) =
      .tok ((c :: rest).take len) val :: scan f ((c :: rest).drop len) := by
  simp only [scan, hs, hr]

theorem scan_fuel : ∀ (f f' : Nat) (u : List Char), u.length ≤ f → u.length ≤ f' →
    scan f u = scan f' u := by
  intro f
  induction f with
  | zero =>
    intro f' u h1 _
    have hu : u = [] := List.length_eq_zero.1 (by omega)
    subst hu
    cases f' <;> rfl
  | succ f ih =>
    intro f' u h1 h2
    cases u with
    | nil => cases f' <;> rfl
    | cons c rest =>
      obtain ⟨g, rfl⟩ : ∃ g, f' = g + 1 := ⟨f' - 1, by simp at h2; omega⟩
      simp only [List.length_cons] at h1 h2
      have hlit : scan f rest = scan g rest := ih g rest (by omega) (by omega)
      obtain ⟨b, hb⟩ := is_number_start_ok (c :: rest) 0 (by simp)
      cases b with
      | false => rw [scan_lit f c rest (.inl hb), scan_lit g c rest (.inl hb), hlit]
      | true =>
        cases hr : read_number_token (c :: rest) 0 with
        | none =>
          rw [scan_lit f c rest (.inr ⟨hb, hr⟩), scan_lit g c rest (.inr ⟨hb, hr⟩), hlit]
        | some p =>
          obtain ⟨len, val⟩ := p
          have hbd := read_number_token_bound _ _ _ _ hr
          simp only [List.length_cons] at hbd
          have hl : ((c :: rest).drop len).length ≤ f := by
            rw [List.length_drop]
            simp only [List.length_cons]
            omega
          have hl2 : ((c :: rest).drop len).length ≤ g := by
            rw [List.length_drop]
            simp only [List.length_cons]
            omega
          rw [scan_tok f c rest len val hb hr, scan_tok g c rest len val hb hr,
            ih g _ hl hl2]

theorem segments_cons_lit (c : Char) (rest : List Char)
    (h : is_number_start (c :: rest) 0 = .ok false ∨
      (is_number_start (c :: rest) 0 = .ok true ∧ read_number_token (c :: rest) 0 = none)) :
    segments (c :: rest) = .lit c :: segments rest := by
  unfold segments
  simp only [List.length_cons]
  exact scan_lit _ c rest h

theorem segments_cons_tok (u : List Char) (len : Nat) (val : Double)
    (hs : is_number_start u 0 = .ok true) (hr : read_number_token u 0 = some (len, val)) :
    segments u = .tok (u.take len) val :: segments (u.drop len) := by
  cases u with
  | nil => exact absurd hs (by simp [is_number_start, char_at])
  | cons c rest =>
    have hb := read_number_token_bound _ _ _ _ hr
    simp only [List.length_cons] at hb
    unfold segments
    simp only [List.length_cons]
    rw [scan_tok _ c rest len val hs hr]
    congr 1
    apply scan_fuel
    · rw [List.length_drop]
      simp only [List.length_cons]
      omega
    · exact le_refl _

theorem text_of_cons (seg : Segment) (rest : List Segment) :
    text_of (seg :: rest) = seg.src ++ text_of rest := by
  simp [text_of]

theorem rewrite_from_segments (doMult : Bool) (factor : Double) :
    ∀ (n : Nat) (u : List Char), u.length ≤ n →
      rewrite_from u doMult factor 0 =
        .ok (text_of ((segments u).map (Segment.pass doMult factor))) := by
  intro n
  induction n with
  | zero =>
    intro u hu
    have hu0 : u = [] := List.length_eq_zero.1 (by omega)
    subst hu0
    rw [rewrite_from_end _ _ _ _ (by simp)]
    rfl
  | succ n ih =>
    intro u hu
    cases u with
    | nil =>
      rw [rewrite_from_end _ _ _ _ (by simp)]
      rfl
    | cons c rest =>
      simp only [List.length_cons] at hu
      have h0 : 0 < (c :: rest).length := by simp
      have hlit : (is_number_start (c :: rest) 0 = .ok false ∨
          (is_number_start (c :: rest) 0 = .ok true ∧
            read_number_token (c :: rest) 0 = none)) →
          rewrite_from (c :: rest) doMult factor 0 =
            .ok (text_of ((segments (c :: rest)).map (Segment.pass doMult factor))) := by
        intro h
        obtain ⟨r, hr1, hr2⟩ := rewrite_from_literal (c :: rest) doMult factor 0 h0 h
        have hsh := rewrite_from_shift [c] rest doMult factor rest.length 0 (by omega)
        simp only [List.singleton_append, List.length_singleton] at hsh
        rw [Nat.zero_add] at hr1
        rw [hsh, ih rest (by omega)] at hr1
        rw [hr2, segments_cons_lit c rest h, List.map_cons, text_of_cons,
          ← Except.ok.inj hr1]
        rfl
      obtain ⟨b, hb⟩ := is_number_start_ok (c :: rest) 0 h0
      cases b with
      | false => exact hlit (.inl hb)
      | true =>
        cases hr : read_number_token (c :: rest) 0 with
        | none => exact hlit (.inr ⟨hb, hr⟩)
        | some p =>
          obtain ⟨len, val⟩ := p
          have hbd := read_number_token_bound _ _ _ _ hr
          simp only [List.length_cons] at hbd
          obtain ⟨r, hr1, hr2⟩ := rewrite_from_token (c :: rest) doMult factor 0 len val h0 hb hr
          have hsplit : (c :: rest).take len ++ (c :: rest).drop len = c :: rest :=
            List.take_append_drop _ _
          have hlen : ((c :: rest).take len).length = len := by
            rw [List.length_take]
            simp only [List.length_cons]
            omega
          have hsh := rewrite_from_shift ((c :: rest).take len) ((c :: rest).drop len)
            doMult factor ((c :: rest).drop len).length 0 (by omega)
          rw [hsplit, hlen] at hsh
          rw [Nat.zero_add] at hr1
          rw [Nat.add_zero] at hsh
          rw [hsh, ih _ (by rw [List.length_drop]; simp only [List.length_cons]; omega)] at hr1
          rw [hr2, segments_cons_tok _ len val hb hr, List.map_cons, text_of_cons,
            ← Except.ok.inj hr1]
          rfl

theorem text_of_scan : ∀ (n : Nat) (u : List Char), u.length ≤ n →
    text_of (segments u) = u := by
  intro n
  induction n with
  | zero =>
    intro u hu
    have hu0 : u = [] := List.length_eq_zero.1 (by omega)
    subst hu0
    rfl
  | succ n ih =>
    intro u hu
    cases u with
    | nil => rfl
    | cons c rest =>
      simp only [List.length_cons] at hu
      obtain ⟨b, hb⟩ := is_number_start_ok (c :: rest) 0 (by simp)
      have hlit : (is_number_start (c :: rest) 0 = .ok false ∨
          (is_number_start (c :: rest) 0 = .ok true ∧
            read_number_token (c :: rest) 0 = none)) →
          text_of (segments (c :: rest)) = c :: rest := by
        intro h
        rw [segments_cons_lit c rest h, text_of_cons, ih rest (by omega)]
        rfl
      cases b with
      | false => exact hlit (.inl hb)
      | true =>
        cases hr : read_number_token (c :: rest) 0 with
        | none => exact hlit (.inr ⟨hb, hr⟩)
        | some p =>
          obtain ⟨len, val⟩ := p
          have hbd := read_number_token_bound _ _ _ _ hr
          simp only [List.length_cons] at hbd
          rw [segments_cons_tok _ len val hb hr, text_of_cons,
            ih _ (by rw [List.length_drop]; simp only [List.length_cons]; omega)]
          exact List.take_append_drop _ _

theorem process_line_segments (line : List Char) (doMult : Bool) (factor : Double) :
    process_line line doMult factor =
      .ok (text_of ((segments line).map (Segment.pass doMult factor))) :=
  rewrite_from_segments doMult factor line.length line (le_refl _)

theorem takeWhile_of_not_digit_start (F : List Char) (h : starts_with_digit F = false) :
    F.takeWhile Char.isDigit = [] := by
  cases F with
  | nil => rfl
  | cons c t =>
    simp only [starts_with_digit] at h
    rw [List.takeWhile_cons_of_neg (by simp [h])]

theorem literal_stays (c : Char) (F : List Char) (h : stands_apart (.lit c) F = true) :
    is_number_start (c :: F) 0 = .ok false ∨
      (is_number_start (c :: F) 0 = .ok true ∧ read_number_token (c :: F) 0 = none) := by
  simp only [stands_apart, Bool.and_eq_true, Bool.not_eq_true', Bool.and_eq_false_imp,
    Bool.or_eq_false_iff] at h
  obtain ⟨⟨hdig, hdot⟩, hsign⟩ := h
  by_cases hsg : (c == '+' || c == '-') = true
  · obtain ⟨hs1, hs2⟩ := hsign hsg
    have hc : c = '+' ∨ c = '-' := by simpa using hsg
    have hcd : (c == '.') = false := by
      rcases hc with e | e <;> rw [e] <;> rfl
    have hc0 : c ≠ Char.ofNat 0 := by rcases hc with e | e <;> rw [e] <;> decide
    cases F with
    | nil =>
      left
      rw [is_number_start_eq _ 0 (by simp)]
      simp [next_is_numeric, hdig, hcd]
    | cons d F2 =>
      simp only [starts_with_digit] at hs1
      by_cases hd : d = '.'
      · subst hd
        right
        have hF2 : starts_with_digit F2 = false := by simpa using hs2
        constructor
        · rw [is_number_start_eq _ 0 (by simp)]
          simp [next_is_numeric, hsg]
        · apply read_number_token_none_of_consumed
          have e1 : c_str_from (c :: '.' :: F2) 0 = c :: '.' :: c_str_from F2 0 := by
            have := c_str_from_append [c, '.'] F2 (by
              intro x hx
              simp only [List.mem_cons, List.mem_singleton, List.not_mem_nil, or_false] at hx
              rcases hx with e | e
              · rw [e]; exact hc0
              · rw [e]; decide)
            simpa using this
          rw [e1]
          exact strtod_sign_dot_consumed c hc _
            (takeWhile_digit_c_str F2 (takeWhile_of_not_digit_start F2 hF2))
      · left
        rw [is_number_start_eq _ 0 (by simp)]
        simp [next_is_numeric, hdig, hcd, hs1, hd]
  · have hsg' : (c == '+' || c == '-') = false := by simpa using hsg
    by_cases hd : (c == '.') = true
    · right
      have hcd : c = '.' := by simpa using hd
      subst hcd
      have hF := hdot rfl
      constructor
      · exact is_number_start_of_dot _ 0 (by simp)
      · apply read_number_token_none_of_consumed
        have e1 : c_str_from ('.' :: F) 0 = '.' :: c_str_from F 0 := by
          have := c_str_from_append [ '.' ] F (by
            intro x hx
            rw [List.mem_singleton.1 hx]
            decide)
          simpa using this
        rw [e1]
        exact strtod_dot_consumed _
          (takeWhile_digit_c_str F (takeWhile_of_not_digit_start F hF))
    · left
      have hd' : (c == '.') = false := by simpa using hd
      simp only [Bool.or_eq_false_iff] at hsg'
      exact plain_not_start c F (by simp [hdig, hd', hsg'.1, hsg'.2])

/-- A list of literal characters and of numerals written by `format_float`
that stand apart is read back piece for piece. -/
theorem segments_text_of : ∀ S : List Segment,
    (∀ seg ∈ S, (∃ c, seg = .lit c) ∨ ∃ s m e, m < 2 ^ 53 ∧ -1074 ≤ e ∧ e ≤ 971 ∧
      seg = .tok (format_float (.finite s m e)) (reread (.finite s m e))) →
    apart S = true → segments (text_of S) = S := by
  intro S
  induction S with
  | nil => intro _ _; rfl
  | cons seg rest ih =>
    intro hS hap
    simp only [apart, Bool.and_eq_true] at hap
    obtain ⟨hfit, hrest⟩ := hap
    have ihr := ih (fun x hx => hS x (List.mem_cons_of_mem _ hx)) hrest
    rcases hS seg (by simp) with ⟨c, rfl⟩ | ⟨s, m, e, hm, he1, he2, rfl⟩
    · rw [text_of_cons]
      simp only [Segment.src, List.singleton_append]
      rw [segments_cons_lit c _ (literal_stays c _ hfit), ihr]
    · rw [text_of_cons]
      simp only [Segment.src]
      simp only [stands_apart, Bool.and_eq_true, Bool.not_eq_true', beq_iff_eq] at hfit
      obtain ⟨P, Q, _, _, hre, hread⟩ := formatted_token s m e hm he1 he2
      obtain ⟨h1, h2⟩ := hread (text_of rest) (takeWhile_of_not_digit_start _ hfit.1) hfit.2
      rw [segments_cons_tok _ _ _ h1 h2, List.take_left, List.drop_left, ihr, hre]

/-! ## Multiply and then Divide -/

theorem pass_formatted (sk : Bool) (mk : Nat) (ek : ℤ) (hk1 : 1 ≤ fval mk ek)
    (hk2 : fval mk ek ≤ 10 ^ 6) (seg : Segment) (h : seg.in_range = true) :
    (∃ c, Segment.pass true (.finite sk mk ek) seg = .lit c) ∨
      ∃ s m e, m < 2 ^ 53 ∧ -1074 ≤ e ∧ e ≤ 971 ∧
        Segment.pass true (.finite sk mk ek) seg =
          .tok (format_float (.finite s m e)) (reread (.finite s m e)) := by
  cases seg with
  | lit c => exact .inl ⟨c, rfl⟩
  | tok span v =>
    right
    cases v with
    | finite s m e =>
      simp only [Segment.in_range, decide_eq_true_eq] at h
      obtain ⟨m1, e1, hm1, he1, he1', hmul, _⟩ := round_trip_value m e mk ek h hk1 hk2
      refine ⟨xor s sk, m1, e1, hm1, he1, he1', ?_⟩
      simp only [Segment.pass, apply_transform, if_true, hmul]
    | inf s => exact absurd h (by simp [Segment.in_range])
    | nan s => exact absurd h (by simp [Segment.in_range])

theorem token_round_trip (sk : Bool) (mk : Nat) (ek : ℤ) (hk1 : 1 ≤ fval mk ek)
    (hk2 : fval mk ek ≤ 10 ^ 6) (span : List Char) (v : Double)
    (h : (Segment.tok span v).in_range = true) :
    ∃ s m e m2 e2, v = .finite s m e ∧
      Segment.pass false (.finite sk mk ek) (Segment.pass true (.finite sk mk ek) (.tok span v)) =
        .tok (format_float (.finite s m2 e2)) (reread (.finite s m2 e2)) ∧
      micro m2 e2 ≤ micro m e + 1 ∧ micro m e ≤ micro m2 e2 + 1 := by
  cases v with
  | finite s m e =>
    simp only [Segment.in_range, decide_eq_true_eq] at h
    obtain ⟨m1, e1, hm1, he1, he1', hmul, hdiv⟩ := round_trip_value m e mk ek h hk1 hk2
    obtain ⟨P, Q, hQ, hPQ, hre, _⟩ := formatted_token (xor s sk) m1 e1 hm1 he1 he1'
    obtain ⟨m2, e2, hd, hb1, hb2⟩ := hdiv P Q hQ hPQ
    refine ⟨s, m, e, m2, e2, rfl, ?_, hb1, hb2⟩
    have hx : xor (xor s sk) sk = s := by cases s <;> cases sk <;> rfl
    simp only [Segment.pass, apply_transform, if_true, Bool.false_eq_true, if_false, hmul, hre,
      hd, hx]
  | inf s => exact absurd h (by simp [Segment.in_range])
  | nan s => exact absurd h (by simp [Segment.in_range])

/-- C7 (as amended). Multiply/Divide round trip, for every factor `k` with
`1 ≤ |k| ≤ 10^6` and every line. The pieces of the line, literal characters
and tokens, make up the line, and rewriting the line with `Multiply(k)` writes
its literal characters and, for each token, the numeral of the product.
If every token of the line has a value that `format_float` writes as a number
below `10^9` and the pieces of the rewritten line stand apart (no literal is a
digit, no literal point is followed by a digit, no literal sign by a digit or
by a point and a digit, no numeral by a digit or by an exponent part), the
rewritten line is read back piece for piece as it was written. Whenever it is
read back so, rewriting it with `Divide(k)` yields the pieces of the original
line passed through both transforms: every literal character as it was, and
for every token whose value is written as a number below `10^9` a numeral of
the same sign that differs from the numeral `format_float` writes for the
value of the token by at most one millionth. -/
theorem C7_round_trip_within_tolerance (line : List Char) (sk : Bool) (mk : Nat) (ek : ℤ)
    (hk1 : 1 ≤ fval mk ek) (hk2 : fval mk ek ≤ 10 ^ 6) :
    text_of (segments line) = line ∧
    process_line line true (.finite sk mk ek) =
      .ok (text_of ((segments line).map (Segment.pass true (.finite sk mk ek)))) ∧
    ((segments line).all Segment.in_range = true →
      apart ((segments line).map (Segment.pass true (.finite sk mk ek))) = true →
      segments (text_of ((segments line).map (Segment.pass true (.finite sk mk ek)))) =
        (segments line).map (Segment.pass true (.finite sk mk ek))) ∧
    (segments (text_of ((segments line).map (Segment.pass true (.finite sk mk ek)))) =
        (segments line).map (Segment.pass true (.finite sk mk ek)) →
      process_line (text_of ((segments line).map (Segment.pass true (.finite sk mk ek)))) false
          (.finite sk mk ek) =
        .ok (text_of ((segments line).map (fun seg =>
          Segment.pass false (.finite sk mk ek) (Segment.pass true (.finite sk mk ek) seg))))) ∧
    (∀ c, Segment.pass false (.finite sk mk ek) (Segment.pass true (.finite sk mk ek) (.lit c)) =
      .lit c) ∧
    (∀ span v, Segment.tok span v ∈ segments line → (Segment.tok span v).in_range = true →
      ∃ s m e m2 e2, v = .finite s m e ∧
        Segment.pass false (.finite sk mk ek)
            (Segment.pass true (.finite sk mk ek) (.tok span v)) =
          .tok (format_float (.finite s m2 e2)) (reread (.finite s m2 e2)) ∧
        micro m2 e2 ≤ micro m e + 1 ∧ micro m e ≤ micro m2 e2 + 1) := by
  refine ⟨text_of_scan line.length line (le_refl _), process_line_segments line true _, ?_, ?_,
    fun _ => rfl, ?_⟩
  · intro hv hap
    apply segments_text_of _ _ hap
    intro seg hseg
    obtain ⟨seg0, hmem, rfl⟩ := List.mem_map.1 hseg
    exact pass_formatted sk mk ek hk1 hk2 seg0 (List.all_eq_true.1 hv seg0 hmem)
  · intro hH
    rw [process_line_segments, hH, List.map_map]
    rfl
  · intro span v _ hr
    exact token_round_trip sk mk ek hk1 hk2 span v hr

theorem C7_round_trip_within_tolerance_witness :
    parse_double "-2.5".toList = some (.finite true 5629499534213120 (-51)) ∧
    (segments "a-b: 007 -3.5e2 +.5, 0x1A x+y 5.".toList).all Segment.in_range = true ∧
    process_line "a-b: 007 -3.5e2 +.5, 0x1A x+y 5.".toList true
        (.finite true 5629499534213120 (-51)) =
      .ok "a-b: -17.5 875.0 -1.25, -65.0 x+y -12.5".toList ∧
    segments (text_of ((segments "a-b: 007 -3.5e2 +.5, 0x1A x+y 5.".toList).map
        (Segment.pass true (.finite true 5629499534213120 (-51))))) =
      (segments "a-b: 007 -3.5e2 +.5, 0x1A x+y 5.".toList).map
        (Segment.pass true (.finite true 5629499534213120 (-51))) ∧
    process_line "a-b: -17.5 875.0 -1.25, -65.0 x+y -12.5".toList false
        (.finite true 5629499534213120 (-51)) =
      .ok "a-b: 7.0 -350.0 0.5, 26.0 x+y 5.0".toList ∧
    (∃ s m e m2 e2, Double.finite true 6157265115545600 (-44) = .finite s m e ∧
      Segment.pass false (.finite true 5629499534213120 (-51))
          (Segment.pass true (.finite true 5629499534213120 (-51))
            (.tok "-3.5e2".toList (.finite true 6157265115545600 (-44)))) =
        .tok (format_float (.finite s m2 e2)) (reread (.finite s m2 e2)) ∧
      micro m2 e2 ≤ micro m e + 1 ∧ micro m e ≤ micro m2 e2 + 1) :=
  have h := C7_round_trip_within_tolerance "a-b: 007 -3.5e2 +.5, 0x1A x+y 5.".toList true
    5629499534213120 (-51) (by norm_num [fval]) (by norm_num [fval])
  ⟨by decide!, by decide!, by decide!, h.2.2.1 (by decide!) (by decide!), by decide!,
    h.2.2.2.2.2 "-3.5e2".toList (.finite true 6157265115545600 (-44)) (by decide!) (by decide!)⟩

/-- C7 (counterexample). The round trip is not within `1e-6` for every factor
in range and every line. With the factor `0.125` the line `0.00001` becomes
`0.000001` and then `0.000008`, so the value read from the final line differs
from the value read from the original line by more than `1e-6`. With the
factor `1.06` the line `4054199003.069` becomes `4297450943.253139` and then
`4054199003.068998`, and again the values read differ by more than `1e-6`.
With the factor `10` the line `1.2.3` becomes `12.03.0` and then `1.2030.0`,
and with the factor `2` the line `-+5` becomes `-10.0` and then `-5.0`: the
tokens of these final lines are no longer those of the original lines. -/
theorem C7_round_trip_counterexample :
    parse_double "0.125".toList = some (.finite false (2 ^ 52) (-55)) ∧
    process_line "0.00001".toList true (.finite false (2 ^ 52) (-55)) =
      .ok "0.000001".toList ∧
    process_line "0.000001".toList false (.finite false (2 ^ 52) (-55)) =
      .ok "0.000008".toList ∧
    read_number_token "0.00001".toList 0 = some (7, .finite false 5902958103587057 (-69)) ∧
    read_number_token "0.000008".toList 0 = some (8, .finite false 4722366482869645 (-69)) ∧
    (1 : ℚ) / 10 ^ 6 < |(Double.finite false 4722366482869645 (-69)).toRat -
      (Double.finite false 5902958103587057 (-69)).toRat| ∧
    process_line "1.2.3".toList true (Double.ofNat 10) = .ok "12.03.0".toList ∧
    process_line "12.03.0".toList false (Double.ofNat 10) = .ok "1.2030.0".toList ∧
    parse_double "1.06".toList = some (.finite false 4773815605012726 (-52)) ∧
    process_line "4054199003.069".toList true (.finite false 4773815605012726 (-52)) =
      .ok "4297450943.253139".toList ∧
    process_line "4297450943.253139".toList false (.finite false 4773815605012726 (-52)) =
      .ok "4054199003.068998".toList ∧
    read_number_token "4054199003.069".toList 0 =
      some (14, .finite false 8502271547684159 (-21)) ∧
    read_number_token "4054199003.068998".toList 0 =
      some (17, .finite false 8502271547684155 (-21)) ∧
    (1 : ℚ) / 10 ^ 6 < |(Double.finite false 8502271547684155 (-21)).toRat -
      (Double.finite false 8502271547684159 (-21)).toRat| ∧
    process_line "-+5".toList true (Double.ofNat 2) = .ok "-10.0".toList ∧
    process_line "-10.0".toList false (Double.ofNat 2) = .ok "-5.0".toList := by
  refine ⟨by decide!, by decide!, by decide!, by decide!, by decide!, ?_, by decide!, by decide!,
    by decide!, by decide!, by decide!, by decide!, by decide!, ?_, by decide!, by decide!⟩
  · simp only [Double.toRat, fval, Bool.false_eq_true, if_false, one_mul]
    rw [← sub_mul, abs_mul, abs_of_pos (two_zpow_pos _)]
    norm_num
  · simp only [Double.toRat, fval, Bool.false_eq_true, if_false, one_mul]
    rw [← sub_mul, abs_mul, abs_of_pos (two_zpow_pos _)]
    norm_num

end StringMath

namespace Replace
open StringMath

/-! ## `replace_all` -/

theorem isPrefixOf_iff (needle s : List Char) :
    needle.isPrefixOf s = true ↔ ∃ post, s = needle ++ post := by
  rw [List.isPrefixOf_iff_prefix]
  constructor
  · rintro ⟨t, ht⟩
    exact ⟨t, ht.symm⟩
  · rintro ⟨t, ht⟩
    exact ⟨t, ht.symm⟩

/-- While an occurrence is passed over, nothing is collected. -/
theorem pieces_skip (inp : List Char) :
    ∀ (x post cur : List Char), pieces inp (x ++ post) x.length cur = pieces inp post 0 cur
  | [], post, cur => rfl
  | a :: x, post, cur => by
    simp only [List.cons_append, List.length_cons, pieces]
    exact pieces_skip inp x post cur

theorem pieces_ne_nil (inp : List Char) :
    ∀ (s : List Char) (k : Nat) (cur : List Char), pieces inp s k cur ≠ []
  | [], _, _ => by simp [pieces]
  | _ :: t, k + 1, cur => by
    simp only [pieces]
    exact pieces_ne_nil inp t k cur
  | c :: t, 0, cur => by
    simp only [pieces]
    split
    · simp
    · exact pieces_ne_nil inp t 0 (cur ++ [c])

/-- Where `find` reports no occurrence, the line is one piece. -/
theorem pieces_of_not_found (inp : List Char) (hne : inp ≠ []) :
    ∀ (s : List Char) (p : Nat) (cur : List Char), find_at inp s p = none →
      pieces inp s 0 cur = [cur ++ s]
  | [], _, cur, _ => by simp [pieces]
  | c :: t, p, cur, h => by
    rw [find_at] at h
    split at h
    · exact absurd h (by simp)
    · rename_i hpre
      simp only [pieces, hpre, Bool.false_eq_true, if_false]
      rw [pieces_of_not_found inp hne t (p + 1) _ h]
      simp

/-- Where `find` reports an occurrence, it is the leftmost one: the line is
what stands before it, the occurrence and a rest, and the pieces of the line
are what stands before it and the pieces of the rest. -/
theorem pieces_of_found (inp : List Char) (hne : inp ≠ []) :
    ∀ (s : List Char) (p q : Nat), find_at inp s p = some q →
      ∃ pre post, s = pre ++ (inp ++ post) ∧ q = p + pre.length ∧
        ∀ cur, pieces inp s 0 cur = (cur ++ pre) :: pieces inp post 0 []
  | [], p, q, h => by
    rw [find_at] at h
    have : inp.isEmpty = false := by
      cases inp with
      | nil => exact absurd rfl hne
      | cons _ _ => rfl
    rw [this] at h
    exact absurd h (by simp)
  | c :: t, p, q, h => by
    rw [find_at] at h
    split at h
    · rename_i hpre
      injection h with h
      obtain ⟨post, hpost⟩ := (isPrefixOf_iff _ _).mp hpre
      refine ⟨[], post, by simpa using hpost, by simp [h], fun cur => ?_⟩
      simp only [pieces, hpre, if_true, List.append_nil]
      cases hi : inp with
      | nil => exact absurd hi hne
      | cons a x =>
        rw [hi] at hpost
        injection hpost with h1 h2
        have h2a : t = x ++ post := h2
        rw [h2a]
        simp only [List.length_cons, Nat.add_sub_cancel]
        rw [pieces_skip]
    · rename_i hpre
      obtain ⟨pre, post, h1, h2, h3⟩ := pieces_of_found inp hne t (p + 1) q h
      refine ⟨c :: pre, post, by rw [h1]; rfl, by rw [h2, List.length_cons]; omega,
        fun cur => ?_⟩
      simp only [pieces, hpre, Bool.false_eq_true, if_false]
      rw [h3]
      simp

theorem intercalate_cons (sep x : List Char) (xs : List (List Char)) (h : xs ≠ []) :
    sep.intercalate (x :: xs) = x ++ (sep ++ sep.intercalate xs) := by
  cases xs with
  | nil => exact absurd rfl h
  | cons y ys => simp [List.intercalate, List.intersperse]

theorem find_of_done (done rest inp : List Char) :
    find (done ++ rest) inp done.length = find_at inp rest done.length := by
  unfold find
  rw [if_pos (by simp), List.drop_left]

/-- The loop of `replace_all`, with `done` written and `rest` still to be
searched, leaves `done` followed by the pieces of `rest` joined with `out`. -/
theorem replace_loop_pieces (inp out : List Char) (hne : inp ≠ []) :
    ∀ (fuel : Nat) (done rest : List Char), rest.length ≤ fuel →
      replace_loop inp out fuel (done ++ rest) done.length =
        .ok (done ++ out.intercalate (pieces inp rest 0 [])) := by
  have hlen : 0 < inp.length := List.length_pos.mpr hne
  intro fuel
  induction fuel with
  | zero =>
    intro done rest hf
    have hr : rest = [] := List.length_eq_zero.mp (by omega)
    subst hr
    have hnone : find_at inp [] done.length = none := by
      rw [find_at]
      cases inp with
      | nil => exact absurd rfl hne
      | cons _ _ => rfl
    rw [replace_loop, find_of_done, hnone]
    simp [pieces, List.intercalate]
  | succ fuel ih =>
    intro done rest hf
    rw [replace_loop, find_of_done]
    cases hfind : find_at inp rest done.length with
    | none =>
      simp only
      rw [pieces_of_not_found inp hne rest _ [] hfind]
      simp [List.intercalate]
    | some q =>
      simp only
      obtain ⟨pre, post, h1, h2, h3⟩ := pieces_of_found inp hne rest _ q hfind
      have e1 : (done ++ rest).take q = done ++ pre := by
        rw [h1, h2, ← List.append_assoc, ← List.length_append, List.take_left]
      have e2 : (done ++ rest).drop (q + inp.length) = post := by
        rw [h1, h2]
        have : done ++ (pre ++ (inp ++ post)) = (done ++ pre ++ inp) ++ post := by simp
        rw [this]
        have hl : done.length + pre.length + inp.length = (done ++ pre ++ inp).length := by
          simp only [List.length_append]
        rw [hl, List.drop_left]
      have e3 : q + out.length = (done ++ pre ++ out).length := by
        rw [h2]
        simp only [List.length_append]
      rw [e1, e2, e3, ih (done ++ pre ++ out) post (by rw [h1] at hf; simp at hf; omega),
        h3 [], intercalate_cons _ _ _ (pieces_ne_nil inp post 0 [])]
      simp

theorem find_at_none_of_absent (inp : List Char) (hne : inp ≠ []) (s : List Char) (p : Nat)
    (h : ¬ inp <:+: s) : find_at inp s p = none := by
  cases hf : find_at inp s p with
  | none => rfl
  | some q =>
    obtain ⟨pre, post, h1, -, -⟩ := pieces_of_found inp hne s p q hf
    exact absurd ⟨pre, post, by rw [h1]; simp⟩ h

/-- `find` reports the leftmost occurrence. -/
theorem find_at_leftmost (inp post : List Char) (hne : inp ≠ []) :
    ∀ (pre : List Char) (p : Nat),
      (∀ j, j < pre.length → ¬ inp <+: (pre ++ (inp ++ post)).drop j) →
      find_at inp (pre ++ (inp ++ post)) p = some (p + pre.length) := by
  intro pre
  induction pre with
  | nil =>
    intro p _
    cases hi : inp with
    | nil => exact absurd hi hne
    | cons a x =>
      have : (a :: x).isPrefixOf (a :: (x ++ post)) = true :=
        (isPrefixOf_iff _ _).mpr ⟨post, rfl⟩
      show find_at (a :: x) (a :: (x ++ post)) p = some (p + 0)
      rw [find_at, if_pos this]
      rfl
  | cons c pre ih =>
    intro p hf
    have h0 : ¬ inp.isPrefixOf (c :: pre ++ (inp ++ post)) = true := by
      rw [List.isPrefixOf_iff_prefix]
      exact hf 0 (by simp)
    rw [List.cons_append] at h0 ⊢
    rw [find_at, if_neg h0, ih (p + 1) (fun j hj => by
      have := hf (j + 1) (by simp; omega)
      simpa using this)]
    simp only [List.length_cons]
    congr 1
    omega

/-- C12. `replace_all` replaces all occurrences of IN with OUT: for a
non-empty IN it returns, also when OUT contains IN, and leaves the line split
at its leftmost non-overlapping occurrences of IN and joined with OUT; for an
empty IN, or an IN that does not occur in the line, it leaves the line as it
is. The split is the one described: a line without occurrence is one piece,
and a line with a leftmost occurrence is what stands before it, followed by
the pieces of what stands after it. -/
theorem C12_replace_all_reference :
    (∀ line inp out : List Char, inp ≠ [] →
      replace_all line inp out = .ok (split_join line inp out)) ∧
    (∀ line out : List Char, replace_all line [] out = .ok line) ∧
    (∀ line inp out : List Char, ¬ inp <:+: line → replace_all line inp out = .ok line) ∧
    (∀ line inp : List Char, inp ≠ [] → ¬ inp <:+: line → pieces inp line 0 [] = [line]) ∧
    (∀ pre inp post : List Char, inp ≠ [] →
      (∀ j, j < pre.length → ¬ inp <+: (pre ++ (inp ++ post)).drop j) →
      pieces inp (pre ++ (inp ++ post)) 0 [] = pre :: pieces inp post 0 []) := by
  have hmain : ∀ line inp out : List Char, inp ≠ [] →
      replace_all line inp out = .ok (split_join line inp out) := by
    intro line inp out hne
    have hemp : inp.isEmpty = false := by
      cases inp with
      | nil => exact absurd rfl hne
      | cons _ _ => rfl
    unfold replace_all split_join
    rw [hemp]
    have := replace_loop_pieces inp out hne line.length [] line (le_refl _)
    simpa using this
  have hone : ∀ line inp : List Char, inp ≠ [] → ¬ inp <:+: line →
      pieces inp line 0 [] = [line] := by
    intro line inp hne hn
    have := pieces_of_not_found inp hne line 0 [] (find_at_none_of_absent inp hne line 0 hn)
    simpa using this
  refine ⟨hmain, fun line out => rfl, ?_, hone, ?_⟩
  · intro line inp out hn
    by_cases hne : inp = []
    · subst hne
      rfl
    · rw [hmain line inp out hne, split_join, hone line inp hne hn]
      simp [List.intercalate]
  · intro pre inp post hne hfirst
    obtain ⟨pre1, post1, h1, h2, h3⟩ := pieces_of_found inp hne _ 0 _
      (find_at_leftmost inp post hne pre 0 hfirst)
    have hl : pre1.length = pre.length := by omega
    have hp : pre1 = pre := by
      have := congrArg (List.take pre.length) h1
      rw [List.take_left, ← hl, List.take_left] at this
      exact this.symm
    subst hp
    have hq : post1 = post := by
      have := List.append_cancel_left (List.append_cancel_left h1)
      exact this.symm
    subst hq
    simpa using h3 []

theorem C12_replace_all_reference_witness :
    replace_all "a/b//c".toList "/".toList "//".toList = .ok "a//b////c".toList ∧
    split_join "a/b//c".toList "/".toList "//".toList = "a//b////c".toList ∧
    replace_all "aaa".toList "aa".toList "b".toList = .ok "ba".toList ∧
    replace_all "abc".toList "x".toList "y".toList = .ok "abc".toList :=
  ⟨by decide, by decide,
    (C12_replace_all_reference.1 "aaa".toList "aa".toList "b".toList (by decide)).trans
      (by decide),
    C12_replace_all_reference.2.2.1 "abc".toList "x".toList "y".toList (by decide)⟩

end Replace

namespace Replace
open StringMath

/-! ## `unescape` -/

theorem decode_single (c : Char) : decode [c] = [c] := rfl

theorem decode_pair (n : Char) (t : List Char) :
    decode (Char.ofNat 92 :: n :: t) = escape_char n :: decode t := by
  simp [decode]

theorem decode_cons_ne (c : Char) (hc : c ≠ Char.ofNat 92) :
    ∀ rest : List Char, decode (c :: rest) = c :: decode rest
  | [] => rfl
  | n :: t => by simp [decode, hc]

theorem decode_no_backslash : ∀ s : List Char, Char.ofNat 92 ∉ s → decode s = s
  | [], _ => rfl
  | c :: rest, h => by
    have hc : c ≠ Char.ofNat 92 := fun e => h (by simp [e])
    rw [decode_cons_ne c hc, decode_no_backslash rest (fun hm => h (List.mem_cons_of_mem _ hm))]

theorem decode_length : ∀ (n : Nat) (s : List Char), s.length ≤ n →
    (decode s).length + decoded_pairs s = s.length
  | _, [], _ => rfl
  | _, [c], _ => rfl
  | 0, c :: n :: t, h => by simp at h
  | k + 1, c :: n :: t, h => by
    by_cases hc : c = Char.ofNat 92
    · subst hc
      have ih := decode_length k t (by simp at h; omega)
      rw [decode_pair]
      simp only [decoded_pairs, if_true, List.length_cons]
      omega
    · have ih := decode_length k (n :: t) (by simp at h ⊢; omega)
      rw [decode_cons_ne c hc]
      simp only [decoded_pairs, if_neg hc, List.length_cons] at ih ⊢
      omega

theorem drop_eq_cons (s : List Char) (i : Nat) (h : i < s.length) :
    s.drop i = s.get ⟨i, h⟩ :: s.drop (i + 1) := by
  simp

/-- The loop of `unescape` writes the decoding of what is left of the string. -/
theorem unescape_loop_decode (s : List Char) :
    ∀ (fuel i : Nat) (out : List Char), s.length - i ≤ fuel →
      unescape_loop s fuel i out = .ok (out ++ decode (s.drop i)) := by
  intro fuel
  induction fuel with
  | zero =>
    intro i out hf
    have hi : ¬ i < s.length := by omega
    rw [unescape_loop, if_neg hi, List.drop_eq_nil_of_le (by omega)]
    simp [decode]
  | succ fuel ih =>
    intro i out hf
    by_cases hi : i < s.length
    · rw [unescape_loop, if_pos hi]
      simp only [char_at_of_lt s i hi]
      by_cases hc : s.get ⟨i, hi⟩ = Char.ofNat 92 ∧ i + 1 < s.length
      · rw [if_pos hc]
        obtain ⟨hc1, hc2⟩ := hc
        simp only [char_at_of_lt s (i + 1) hc2]
        rw [ih (i + 1 + 1) _ (by omega), drop_eq_cons s i hi, drop_eq_cons s (i + 1) hc2,
          hc1, decode_pair]
        simp
      · rw [if_neg hc, ih (i + 1) _ (by omega), drop_eq_cons s i hi]
        by_cases h1 : s.get ⟨i, hi⟩ = Char.ofNat 92
        · have h2 : ¬ i + 1 < s.length := fun h => hc ⟨h1, h⟩
          rw [List.drop_eq_nil_of_le (by omega)]
          simp [decode]
        · rw [decode_cons_ne _ h1]
          simp
    · rw [unescape_loop, if_neg hi, List.drop_eq_nil_of_le (by omega)]
      simp [decode]

/-- C19. `unescape` returns the left-to-right decoding of its argument: a
backslash followed by a character is a pair that gives one character (`n`
newline, `r` carriage return, `t` tab, backslash, double quote, single quote,
`0` NUL, any other character itself), every other character, a trailing lone
backslash included, is copied. Two backslashes give one backslash, a string
without a backslash is returned unchanged, and the output is shorter than the
input by the number of decoded pairs. -/
theorem C19_unescape_decodes :
    (∀ s : List Char, unescape s = .ok (decode s)) ∧
    (decode [] = [] ∧ (∀ c : Char, decode [c] = [c]) ∧
      (∀ (n : Char) (t : List Char),
        decode (Char.ofNat 92 :: n :: t) = escape_char n :: decode t) ∧
      (∀ (c : Char) (rest : List Char), c ≠ Char.ofNat 92 →
        decode (c :: rest) = c :: decode rest)) ∧
    (escape_char 'n' = Char.ofNat 10 ∧ escape_char 'r' = Char.ofNat 13 ∧
      escape_char 't' = Char.ofNat 9 ∧ escape_char (Char.ofNat 92) = Char.ofNat 92 ∧
      escape_char (Char.ofNat 34) = Char.ofNat 34 ∧
      escape_char (Char.ofNat 39) = Char.ofNat 39 ∧ escape_char '0' = Char.ofNat 0 ∧
      (∀ c : Char, c ∉ ['n', 'r', 't', '0'] → escape_char c = c)) ∧
    unescape [Char.ofNat 92, Char.ofNat 92] = .ok [Char.ofNat 92] ∧
    (∀ s : List Char, Char.ofNat 92 ∉ s → unescape s = .ok s) ∧
    (∀ s : List Char, ∃ r, unescape s = .ok r ∧ r.length + decoded_pairs s = s.length) := by
  have hmain : ∀ s : List Char, unescape s = .ok (decode s) := by
    intro s
    have := unescape_loop_decode s s.length 0 [] (by omega)
    simpa [unescape] using this
  refine ⟨hmain, ⟨rfl, decode_single, decode_pair, fun c rest hc => decode_cons_ne c hc rest⟩,
    ⟨by decide, by decide, by decide, by decide, by decide, by decide, by decide, ?_⟩,
    by decide, ?_, ?_⟩
  · intro c hc
    simp only [List.mem_cons, List.mem_singleton, List.not_mem_nil, or_false, not_or] at hc
    obtain ⟨h1, h2, h3, h4⟩ := hc
    unfold escape_char
    rw [if_neg h1, if_neg h2, if_neg h3, if_neg h4]
    split
    · rename_i h; exact h.symm
    · split
      · rename_i h; exact h.symm
      · split
        · rename_i h; exact h.symm
        · rfl
  · intro s hs
    rw [hmain, decode_no_backslash s hs]
  · intro s
    exact ⟨_, hmain s, decode_length s.length s (le_refl _)⟩

theorem C19_unescape_decodes_witness :
    unescape "a/b c".toList = .ok "a/b c".toList ∧
    unescape ['a', Char.ofNat 92, 'n', Char.ofNat 92, 'q', Char.ofNat 92] =
      .ok ['a', Char.ofNat 10, 'q', Char.ofNat 92] :=
  ⟨C19_unescape_decodes.2.2.2.2.1 "a/b c".toList (by decide), by decide⟩

/-! ## The command line of `replace` -/

theorem replace_arg_loop_single (a : List Char) (st : ArgState) :
    arg_loop [a] st =
      if a = "-h".toList ∨ a = "--help".toList then .error ⟨0, help_text⟩ else .ok st := by
  rw [arg_loop]

theorem replace_arg_loop_pair (a v : List Char) (rest : List (List Char)) (st : ArgState) :
    arg_loop (a :: v :: rest) st =
      if a = "-i".toList ∨ a = "--in".toList then
        arg_loop rest ⟨v, st.out, true, st.haveOut⟩
      else if a = "-o".toList ∨ a = "--out".toList then
        arg_loop rest ⟨st.inp, v, st.haveIn, true⟩
      else if a = "-h".toList ∨ a = "--help".toList then .error ⟨0, help_text⟩
      else arg_loop (v :: rest) st := by
  rw [arg_loop]

/-- C13 (the code at the documented invocation). With the arguments
`-in IN -out OUT` of the header usage, `main` never processes a line: the
arguments `-in` and `-out` are taken by no branch of the argument loop, so the
run ends with exit code 2 for a missing argument (or with the help text when
`IN` or `OUT` is a help flag), whatever standard input holds. With `-i` and
`-o` the same values are accepted. -/
theorem C13_documented_invocation_rejected :
    main ["-in".toList, "/".toList, "-out".toList, [Char.ofNat 92, Char.ofNat 92]]
      ["a/b".toList] = .ok ⟨2, []⟩ ∧
    main ["-i".toList, "/".toList, "-o".toList, [Char.ofNat 92, Char.ofNat 92]]
      ["a/b".toList] = .ok ⟨0, ['a', Char.ofNat 92, 'b', Char.ofNat 10]⟩ ∧
    (∀ (vIn vOut : List Char) (stdin : List (List Char)),
      main ["-in".toList, vIn, "-out".toList, vOut] stdin = .ok ⟨2, []⟩ ∨
        main ["-in".toList, vIn, "-out".toList, vOut] stdin = .ok ⟨0, help_text⟩) := by
  refine ⟨by decide, by decide, ?_⟩
  intro vIn vOut stdin
  have h1 : ¬ ("-in".toList = "-i".toList ∨ "-in".toList = "--in".toList) := by decide
  have h2 : ¬ ("-in".toList = "-o".toList ∨ "-in".toList = "--out".toList) := by decide
  have h3 : ¬ ("-in".toList = "-h".toList ∨ "-in".toList = "--help".toList) := by decide
  have g1 : ¬ ("-out".toList = "-i".toList ∨ "-out".toList = "--in".toList) := by decide
  have g2 : ¬ ("-out".toList = "-o".toList ∨ "-out".toList = "--out".toList) := by decide
  have g3 : ¬ ("-out".toList = "-h".toList ∨ "-out".toList = "--help".toList) := by decide
  have e1 : arg_loop ["-in".toList, vIn, "-out".toList, vOut] ArgState.init =
      arg_loop [vIn, "-out".toList, vOut] ArgState.init := by
    rw [replace_arg_loop_pair, if_neg h1, if_neg h2, if_neg h3]
  have e2 : arg_loop ["-out".toList, vOut] ArgState.init = arg_loop [vOut] ArgState.init := by
    rw [replace_arg_loop_pair, if_neg g1, if_neg g2, if_neg g3]
  have e3 : ∀ st : ArgState, arg_loop [vOut] st =
      if vOut = "-h".toList ∨ vOut = "--help".toList then .error ⟨0, help_text⟩
      else .ok st := by
    intro st
    rw [replace_arg_loop_single]
  unfold main
  rw [e1, replace_arg_loop_pair]
  split_ifs with a1 a2 a3
  · rw [e3]
    split_ifs
    · exact .inr rfl
    · exact .inl rfl
  · rw [e3]
    split_ifs
    · exact .inr rfl
    · exact .inl rfl
  · exact .inr rfl
  · rw [e2, e3]
    split_ifs
    · exact .inr rfl
    · exact .inl rfl

end Replace

namespace Swap
open StringMath

/-! ## The per-line transform of `swap` -/

theorem ltrim_inplace_eq : ∀ s : List Char, ltrim_inplace s = s.dropWhile isspace
  | [] => rfl
  | c :: t => by
    unfold ltrim_inplace
    by_cases hc : isspace c = true
    · rw [ltrim_scan, if_pos hc, List.dropWhile_cons_of_pos hc, List.drop_succ_cons]
      exact ltrim_inplace_eq t
    · rw [ltrim_scan, if_neg hc, List.dropWhile_cons_of_neg hc]
      rfl

theorem rtrim_scan_take (s : List Char) :
    ∀ i, i ≤ s.length →
      s.take (rtrim_scan s i) = ((s.take i).reverse.dropWhile isspace).reverse
  | 0, _ => by simp [rtrim_scan]
  | i + 1, h => by
    have hi : i < s.length := by omega
    have ht : s.take (i + 1) = s.take i ++ [s.get ⟨i, hi⟩] := by
      rw [List.take_succ, List.getElem?_eq_getElem hi]
      rfl
    rw [rtrim_scan, List.getElem?_eq_getElem hi, ht, List.reverse_append]
    simp only [Option.map_some', Option.some.injEq, List.reverse_singleton,
      List.singleton_append, List.get_eq_getElem]
    by_cases hc : isspace s[i] = true
    · rw [if_pos hc, List.dropWhile_cons_of_pos hc]
      exact rtrim_scan_take s i (by omega)
    · rw [if_neg hc, List.dropWhile_cons_of_neg hc, ht]
      simp

theorem rtrim_inplace_eq (s : List Char) :
    rtrim_inplace s = (s.reverse.dropWhile isspace).reverse := by
  unfold rtrim_inplace
  cases s with
  | nil => rfl
  | cons c t =>
    simp only [List.isEmpty_cons, Bool.false_eq_true, if_false]
    rw [rtrim_scan_take (c :: t) _ (le_refl _), List.take_length]

theorem trim_inplace_eq (s : List Char) : trim_inplace s = strip_spaces s := by
  unfold trim_inplace strip_spaces
  rw [ltrim_inplace_eq, rtrim_inplace_eq]

theorem find_zero (line d : List Char) : Replace.find line d 0 = Replace.find_at d line 0 := by
  simp [Replace.find]

/-- C14 (as amended). The per-line transform of `swap`, for the line as the
loop holds it once a trailing carriage return has been removed
(`strip_cr raw`; it is `raw` itself when `raw` does not end with one): for a
non-empty delimiter whose first occurrence splits that line as
`left ++ d ++ right`, what is written is `right ++ d ++ left`, with `left` and
`right` each stripped of leading and trailing white space when `-e` is given;
when the delimiter does not occur in it, or is empty, that line is written as
it is. Without `-e` what is written has the length of that line. -/
theorem C14_swap_line (raw d : List Char) :
    (∀ left right : List Char, d ≠ [] → strip_cr raw = left ++ d ++ right →
      (∀ j, j < left.length → ¬ d <+: (strip_cr raw).drop j) →
      swap_line d false raw = right ++ d ++ left ∧
        swap_line d true raw = strip_spaces right ++ d ++ strip_spaces left) ∧
    (∀ e : Bool, ¬ d <:+: strip_cr raw → swap_line d e raw = strip_cr raw) ∧
    (∀ e : Bool, swap_line [] e raw = strip_cr raw) ∧
    (swap_line d false raw).length = (strip_cr raw).length ∧
    (raw.getLast? ≠ some (Char.ofNat 13) → strip_cr raw = raw) := by
  refine ⟨?_, ?_, fun e => rfl, ?_, ?_⟩
  · intro left right hne hsplit hfirst
    have hemp : d.isEmpty = false := by
      cases d with
      | nil => exact absurd rfl hne
      | cons _ _ => rfl
    have hsplit1 : strip_cr raw = left ++ (d ++ right) := by rw [hsplit, List.append_assoc]
    have hfind : Replace.find (strip_cr raw) d 0 = some left.length := by
      rw [find_zero, hsplit1]
      have := Replace.find_at_leftmost d right hne left 0 (by rw [← hsplit1]; exact hfirst)
      simpa using this
    have e1 : (strip_cr raw).take left.length = left := by
      rw [hsplit1, List.take_left]
    have e2 : (strip_cr raw).drop (left.length + d.length) = right := by
      rw [hsplit, ← List.length_append, List.drop_left]
    unfold swap_line
    simp only [hemp, Bool.false_eq_true, if_false, hfind, e1, e2, if_true, trim_inplace_eq,
      and_self]
  · intro e hn
    by_cases hne : d = []
    · subst hne
      rfl
    · have hemp : d.isEmpty = false := by
        cases d with
        | nil => exact absurd rfl hne
        | cons _ _ => rfl
      unfold swap_line
      simp only [hemp, Bool.false_eq_true, if_false, find_zero,
        Replace.find_at_none_of_absent d hne _ 0 hn]
  · by_cases hne : d = []
    · subst hne
      rfl
    · have hemp : d.isEmpty = false := by
        cases d with
        | nil => exact absurd rfl hne
        | cons _ _ => rfl
      unfold swap_line
      simp only [hemp, Bool.false_eq_true, if_false, find_zero]
      cases hf : Replace.find_at d (strip_cr raw) 0 with
      | none => rfl
      | some q =>
        obtain ⟨pre, post, h1, h2, -⟩ := Replace.pieces_of_found d hne _ 0 q hf
        have e1 : (strip_cr raw).take q = pre := by
          rw [h1, h2, Nat.zero_add, List.take_left]
        have e2 : (strip_cr raw).drop (q + d.length) = post := by
          rw [h1, h2, Nat.zero_add, ← List.append_assoc, ← List.length_append, List.drop_left]
        simp only [e1, e2]
        rw [h1]
        simp only [List.length_append]
        omega
  · intro h
    unfold strip_cr
    rw [if_neg h]

theorem C14_swap_line_witness :
    swap_line " : ".toList false "key : a : b".toList = "a : b : key".toList ∧
    swap_line " : ".toList true " k  :  v ".toList = "v : k".toList ∧
    strip_spaces " k ".toList = "k".toList ∧
    main ["-e".toList] [" k  :  v ".toList, "plain".toList] =
      ⟨0, "v : k\nplain\n".toList⟩ :=
  ⟨((C14_swap_line "key : a : b".toList " : ".toList).1 "key".toList "a : b".toList
      (by decide) (by decide) (by decide)).1,
    by decide, by decide, by decide⟩

/-- C14 (counterexample). A line that ends with a carriage return is not
written as the claim says: the carriage return is removed first, so
`a : b` followed by a carriage return gives `b : a`, and a line without the
delimiter is written without its carriage return, one character shorter. -/
theorem C14_carriage_return_removed :
    swap_line " : ".toList false ("a : b".toList ++ [Char.ofNat 13]) = "b : a".toList ∧
    "a : b".toList ++ [Char.ofNat 13] =
      "a".toList ++ " : ".toList ++ ("b".toList ++ [Char.ofNat 13]) ∧
    swap_line " : ".toList false ("a : b".toList ++ [Char.ofNat 13]) ≠
      ("b".toList ++ [Char.ofNat 13]) ++ " : ".toList ++ "a".toList ∧
    swap_line " : ".toList false ("abc".toList ++ [Char.ofNat 13]) = "abc".toList ∧
    swap_line " : ".toList false ("abc".toList ++ [Char.ofNat 13]) ≠
      "abc".toList ++ [Char.ofNat 13] ∧
    (swap_line " : ".toList false ("abc".toList ++ [Char.ofNat 13])).length ≠
      ("abc".toList ++ [Char.ofNat 13]).length ∧
    Replace.find ("abc".toList ++ [Char.ofNat 13]) " : ".toList 0 = none := by
  decide

end Swap
